import Mathlib

/-!
# Schreder: test suites, the Swagger and RAML generators, the default assertion

A shallow embedding of the Go package `schreder`.

* Go maps that the code only reads by iteration (`ParamMap`) are lists of
  key/value pairs, in the order in which the run iterates them.
* Go maps that the code builds and reads by key are functions `K → Option V`,
  written to with `Function.update`.
* A Go map held through a reference keeps what was written to it: the
  generators are therefore state-passing functions that return the generator
  as it is after the call, next to the result of the call.
* A Go map that a function only writes to (the table `defs` of definitions)
  is the list of the writes, in order; the owner of the map applies them.
* Functions of third-party packages (JSON marshalling and reading, schema
  reflection, the final serializer) are fields of `Extern` and `JsonLib`, or
  arguments; a panic is the result `none`.
-/

namespace Schreder

/-! ## Go values held in an `interface{}` -/

/-- Width of a Go integer type: `int`/`uint` (native) or one of the sized ones. -/
inductive IntWidth where
  | native | w8 | w16 | w32 | w64
  deriving DecidableEq, Repr

/-- A dynamic Go value, as stored in an `interface{}`. -/
inductive GoValue where
  /-- The nil interface value (no dynamic type). -/
  | nil
  | bool (b : Bool)
  /-- Values of `int`, `int8`, `int16`, `int32`, `int64`. -/
  | int (w : IntWidth) (v : Int)
  /-- Values of `uint`, `uint8`, `uint16`, `uint32`, `uint64`. -/
  | uint (w : IntWidth) (v : Nat)
  /-- A finite `float32`, given by the rational it denotes. -/
  | float32 (v : Rat)
  /-- A finite `float64`, given by the rational it denotes. -/
  | float64 (v : Rat)
  | string (s : String)
  /-- A value of type `[]byte`. -/
  | bytes (b : List UInt8)
  /-- A value of type `time.Time`. -/
  | time (unixNano : Int)
  /-- A non-nil pointer and the value it points to. -/
  | ptr (target : GoValue)
  /-- A nil pointer of type `*elemType`. -/
  | nilPtr (elemType : String)
  /-- A value of a defined type `typeName` with the given underlying value. -/
  | named (typeName : String) (underlying : GoValue)
  /-- A value of any other kind (struct, slice, array, map, chan, func,
  complex, uintptr), identified by its type and a rendering of its content. -/
  | other (typeName : String) (repr : String)
  deriving DecidableEq

/-- Name of a Go integer width as it appears in a type name. -/
def IntWidth.suffix : IntWidth → String
  | .native => ""
  | .w8 => "8"
  | .w16 => "16"
  | .w32 => "32"
  | .w64 => "64"

/-- The dynamic type of a value as `%T` prints it. -/
def GoValue.typeName : GoValue → String
  | .nil => "<nil>"
  | .bool _ => "bool"
  | .int w _ => "int" ++ w.suffix
  | .uint w _ => "uint" ++ w.suffix
  | .float32 _ => "float32"
  | .float64 _ => "float64"
  | .string _ => "string"
  | .bytes _ => "[]uint8"
  | .time _ => "time.Time"
  | .ptr t => "*" ++ t.typeName
  | .nilPtr e => "*" ++ e
  | .named n _ => n
  | .other n _ => n

/-! ## testsuite.go -/

/-- The struct `Param`. -/
structure Param where
  Value : GoValue := GoValue.nil
  Required : Bool := false
  Description : String := ""
  deriving DecidableEq

/-- The type `ParamMap` (`map[string]Param`), as the list of its entries in
iteration order. -/
abbrev ParamMap := List (String × Param)

/-- The struct `TestCase`; a nil `RequestBody` or `ExpectedData` is
`GoValue.nil`, a nil `ExpectedHeaders` is `none`, a nil `AssertResponse` is
`none`. A parameter map is given by its entries, so the nil map and the map
made without entries are both the empty list; `QueryParamsMade` tells them
apart for `QueryParams`, the one map that the code compares with nil: it is
true for a non-nil map without entries (a map with entries is not nil). -/
structure TestCase where
  Description : String := ""
  Headers : ParamMap := []
  QueryParams : ParamMap := []
  PathParams : ParamMap := []
  RequestBody : GoValue := GoValue.nil
  ExpectedHttpCode : Int := 0
  ExpectedHeaders : Option (List (String × String)) := none
  ExpectedData : GoValue := GoValue.nil
  AssertResponse : Option (GoValue → List UInt8 → Bool) := none
  QueryParamsMade : Bool := false

/-- A value implementing the interface `Test`: what its four methods return,
and its tag when it also implements `ITaggable`. -/
structure Test where
  Method : String
  Description : String := ""
  Path : String
  TestCases : List TestCase := []
  Tag : Option String := none

/-! ## Schemas (`jsonschema.Type`, `spec.Schema`) -/

/-- The fields of `jsonschema.Type` that the generators read. -/
inductive JsonschemaType where
  | mk (Type_ Ref Format : String) (Required : List String) (Pattern : String)
      (Enum : List GoValue) (Default : GoValue) (Title Description : String)
      (Items : Option JsonschemaType)
      (Properties : Option (List (String × JsonschemaType)))
      (PatternProperties : Option (List (String × JsonschemaType)))
      (AdditionalProperties : String)

/-- What `jsonschema.Reflect` returns: the root type and the named definitions. -/
structure JsonschemaSchema where
  Type_ : JsonschemaType
  Definitions : List (String × JsonschemaType) := []

/-- The fields of `spec.Schema` that the generators write. -/
inductive SpecSchema where
  | mk (Type_ : List String) (Ref Format : String) (Required : List String)
      (Pattern : String) (Enum : List GoValue) (Default : GoValue)
      (Title Description : String)
      (Items : Option SpecSchema)
      (Properties : Option (List (String × SpecSchema)))
      (PatternProperties : Option (List (String × SpecSchema)))
      (AdditionalProperties : Option Bool)
      (Definitions : Option (List (String × SpecSchema)))

/-- Setting the field `Definitions` of a `spec.Schema`. -/
def SpecSchema.withDefinitions : SpecSchema → Option (List (String × SpecSchema)) → SpecSchema
  | .mk t r f req p e d ti de it pr pp ap _, defs => .mk t r f req p e d ti de it pr pp ap defs

mutual
/-- The function `specSchemaFromJsonType`. -/
def specSchemaFromJsonType : JsonschemaType → SpecSchema
  | .mk type ref format required pattern enum default title description
      items properties patternProperties additionalProperties =>
    .mk (if type ≠ "" then [type] else []) ref format required pattern enum default
      title description
      (match items with
        | none => none
        | some i => some (specSchemaFromJsonType i))
      (match properties with
        | none => none
        | some ps => some (specSchemaFromJsonProps ps))
      (match patternProperties with
        | none => none
        | some ps => some (specSchemaFromJsonProps ps))
      (if additionalProperties = "true" then some true
        else if additionalProperties = "false" then some false else none)
      none
/-- The loops of `specSchemaFromJsonType` over a map of properties. -/
def specSchemaFromJsonProps : List (String × JsonschemaType) → List (String × SpecSchema)
  | [] => []
  | (key, prop) :: rest => (key, specSchemaFromJsonType prop) :: specSchemaFromJsonProps rest
end

/-! ## Third-party functions -/

/-- A Go map that the code builds and reads by key. -/
abbrev GoMap (K V : Type) := K → Option V

/-- The empty map. -/
def GoMap.empty {K V : Type} : GoMap K V := fun _ => none

/-- The third-party functions that the generators call on example values. -/
structure Extern where
  /-- The call `jsonschema.Reflect(v)`. -/
  Reflect : GoValue → JsonschemaSchema
  /-- The call `json.MarshalIndent(v, "", "  ")` on an example value: the text, or
  `none` when it returns an error. -/
  MarshalIndent : GoValue → Option String
  /-- The call `json.MarshalIndent(schema, "", "  ")` on a reflected schema. -/
  MarshalIndentSchema : JsonschemaSchema → Option String

/-- What a function of result type `([]byte, error)` returns: the bytes (`none`
for a nil slice) and the error (`none` for nil). -/
abbrev Result := Option (List UInt8) × Option String

/-! ## generator_swagger.go -/

/-- The fields of `spec.Parameter` that the generator writes. -/
structure Parameter where
  Name : String := ""
  In : String := ""
  Required : Bool := false
  Description : String := ""
  Default : GoValue := GoValue.nil
  Type_ : String := ""
  Schema : Option SpecSchema := none

/-- The fields of `spec.Response` that the generator writes; `Examples` is the
list of the entries of the map, empty for a nil map. -/
structure Response where
  Description : String := ""
  Schema : Option SpecSchema := none
  Examples : List (String × GoValue) := []

/-- The fields of `spec.Operation` that the generator writes; `Responses` is
the map `op.Responses.StatusCodeResponses`. -/
structure Operation where
  Summary : String := ""
  Tags : List String := []
  Parameters : List Parameter := []
  Responses : GoMap Int Response := GoMap.empty

/-- The operation slots of `spec.PathItem`. -/
structure PathItem where
  Get : Option Operation := none
  Post : Option Operation := none
  Patch : Option Operation := none
  Delete : Option Operation := none
  Put : Option Operation := none
  Head : Option Operation := none
  Options : Option Operation := none

/-- The struct `spec.Info` (the fields the tests set). -/
structure Info where
  Title : String := ""
  Description : String := ""
  Version : String := ""
  deriving DecidableEq

/-- The struct `spec.Swagger`: some metadata, `Paths` (the content of the map
behind the pointer `Paths`) and `Definitions`. -/
structure Swagger where
  Swagger : String := ""
  Host : String := ""
  BasePath : String := ""
  Schemes : List String := []
  Consumes : List String := []
  Produces : List String := []
  Info : Option Info := none
  Paths : GoMap String PathItem := GoMap.empty
  Definitions : GoMap String SpecSchema := GoMap.empty

/-- The type `MarshallerFunc`. -/
abbrev MarshallerFunc := Swagger → Result

/-- The struct `swaggerGenerator`. -/
structure swaggerGenerator where
  seed : Swagger
  marshaller : MarshallerFunc

/-- The function `NewSwaggerGenerator`. -/
def NewSwaggerGenerator (seed : Swagger) (marshaller : MarshallerFunc) : swaggerGenerator :=
  { seed := { seed with Swagger := "2.0", Paths := GoMap.empty }, marshaller := marshaller }

/-- The function `generateSpecSimpleType`. -/
def generateSpecSimpleType (value : GoValue) : Except String String :=
  match value with
  | .int _ _ => .ok "integer"
  | .uint _ _ => .ok "integer"
  | .float32 _ => .ok "number"
  | .float64 _ => .ok "number"
  | .bool _ => .ok "boolean"
  | .string _ => .ok "string"
  | v => .error ("value of complex type '" ++ v.typeName ++ "' provided, simple type expected")

/-- The function `generateSwaggerSpecParam`. -/
def generateSwaggerSpecParam (paramKey : String) (param : Param) (location : String) :
    Except String Parameter :=
  match generateSpecSimpleType param.Value with
  | .error err => .error ("could not guess type of parameter '" ++ paramKey ++ "': " ++ err)
  | .ok paramType =>
    .ok { Name := paramKey, In := location, Required := param.Required,
          Description := param.Description, Default := param.Value, Type_ := paramType }

/-- Writes to the definitions table `defs`, in the order in which they are made. -/
abbrev DefWrites := List (String × SpecSchema)

/-- The table of definitions after the writes `ws` were made to the table `defs`. -/
def applyDefWrites : DefWrites → GoMap String SpecSchema → GoMap String SpecSchema
  | [], defs => defs
  | (name, d) :: rest, defs => applyDefWrites rest (Function.update defs name (some d))

/-- The function `generateSpecSchema`: the schema of the item, and the writes
that the call makes to `defs` (one for each reflected definition). -/
def generateSpecSchema (ext : Extern) (item : GoValue) : SpecSchema × DefWrites :=
  let refl := ext.Reflect item
  ((specSchemaFromJsonType refl.Type_).withDefinitions (some []),
    specSchemaFromJsonProps refl.Definitions)

/-- One of the three parameter loops of `generateSwaggerOperation`, over the
entries of a `ParamMap`: `processed` is the set of names already emitted for
this location, `params` is `op.Parameters`, and `prep` is what the loop does
to the entry before converting it (the path loop sets `Required`). -/
def collectSwaggerParams (location : String) (prep : Param → Param) :
    ParamMap → List String → List Parameter → Except String (List String × List Parameter)
  | [], processed, params => .ok (processed, params)
  | (key, param) :: rest, processed, params =>
    if key ∈ processed then
      collectSwaggerParams location prep rest processed params
    else
      match generateSwaggerSpecParam key (prep param) location with
      | .error err => .error err
      | .ok specParam =>
        collectSwaggerParams location prep rest (key :: processed) (params ++ [specParam])

/-- The local variables of `generateSwaggerOperation` during its loop. -/
structure swaggerOpState where
  Parameters : List Parameter := []
  Responses : GoMap Int Response := GoMap.empty
  description : String := ""
  processedQueryParams : List String := []
  processedPathParams : List String := []
  processedHeaderParams : List String := []
  defs : DefWrites := []

/-- The part of the loop body of `generateSwaggerOperation` that is guarded
by the 2xx test. -/
def swaggerCollect (ext : Extern) (st : swaggerOpState) (testCase : TestCase) :
    Except String swaggerOpState :=
  match collectSwaggerParams "header" id testCase.Headers st.processedHeaderParams
      st.Parameters with
  | .error err => .error err
  | .ok (ph, params1) =>
    match collectSwaggerParams "path" (fun p => { p with Required := true })
        testCase.PathParams st.processedPathParams params1 with
    | .error err => .error err
    | .ok (pp, params2) =>
      match collectSwaggerParams "query" id testCase.QueryParams st.processedQueryParams
          params2 with
      | .error err => .error err
      | .ok (pq, params3) =>
        let st1 : swaggerOpState :=
          { st with description := testCase.Description, processedHeaderParams := ph,
                    processedPathParams := pp, processedQueryParams := pq,
                    Parameters := params3 }
        if testCase.RequestBody ≠ GoValue.nil then
          let sd := generateSpecSchema ext testCase.RequestBody
          let specParam : Parameter :=
            { Name := "body", In := "body", Required := true,
              Description := (ext.MarshalIndent testCase.RequestBody).getD "",
              Schema := some sd.1 }
          .ok { st1 with Parameters := st1.Parameters ++ [specParam],
                         defs := st1.defs ++ sd.2 }
        else
          .ok st1

/-- The response entry that `generateSwaggerOperation` builds for a test case,
and the writes to `defs` made for it. -/
def swaggerResponse (ext : Extern) (testCase : TestCase) : Response × DefWrites :=
  if testCase.ExpectedData ≠ GoValue.nil then
    let sd := generateSpecSchema ext testCase.ExpectedData
    ({ Description := testCase.Description, Schema := some sd.1,
       Examples := [("application/json", testCase.ExpectedData)] }, sd.2)
  else
    ({ Description := testCase.Description }, [])

/-- The loop body of `generateSwaggerOperation`. -/
def swaggerCase (ext : Extern) (st : swaggerOpState) (testCase : TestCase) :
    Except String swaggerOpState :=
  match (if 200 ≤ testCase.ExpectedHttpCode ∧ testCase.ExpectedHttpCode < 300 then
      swaggerCollect ext st testCase else .ok st) with
  | .error err => .error err
  | .ok st1 =>
    let rd := swaggerResponse ext testCase
    .ok { st1 with
          Responses := Function.update st1.Responses testCase.ExpectedHttpCode (some rd.1),
          defs := st1.defs ++ rd.2 }

/-- The loop of `generateSwaggerOperation` over the test cases. -/
def swaggerCases (ext : Extern) : List TestCase → swaggerOpState → Except String swaggerOpState
  | [], st => .ok st
  | testCase :: rest, st =>
    match swaggerCase ext st testCase with
    | .error err => .error err
    | .ok st1 => swaggerCases ext rest st1

/-- The method `generateSwaggerOperation`: the operation and the writes made
to `defs`, or the error. -/
def generateSwaggerOperation (ext : Extern) (test : Test) :
    Except String (Operation × DefWrites) :=
  match swaggerCases ext test.TestCases {} with
  | .error err => .error err
  | .ok st =>
    .ok ({ Summary := st.description,
           Tags := match test.Tag with
             | some tag => [tag]
             | none => [],
           Parameters := st.Parameters,
           Responses := st.Responses }, st.defs)

/-- The switch of `swaggerGenerator.Generate` on the method of the test. -/
def PathItem.assign (path : PathItem) (method : String) (op : Operation) : PathItem :=
  if method = "GET" then { path with Get := some op }
  else if method = "POST" then { path with Post := some op }
  else if method = "PATCH" then { path with Patch := some op }
  else if method = "DELETE" then { path with Delete := some op }
  else if method = "PUT" then { path with Put := some op }
  else if method = "HEAD" then { path with Head := some op }
  else if method = "OPTIONS" then { path with Options := some op }
  else path

/-- What the loop body of `swaggerGenerator.Generate` does with the operation
built for a test: it reads the entry of the path of the test (the zero
`PathItem` when the map has none), assigns the operation by the method, and
writes the entry back. -/
def swaggerStore (paths : GoMap String PathItem) (test : Test) (op : Operation) :
    GoMap String PathItem :=
  let path := (paths test.Path).getD {}
  Function.update paths test.Path (some (path.assign test.Method op))

/-- The loop of `swaggerGenerator.Generate` over the tests: the content of the
map `doc.Paths.Paths` when the loop is left, and the table `doc.Definitions` or
the error with which it is left. -/
def swaggerTests (ext : Extern) : List Test → GoMap String PathItem → GoMap String SpecSchema →
    GoMap String PathItem × Except String (GoMap String SpecSchema)
  | [], paths, defs => (paths, .ok defs)
  | test :: rest, paths, defs =>
    match generateSwaggerOperation ext test with
    | .error err => (paths, .error err)
    | .ok (op, ws) => swaggerTests ext rest (swaggerStore paths test op) (applyDefWrites ws defs)

/-- The document that `swaggerGenerator.Generate` hands to the marshaller, or
the error it returns before; with it the generator after the call, whose
`seed.Paths` is the map that the call wrote to. -/
def swaggerGenerator.document (ext : Extern) (g : swaggerGenerator) (tests : List Test) :
    swaggerGenerator × Except String Swagger :=
  let r := swaggerTests ext tests g.seed.Paths GoMap.empty
  let g1 : swaggerGenerator := { g with seed := { g.seed with Paths := r.1 } }
  match r.2 with
  | .error err => (g1, .error err)
  | .ok defs => (g1, .ok { g1.seed with Definitions := defs })

/-- The method `swaggerGenerator.Generate`: the generator after the call and
what the call returns. -/
def swaggerGenerator.Generate (ext : Extern) (g : swaggerGenerator) (tests : List Test) :
    swaggerGenerator × Result :=
  let r := g.document ext tests
  match r.2 with
  | .error err => (r.1, (none, some err))
  | .ok doc => (r.1, g.marshaller doc)

/-! ## generator_raml.go -/

/-- The fields of `raml.NamedParameter` that the generator writes. -/
structure NamedParameter where
  Name : String := ""
  Description : String := ""
  Required : Bool := false
  Default : GoValue := GoValue.nil
  Type_ : String := ""
  deriving DecidableEq

/-- The fields of `raml.Response` that the generator writes; `DefaultSchema`
and `DefaultExample` are the fields of `Bodies`. -/
structure RamlResponse where
  Description : String := ""
  HTTPCode : Int := 0
  DefaultSchema : String := ""
  DefaultExample : String := ""
  deriving DecidableEq

/-- The fields of `raml.Method` that the generator writes. -/
structure Method where
  Responses : GoMap Int RamlResponse := GoMap.empty
  Headers : GoMap String NamedParameter := GoMap.empty
  QueryParameters : GoMap String NamedParameter := GoMap.empty
  Description : String := ""
  Name : String := ""

/-- The fields of `raml.Resource` that the generator uses: the table of URI
parameters and the six method slots of the type. -/
structure Resource where
  UriParameters : GoMap String NamedParameter := GoMap.empty
  Get : Option Method := none
  Post : Option Method := none
  Patch : Option Method := none
  Delete : Option Method := none
  Put : Option Method := none
  Head : Option Method := none

/-- The struct `raml.APIDefinition`: some metadata and `Resources`. -/
structure APIDefinition where
  RAMLVersion : String := ""
  Title : String := ""
  Version : String := ""
  BaseUri : String := ""
  Protocols : List String := []
  MediaType : String := ""
  Resources : GoMap String Resource := GoMap.empty

/-- The struct `ramlGenerator`. -/
structure ramlGenerator where
  seed : APIDefinition

/-- The function `NewRamlGenerator`. -/
def NewRamlGenerator (seed : APIDefinition) : ramlGenerator :=
  { seed := { seed with RAMLVersion := "0.8", Resources := GoMap.empty } }

mutual
/-- The function `resolveRamlType`; `none` when the call panics
(`reflect.ValueOf(nil).Type()`, or `Interface()` on the zero `reflect.Value`
that `reflect.Indirect` gives for a nil pointer). -/
def resolveRamlType : GoValue → Option String
  | .bytes _ => some "string"
  | .time _ => some "date"
  | .ptr (.time _) => some "date"
  | .nilPtr elemType => if elemType = "time.Time" then some "date" else none
  | .nil => none
  | .bool _ => some "boolean"
  | .string _ => some "string"
  | .int _ _ => some "integer"
  | .uint _ _ => some "integer"
  | .float32 _ => some "number"
  | .float64 _ => some "number"
  | .ptr target => resolveRamlType target
  | .named _ underlying => resolveRamlKind underlying
  | .other _ _ => some ""
/-- The switch of `resolveRamlType` on the kind of the value, for a value of a
defined type with the given underlying value. -/
def resolveRamlKind : GoValue → Option String
  | .nil => none
  | .bool _ => some "boolean"
  | .string _ => some "string"
  | .int _ _ => some "integer"
  | .uint _ _ => some "integer"
  | .float32 _ => some "number"
  | .float64 _ => some "number"
  | .ptr target => resolveRamlType target
  | .nilPtr _ => none
  | .named _ underlying => resolveRamlKind underlying
  | .bytes _ => some ""
  | .time _ => some ""
  | .other _ _ => some ""
end

/-- The function `generateRamlNamedParameter`; `none` when it panics. -/
def generateRamlNamedParameter (paramKey : String) (param : Param) : Option NamedParameter :=
  match resolveRamlType param.Value with
  | none => none
  | some t =>
    some { Name := paramKey, Description := param.Description, Required := param.Required,
           Default := param.Value, Type_ := t }

/-- One of the three parameter loops of `ramlGenerator.Generate`, writing to
the map `table`: the map when the loop is left, and the set of processed names,
or `none` when the loop is left by a panic. -/
def collectRamlParams : ParamMap → List String → GoMap String NamedParameter →
    GoMap String NamedParameter × Option (List String)
  | [], processed, table => (table, some processed)
  | (key, param) :: rest, processed, table =>
    if key ∈ processed then
      collectRamlParams rest processed table
    else
      match generateRamlNamedParameter key param with
      | none => (table, none)
      | some p => collectRamlParams rest (key :: processed) (Function.update table key (some p))

/-- The local variables of `ramlGenerator.Generate` during the loop over the
test cases of one test. -/
structure ramlOpState where
  m : Method
  processedHeaderParams : List String := []
  processedPathParams : List String := []
  processedQueryParams : List String := []

/-- The response entry that `ramlGenerator.Generate` builds for a test case. -/
def ramlResponse (ext : Extern) (testCase : TestCase) : RamlResponse :=
  if testCase.ExpectedData ≠ GoValue.nil then
    { Description := testCase.Description, HTTPCode := testCase.ExpectedHttpCode,
      DefaultSchema := (ext.MarshalIndentSchema (ext.Reflect testCase.ExpectedData)).getD "",
      DefaultExample := (ext.MarshalIndent testCase.ExpectedData).getD "" }
  else
    { Description := testCase.Description, HTTPCode := testCase.ExpectedHttpCode }

/-- The body of the loop of `ramlGenerator.Generate` over the test cases:
`uri` is the map `resource.UriParameters`, returned as it is when the body is
left; the state is `none` when the body is left by a panic. -/
def ramlCase (ext : Extern) (uri : GoMap String NamedParameter) (st : ramlOpState)
    (testCase : TestCase) : GoMap String NamedParameter × Option ramlOpState :=
  match collectRamlParams testCase.PathParams st.processedPathParams uri with
  | (uri1, none) => (uri1, none)
  | (uri1, some pp) =>
    match collectRamlParams testCase.Headers st.processedHeaderParams st.m.Headers with
    | (_, none) => (uri1, none)
    | (headers, some ph) =>
      match collectRamlParams testCase.QueryParams st.processedQueryParams
          st.m.QueryParameters with
      | (_, none) => (uri1, none)
      | (query, some pq) =>
        (uri1, some
          { m := { st.m with
                   Description := testCase.Description,
                   Headers := headers,
                   QueryParameters := query,
                   Responses := Function.update st.m.Responses testCase.ExpectedHttpCode
                     (some (ramlResponse ext testCase)) },
            processedHeaderParams := ph,
            processedPathParams := pp,
            processedQueryParams := pq })

/-- The loop of `ramlGenerator.Generate` over the test cases of one test. -/
def ramlCases (ext : Extern) : List TestCase → GoMap String NamedParameter → ramlOpState →
    GoMap String NamedParameter × Option ramlOpState
  | [], uri, st => (uri, some st)
  | testCase :: rest, uri, st =>
    match ramlCase ext uri st testCase with
    | (uri1, none) => (uri1, none)
    | (uri1, some st1) => ramlCases ext rest uri1 st1

/-- The switch of `ramlGenerator.Generate` on the method of the test. -/
def Resource.assign (resource : Resource) (method : String) (m : Method) : Resource :=
  if method = "GET" then { resource with Get := some m }
  else if method = "POST" then { resource with Post := some m }
  else if method = "PATCH" then { resource with Patch := some m }
  else if method = "DELETE" then { resource with Delete := some m }
  else if method = "PUT" then { resource with Put := some m }
  else if method = "HEAD" then { resource with Head := some m }
  else resource

/-- The normalization of the path at the head of the loop of
`ramlGenerator.Generate`; `none` when `path[0]` panics (empty path). -/
def ramlPath (path : String) : Option String :=
  match path.data with
  | [] => none
  | c :: _ => if c ≠ '/' then some ("/" ++ path) else some path

/-- The method that the loop of `ramlGenerator.Generate` over the test cases
builds for a test, in its final state, with the map `resource.UriParameters`
as the loop leaves it. -/
def ramlOperation (ext : Extern) (test : Test) (uri : GoMap String NamedParameter) :
    GoMap String NamedParameter × Option ramlOpState :=
  ramlCases ext test.TestCases uri
    { m := { Description := test.Description, Name := test.Method } }

/-- The body of the loop of `ramlGenerator.Generate` over the tests: the
content of the map `doc.Resources` when the body is left, and whether it is
left normally (`false`: by a panic). A panic amid the test cases leaves in
place what was already written to the `UriParameters` map of a resource that
the map `doc.Resources` holds. -/
def ramlTest (ext : Extern) (resources : GoMap String Resource) (test : Test) :
    GoMap String Resource × Bool :=
  match ramlPath test.Path with
  | none => (resources, false)
  | some path =>
    let resource : Resource := (resources path).getD {}
    match ramlOperation ext test resource.UriParameters with
    | (uri, none) =>
      match resources path with
      | none => (resources, false)
      | some stored =>
        (Function.update resources path (some { stored with UriParameters := uri }), false)
    | (uri, some st) =>
      (Function.update resources path
        (some (({ resource with UriParameters := uri } : Resource).assign test.Method st.m)),
        true)

/-- The loop of `ramlGenerator.Generate` over the tests. -/
def ramlTests (ext : Extern) : List Test → GoMap String Resource → GoMap String Resource × Bool
  | [], resources => (resources, true)
  | test :: rest, resources =>
    match ramlTest ext resources test with
    | (resources1, false) => (resources1, false)
    | (resources1, true) => ramlTests ext rest resources1

/-- The document that `ramlGenerator.Generate` hands to `yaml.Marshal`, or
`none` when the call panics before; with it the generator after the call,
whose `seed.Resources` is the map that the call wrote to. -/
def ramlGenerator.document (ext : Extern) (g : ramlGenerator) (tests : List Test) :
    ramlGenerator × Option APIDefinition :=
  let r := ramlTests ext tests g.seed.Resources
  let g1 : ramlGenerator := { seed := { g.seed with Resources := r.1 } }
  if r.2 then (g1, some g1.seed) else (g1, none)

/-- The header line that `ramlGenerator.Generate` puts before the document. -/
def ramlHeader (doc : APIDefinition) : List UInt8 :=
  ("#%RAML " ++ doc.RAMLVersion ++ "\n").toUTF8.toList

/-- The method `ramlGenerator.Generate`, given the function `yaml.Marshal`:
the generator after the call and what the call returns, `none` when it
panics. -/
def ramlGenerator.Generate (ext : Extern) (yamlMarshal : APIDefinition → Result)
    (g : ramlGenerator) (tests : List Test) : ramlGenerator × Option Result :=
  let r := g.document ext tests
  match r.2 with
  | none => (r.1, none)
  | some doc =>
    match yamlMarshal doc with
    | (generatedDoc, none) => (r.1, some (some (ramlHeader doc ++ generatedDoc.getD []), none))
    | (generatedDoc, some err) => (r.1, some (generatedDoc, some err))

/-! ## Vocabulary of the statements -/

/-- The guard of `generateSwaggerOperation`: the expected code is in [200,300). -/
def TestCase.is2xx (tc : TestCase) : Prop :=
  200 ≤ tc.ExpectedHttpCode ∧ tc.ExpectedHttpCode < 300

instance (tc : TestCase) : Decidable tc.is2xx := by
  unfold TestCase.is2xx
  infer_instance

/-- The parameter map that a test case declares for a location. -/
def TestCase.paramsAt (tc : TestCase) (location : String) : ParamMap :=
  if location = "header" then tc.Headers
  else if location = "path" then tc.PathParams
  else if location = "query" then tc.QueryParams
  else []

/-- Whether a parameter is located in the header, the path or the query. -/
def Parameter.isSimple (p : Parameter) : Prop :=
  p.In = "header" ∨ p.In = "path" ∨ p.In = "query"

instance (p : Parameter) : Decidable p.isSimple := by
  unfold Parameter.isSimple
  infer_instance

/-- The (location, name) pairs of the header, path and query parameters of a
list of parameters, in the order of the list. -/
def simplePairs (ps : List Parameter) : List (String × String) :=
  (ps.filter (fun p => decide p.isSimple)).map (fun p => (p.In, p.Name))

/-- The parameters of a list that are located in the body. -/
def bodyParams (ps : List Parameter) : List Parameter :=
  ps.filter (fun p => decide (p.In = "body"))

/-- The last test case of a list that satisfies a condition. -/
def lastCase (cond : TestCase → Bool) (cases : List TestCase) : Option TestCase :=
  (cases.filter cond).getLast?

/-- Invariant of the loop of `generateSwaggerOperation` after the test cases
`done`: the header, path and query parameters emitted so far are pairwise
different, they are those of the three sets of processed names, and these sets
hold the names declared by the 2xx test cases among `done`. -/
structure SwaggerInv (st : swaggerOpState) (done : List TestCase) : Prop where
  nodup : (simplePairs st.Parameters).Nodup
  header : ∀ n, ("header", n) ∈ simplePairs st.Parameters ↔ n ∈ st.processedHeaderParams
  path : ∀ n, ("path", n) ∈ simplePairs st.Parameters ↔ n ∈ st.processedPathParams
  query : ∀ n, ("query", n) ∈ simplePairs st.Parameters ↔ n ∈ st.processedQueryParams
  headerDone : ∀ n, n ∈ st.processedHeaderParams ↔
    ∃ tc ∈ done, tc.is2xx ∧ n ∈ tc.Headers.map Prod.fst
  pathDone : ∀ n, n ∈ st.processedPathParams ↔
    ∃ tc ∈ done, tc.is2xx ∧ n ∈ tc.PathParams.map Prod.fst
  queryDone : ∀ n, n ∈ st.processedQueryParams ↔
    ∃ tc ∈ done, tc.is2xx ∧ n ∈ tc.QueryParams.map Prod.fst

/-! ## Sample inputs -/

/-- Third-party functions for the evaluations on sample inputs. -/
def sampleExtern : Extern where
  Reflect := fun v =>
    { Type_ := JsonschemaType.mk "" ("#/definitions/" ++ v.typeName) "" [] "" [] GoValue.nil
        "" "" none none none "",
      Definitions := [(v.typeName,
        JsonschemaType.mk "object" "" "" [] "" [] GoValue.nil "" "" none none none "false")] }
  MarshalIndent := fun v =>
    match v with
    | .other _ repr => some repr
    | .string s => some s
    | _ => none
  MarshalIndentSchema := fun _ => some "{}"

/-- A test in the manner of `GetUserTest`: one 2xx test case and one 404 test
case that declares a query parameter of its own. -/
def sampleGetUser : Test where
  Method := "GET"
  Description := "Test for GetUser API handler"
  Path := "/user/{username}"
  TestCases :=
    [ { Description := "Successful getting of user details",
        Headers := [("Content-Type", { Value := GoValue.string "application/json" })],
        PathParams := [("username", { Value := GoValue.string "octocat" })],
        ExpectedHttpCode := 200,
        ExpectedData := GoValue.other "User" "octocat" },
      { Description := "404 error in case user not found",
        PathParams := [("username", { Value := GoValue.string "someveryunknown" })],
        QueryParams := [("verbose", { Value := GoValue.bool true })],
        ExpectedHttpCode := 404,
        ExpectedData := GoValue.string "user someveryunknown not found" } ]

/-- The operation that the Swagger generator builds for a test, the zero
operation when it returns an error. -/
def swaggerOperationOf (ext : Extern) (test : Test) : Operation :=
  match generateSwaggerOperation ext test with
  | .ok r => r.1
  | .error _ => {}

/-- The writes to `defs` that the Swagger generator makes for a test. -/
def swaggerWritesOf (ext : Extern) (test : Test) : DefWrites :=
  match generateSwaggerOperation ext test with
  | .ok r => r.2
  | .error _ => []

/-- A test whose two test cases have the same expected code and different
expected data. -/
def sampleDuplicateCode : Test where
  Method := "GET"
  Path := "/hello"
  TestCases :=
    [ { Description := "first greeting", ExpectedHttpCode := 200,
        ExpectedData := GoValue.string "Hello World!" },
      { Description := "second greeting", ExpectedHttpCode := 200,
        ExpectedData := GoValue.other "Greeting" "text: Hello" } ]

/-- A test with a request body on each of its two 2xx test cases. -/
def sampleTwoBodies : Test where
  Method := "POST"
  Path := "/user"
  TestCases :=
    [ { Description := "User created successfully", ExpectedHttpCode := 201,
        RequestBody := GoValue.other "User" "login: octocat" },
      { Description := "User created again", ExpectedHttpCode := 200,
        RequestBody := GoValue.other "User" "login: monalisa" } ]

/-- The final state of the loop that builds the RAML method of a test, the
initial state when the loop panics. -/
def ramlStateOf (ext : Extern) (test : Test) (uri : GoMap String NamedParameter) : ramlOpState :=
  match (ramlOperation ext test uri).2 with
  | some st => st
  | none => { m := {} }

/-- The methods for which `swaggerGenerator.Generate` has a slot. -/
def swaggerMethods : List String := ["GET", "POST", "PATCH", "DELETE", "PUT", "HEAD", "OPTIONS"]

/-- The methods for which `ramlGenerator.Generate` has a slot. -/
def ramlMethods : List String := ["GET", "POST", "PATCH", "DELETE", "PUT", "HEAD"]

/-- The operation that a path entry holds under a method name. -/
def PathItem.operation (item : PathItem) (method : String) : Option Operation :=
  if method = "GET" then item.Get
  else if method = "POST" then item.Post
  else if method = "PATCH" then item.Patch
  else if method = "DELETE" then item.Delete
  else if method = "PUT" then item.Put
  else if method = "HEAD" then item.Head
  else if method = "OPTIONS" then item.Options
  else none

/-- The method that a resource holds under a method name. -/
def Resource.method (resource : Resource) (method : String) : Option Method :=
  if method = "GET" then resource.Get
  else if method = "POST" then resource.Post
  else if method = "PATCH" then resource.Patch
  else if method = "DELETE" then resource.Delete
  else if method = "PUT" then resource.Put
  else if method = "HEAD" then resource.Head
  else none

/-! ## Stores written cell by cell -/

/-- The last value that a list of steps writes to a cell, when each step `x`
writes the values `writeOf x`. -/
def lastWrite {X C V : Type} (writeOf : X → C → Option V) : List X → C → Option V
  | [], _ => none
  | x :: rest, c =>
    match lastWrite writeOf rest c with
    | some v => some v
    | none => writeOf x c

/-- What is observed of the map of paths of a Swagger document: whether a path
has an entry, and the operation under a method of a path. -/
def swaggerObs (paths : GoMap String PathItem) : String × Option String → Bool ⊕ Option Operation
  | (p, none) => Sum.inl (paths p).isSome
  | (p, some m) => Sum.inr (((paths p).getD {}).operation m)

/-- What `swaggerStore` writes for a test and its operation. -/
def swaggerWrite (x : Test × Operation) : String × Option String → Option (Bool ⊕ Option Operation)
  | (p, none) => if x.1.Path = p then some (Sum.inl true) else none
  | (p, some m) =>
    if x.1.Path = p ∧ x.1.Method = m ∧ m ∈ swaggerMethods then some (Sum.inr (some x.2)) else none

/-- The tests of a list for which the Swagger generator builds an operation,
each with its operation. -/
def swaggerOps (ext : Extern) (tests : List Test) : List (Test × Operation) :=
  tests.filterMap fun t =>
    match generateSwaggerOperation ext t with
    | .ok r => some (t, r.1)
    | .error _ => none

/-- The map `w` laid over the map `u`: the entries of `w`, and those of `u`
for the keys that `w` lacks. -/
def overlay {K V : Type} (w u : GoMap K V) : GoMap K V := fun k =>
  match w k with
  | some v => some v
  | none => u k

/-- A cell of the map of resources of a RAML document: the presence of a path,
a method slot of a path, a URI parameter of a path. -/
inductive RamlCell where
  | presence
  | method (name : String)
  | uri (key : String)

/-- The content of a cell of the map of resources. -/
inductive RamlCellValue where
  | present (b : Bool)
  | method (m : Option Method)
  | uri (p : Option NamedParameter)

/-- What is observed of the map of resources of a RAML document. -/
def ramlObs (resources : GoMap String Resource) : String × RamlCell → RamlCellValue
  | (p, .presence) => .present (resources p).isSome
  | (p, .method name) => .method (((resources p).getD {}).method name)
  | (p, .uri key) => .uri (((resources p).getD {}).UriParameters key)

/-- What the loop body of `ramlGenerator.Generate` writes for a test on which
it does not panic. -/
def ramlWrite (ext : Extern) (test : Test) : String × RamlCell → Option RamlCellValue
  | (p, cell) =>
    match ramlPath test.Path, (ramlOperation ext test GoMap.empty).2 with
    | some q, some st =>
      if q = p then
        match cell with
        | .presence => some (.present true)
        | .method name =>
          if test.Method = name ∧ name ∈ ramlMethods then some (.method (some st.m)) else none
        | .uri key =>
          match (ramlOperation ext test GoMap.empty).1 key with
          | some v => some (.uri (some v))
          | none => none
      else none
    | _, _ => none

/-- A test in the manner of `HelloTest`. -/
def sampleHello : Test where
  Method := "GET"
  Description := "Test for HelloWorld API handler"
  Path := "/hello"
  TestCases :=
    [ { Description := "Successful greeting of the world", ExpectedHttpCode := 200,
        ExpectedData := GoValue.string "Hello World!" } ]

/-- The test `sampleHello` with a path that lacks the leading slash. -/
def sampleNoSlash : Test := { sampleHello with Path := "hello" }

/-- The test `sampleHello` with the method OPTIONS. -/
def sampleOptions : Test := { sampleHello with Method := "OPTIONS" }

/-- A marshaller that reports, in one byte, whether the document has an entry
for a path. -/
def probeMarshaller (path : String) : MarshallerFunc := fun doc =>
  (some [if (doc.Paths path).isSome then 1 else 0], none)

/-- A replacement of `yaml.Marshal` that reports, in one byte, whether the
document has a resource for a path. -/
def probeYaml (path : String) : APIDefinition → Result := fun doc =>
  (some [if (doc.Resources path).isSome then 1 else 0], none)

/-- A test in the manner of `DeleteUserTest`, on the path of `sampleGetUser`. -/
def sampleDeleteUser : Test where
  Method := "DELETE"
  Description := "Test for deleting a user"
  Path := "/user/{username}"
  TestCases :=
    [ { Description := "User deleted successfully", ExpectedHttpCode := 204,
        PathParams := [("username", { Value := GoValue.string "octocat" })] },
      { Description := "User not found", ExpectedHttpCode := 404,
        PathParams := [("username", { Value := GoValue.string "someveryunknown" })],
        ExpectedData := GoValue.string "user someveryunknown not found" } ]

/-- The table of definitions with which the loop of the Swagger generator is
left, the empty table when it is left with an error. -/
def swaggerDefsOf (ext : Extern) (tests : List Test) (paths : GoMap String PathItem)
    (defs : GoMap String SpecSchema) : GoMap String SpecSchema :=
  match (swaggerTests ext tests paths defs).2 with
  | .ok d => d
  | .error _ => GoMap.empty

/-! ## testrunner.go: the default assertion -/

/-- A JSON text as `encoding/json` decodes it into an `interface{}`: numbers
are the `float64` they decode to, the fields of an object are in the order of
the text. An object stands for the Go map built from its fields, in which a
later field of the same name replaces an earlier one. -/
inductive Json where
  | null
  | bool (b : Bool)
  | number (v : Rat)
  | string (s : String)
  | array (items : List Json)
  | object (fields : List (String × Json))

/-- The value that the Go map decoded from the fields of an object holds for a
key. -/
def Json.lookup : List (String × Json) → String → Option Json
  | [], _ => none
  | (k, v) :: rest, key =>
    match Json.lookup rest key with
    | some w => some w
    | none => if k = key then some v else none

/-- Whether some field of a list has the given name. -/
def Json.hasKey (fields : List (String × Json)) (key : String) : Bool :=
  fields.any fun e => decide (e.1 = key)

mutual
/-- Structural equality of two decoded values: scalars by value, arrays
element by element, objects as maps (same keys, equal values). -/
def Json.same : Json → Json → Bool
  | .null, .null => true
  | .bool x, .bool y => decide (x = y)
  | .number x, .number y => decide (x = y)
  | .string x, .string y => decide (x = y)
  | .array xs, .array ys => Json.sameItems xs ys
  | .object fa, .object fb =>
    Json.sameFields fa fb && fb.all fun e => Json.hasKey fa e.1
  | _, _ => false
/-- Structural equality of two arrays. -/
def Json.sameItems : List Json → List Json → Bool
  | [], [] => true
  | x :: xs, y :: ys => Json.same x y && Json.sameItems xs ys
  | _, _ => false
/-- Whether every key of the map of the first field list has an equal value in
the map of the second; a field that a later field of the list replaces is
passed over. -/
def Json.sameFields : List (String × Json) → List (String × Json) → Bool
  | [], _ => true
  | (k, v) :: rest, fb =>
    (if Json.hasKey rest k then true
     else
      match Json.lookup fb k with
      | some w => Json.same v w
      | none => false) && Json.sameFields rest fb
end

/-- Whether a decoded value is a scalar (null, a bool, a number or a string). -/
def Json.isScalar : Json → Bool
  | .null => true
  | .bool _ => true
  | .number _ => true
  | .string _ => true
  | _ => false

/-- What `decodeExpected` and `decodeResponse` hand to `jsondiff.Compare`: a
`map[string]interface{}` (given by the fields it was decoded from), the
expected value as it is, or the response body as a string. -/
inductive Decoded where
  | mapping (fields : List (String × Json))
  | raw (v : GoValue)
  | text (s : List UInt8)

/-- The third-party functions that the default assertion calls. -/
structure JsonLib where
  /-- The call `json.Marshal(v)`. -/
  Marshal : GoValue → Except String (List UInt8)
  /-- The reading of a JSON text by `json.Unmarshal`: the value of the text,
  `none` when the bytes are not a JSON text that it accepts. -/
  Parse : List UInt8 → Option Json
  /-- The verdict `jsondiff.Compare(a, b).IsEqual()` when `a` or `b` is not a
  mapping. -/
  CompareOther : Decoded → Decoded → Bool

/-- The call `json.Unmarshal(data, &m)` for a `map[string]interface{}`: the
fields the map is built from (none for the text `null`), or the error. -/
def unmarshalMap (lib : JsonLib) (data : List UInt8) : Except String (List (String × Json)) :=
  match lib.Parse data with
  | none => .error "invalid character"
  | some (.object fields) => .ok fields
  | some .null => .ok []
  | some _ => .error "json: cannot unmarshal into Go value of type map[string]interface {}"

/-- Modelled from the spec: the verdict `jsondiff.Compare(a, b).IsEqual()` of
the package `github.com/elgris/jsondiff`, which is not under src/. By the
spec (4.2.1) the diff is structural over the two mappings: a field value
mismatch, a missing key and an extra key are differences, the order of the
fields is none. For a value that is not a mapping the spec says nothing: the
verdict is `lib.CompareOther`. -/
def jsondiffIsEqual (lib : JsonLib) : Decoded → Decoded → Bool
  | .mapping fa, .mapping fb => Json.same (.object fa) (.object fb)
  | a, b => lib.CompareOther a b

/-- The function `objToJsonMap`. -/
def objToJsonMap (lib : JsonLib) (obj : GoValue) : Except String (List (String × Json)) :=
  match lib.Marshal obj with
  | .error err => .error err
  | .ok js => unmarshalMap lib js

/-- The function `decodeExpected`. -/
def decodeExpected (lib : JsonLib) (data : GoValue) : Decoded :=
  match objToJsonMap lib data with
  | .ok decoded => .mapping decoded
  | .error _ => .raw data

/-- The function `decodeResponse`. -/
def decodeResponse (lib : JsonLib) (data : List UInt8) : Decoded :=
  match unmarshalMap lib data with
  | .ok dataMap => .mapping dataMap
  | .error _ => .text data

/-- The function `AssertResponse`, without the reports it makes to `t`:
`assert.Fail` returns false, `assert.Empty` returns whether the string is
empty. -/
def AssertResponse (lib : JsonLib) (expected : GoValue) (responseBody : List UInt8) : Bool :=
  if expected ≠ GoValue.nil then
    let expectedData := decodeExpected lib expected
    let actualData := decodeResponse lib responseBody
    if ¬ jsondiffIsEqual lib expectedData actualData then false else true
  else
    decide (responseBody = [])

/-- The two decoded mappings have the same keys with equal values. -/
def SameMapping (fa fb : List (String × Json)) : Prop :=
  ∀ key,
    match Json.lookup fa key, Json.lookup fb key with
    | none, none => True
    | some va, some vb => Json.same va vb = true
    | _, _ => False

/-- Third-party functions for the evaluations of the default assertion: every
expected value marshals to the text `[1]`, which reads as a user object, and
the bodies `[2]`, `[3]`, `[4]`, `[5]` read as the same object with the fields
in another order, with a changed value, with a field less and with a field
more. -/
def sampleJsonLib : JsonLib where
  Marshal := fun _ => .ok [1]
  Parse := fun data =>
    if data = [1] then
      some (.object [("login", .string "octocat"), ("id", .number 1),
        ("plan", .object [("name", .string "free"), ("seats", .array [.number 1, .null])])])
    else if data = [2] then
      some (.object [("plan", .object [("seats", .array [.number 1, .null]),
        ("name", .string "free")]), ("id", .number 1), ("login", .string "octocat")])
    else if data = [3] then
      some (.object [("login", .string "octocat"), ("id", .number 2),
        ("plan", .object [("name", .string "free"), ("seats", .array [.number 1, .null])])])
    else if data = [4] then
      some (.object [("login", .string "octocat"),
        ("plan", .object [("name", .string "free"), ("seats", .array [.number 1, .null])])])
    else if data = [5] then
      some (.object [("login", .string "octocat"), ("id", .number 1), ("site_admin", .bool false),
        ("plan", .object [("name", .string "free"), ("seats", .array [.number 1, .null])])])
    else none
  CompareOther := fun _ _ => false

/-! ## The same suite under another iteration order of its maps -/

/-- The fields of a test case that the generators read are the same, the
entries of each parameter map being iterated in a possibly different order. -/
structure SameCase (a b : TestCase) : Prop where
  description : a.Description = b.Description
  headers : a.Headers.Perm b.Headers
  query : a.QueryParams.Perm b.QueryParams
  path : a.PathParams.Perm b.PathParams
  body : a.RequestBody = b.RequestBody
  code : a.ExpectedHttpCode = b.ExpectedHttpCode
  data : a.ExpectedData = b.ExpectedData

/-- The same test, the maps of its test cases being iterated in a possibly
different order. -/
structure SameTest (a b : Test) : Prop where
  method : a.Method = b.Method
  description : a.Description = b.Description
  path : a.Path = b.Path
  tag : a.Tag = b.Tag
  cases : List.Forall₂ SameCase a.TestCases b.TestCases

/-- The same suite, the maps of its test cases being iterated in a possibly
different order. -/
def SameSuite (a b : List Test) : Prop := List.Forall₂ SameTest a b

/-- The keys of each parameter map of the test case are pairwise different, as
the keys of a Go map are. -/
def TestCase.WellFormed (tc : TestCase) : Prop :=
  (tc.Headers.map Prod.fst).Nodup ∧ (tc.QueryParams.map Prod.fst).Nodup ∧
    (tc.PathParams.map Prod.fst).Nodup

/-- Every test case of the test is well formed. -/
def Test.WellFormed (t : Test) : Prop := ∀ tc ∈ t.TestCases, tc.WellFormed

/-- Two results that are both errors, or both values, related by `R`. -/
def ExceptRel {α β : Type} (R : α → β → Prop) : Except String α → Except String β → Prop
  | .ok a, .ok b => R a b
  | .error _, .error _ => True
  | _, _ => False

/-- Two optional values that are both absent, or both present and related by `R`. -/
def OptionRel {α β : Type} (R : α → β → Prop) : Option α → Option β → Prop
  | some a, some b => R a b
  | none, none => True
  | _, _ => False

/-- The same operation up to the order of its parameters. -/
structure Operation.Equiv (a b : Operation) : Prop where
  summary : a.Summary = b.Summary
  tags : a.Tags = b.Tags
  parameters : a.Parameters.Perm b.Parameters
  responses : a.Responses = b.Responses

/-- The same path entry up to the order of the parameters of its operations. -/
def PathItem.Equiv (a b : PathItem) : Prop :=
  ∀ m, OptionRel Operation.Equiv (a.operation m) (b.operation m)

/-- The same map of paths up to the order of the parameters of the operations. -/
def PathsEquiv (a b : GoMap String PathItem) : Prop :=
  ∀ p, OptionRel PathItem.Equiv (a p) (b p)

/-- The same Swagger document up to the order of the parameters of its
operations: the same paths, the same methods on each path, on each method the
same summary, tags, responses and parameters, the same definitions and the
same metadata. -/
def SwaggerEquiv (a b : Swagger) : Prop :=
  { a with Paths := GoMap.empty } = { b with Paths := GoMap.empty } ∧ PathsEquiv a.Paths b.Paths

/-- One iteration of a parameter loop of `generateSwaggerOperation`, on the
pair of the processed names and the parameters. -/
def collectSwaggerStep (location : String) (prep : Param → Param) (e : String × Param)
    (s : List String × List Parameter) : Except String (List String × List Parameter) :=
  if e.1 ∈ s.1 then .ok s
  else
    match generateSwaggerSpecParam e.1 (prep e.2) location with
    | .error err => .error err
    | .ok specParam => .ok (e.1 :: s.1, s.2 ++ [specParam])

/-- The local variables of `generateSwaggerOperation` agree up to the order of
the parameters and of the processed names. -/
structure SwaggerStateRel (a b : swaggerOpState) : Prop where
  parameters : a.Parameters.Perm b.Parameters
  responses : a.Responses = b.Responses
  description : a.description = b.description
  query : a.processedQueryParams.Perm b.processedQueryParams
  path : a.processedPathParams.Perm b.processedPathParams
  header : a.processedHeaderParams.Perm b.processedHeaderParams
  defs : a.defs = b.defs

/-- The result of a loop that may panic, as an optional pair: the value it
builds and its final state, or `none` for a panic. -/
def pairOpt {A B : Type} (r : A × Option B) : Option (A × B) :=
  match r.2 with
  | some b => some (r.1, b)
  | none => none

/-- One iteration of a parameter loop of `ramlGenerator.Generate`, on the pair
of the table and the processed names; `none` for a panic. -/
def collectRamlStep (e : String × Param) (s : GoMap String NamedParameter × List String) :
    Option (GoMap String NamedParameter × List String) :=
  if e.1 ∈ s.2 then some s
  else
    match generateRamlNamedParameter e.1 e.2 with
    | none => none
    | some p => some (Function.update s.1 e.1 (some p), e.1 :: s.2)

/-- The same table, and the same processed names up to their order. -/
def RamlCollectRel (a b : GoMap String NamedParameter × List String) : Prop :=
  a.1 = b.1 ∧ a.2.Perm b.2

/-- The local variables of the loop of `ramlGenerator.Generate` over the test
cases agree up to the order of the processed names. -/
structure RamlStateRel (a b : ramlOpState) : Prop where
  m : a.m = b.m
  header : a.processedHeaderParams.Perm b.processedHeaderParams
  path : a.processedPathParams.Perm b.processedPathParams
  query : a.processedQueryParams.Perm b.processedQueryParams

/-- The same table of URI parameters and related loop states. -/
def RamlCaseRel (a b : GoMap String NamedParameter × ramlOpState) : Prop :=
  a.1 = b.1 ∧ RamlStateRel a.2 b.2

instance (tc : TestCase) : Decidable tc.WellFormed := by
  unfold TestCase.WellFormed
  infer_instance

/-- A test whose test case declares two headers. -/
def sampleTwoHeaders : Test where
  Method := "GET"
  Path := "/user/{username}"
  TestCases :=
    [ { Description := "Successful getting of user details",
        Headers := [("Accept", { Value := GoValue.string "application/json" }),
          ("Content-Type", { Value := GoValue.string "application/json" })],
        PathParams := [("username", { Value := GoValue.string "octocat" })],
        ExpectedHttpCode := 200 } ]

/-- The test `sampleTwoHeaders`, its headers being iterated in the other order. -/
def sampleTwoHeadersReordered : Test where
  Method := "GET"
  Path := "/user/{username}"
  TestCases :=
    [ { Description := "Successful getting of user details",
        Headers := [("Content-Type", { Value := GoValue.string "application/json" }),
          ("Accept", { Value := GoValue.string "application/json" })],
        PathParams := [("username", { Value := GoValue.string "octocat" })],
        ExpectedHttpCode := 200 } ]

/-- The pairs of processed names and parameters agree up to order. -/
def CollectRel (a b : List String × List Parameter) : Prop := a.1.Perm b.1 ∧ a.2.Perm b.2

/-- Invariant of the loop of the RAML generator over the test cases `done` of
a test: every processed name is a key of its table, and every name declared by
a test case among `done` is processed. -/
structure RamlInv (uri : GoMap String NamedParameter) (st : ramlOpState)
    (done : List TestCase) : Prop where
  header : ∀ k ∈ st.processedHeaderParams, st.m.Headers k ≠ none
  query : ∀ k ∈ st.processedQueryParams, st.m.QueryParameters k ≠ none
  path : ∀ k ∈ st.processedPathParams, uri k ≠ none
  headerDone : ∀ tc ∈ done, ∀ k ∈ tc.Headers.map Prod.fst, k ∈ st.processedHeaderParams
  queryDone : ∀ tc ∈ done, ∀ k ∈ tc.QueryParams.map Prod.fst, k ∈ st.processedQueryParams
  pathDone : ∀ tc ∈ done, ∀ k ∈ tc.PathParams.map Prod.fst, k ∈ st.processedPathParams

/-- Whether a value is a bool, a string, or an integer or a float of one of
the built-in types. -/
def isSimpleValue : GoValue → Bool
  | .bool _ => true
  | .string _ => true
  | .int _ _ => true
  | .uint _ _ => true
  | .float32 _ => true
  | .float64 _ => true
  | _ => false

/-- The first entry of a parameter map, in iteration order, with the given
name. -/
def firstParam : ParamMap → String → Option Param
  | [], _ => none
  | (k, p) :: rest, key => if k = key then some p else firstParam rest key

/-- The entries that the test cases with a code in [200,300) declare for a
location, in the order in which the Swagger generator iterates them. -/
def declaredAt (location : String) : List TestCase → ParamMap
  | [] => []
  | tc :: rest => (if tc.is2xx then tc.paramsAt location else []) ++ declaredAt location rest

/-- Some name that is not among `processed` has, as its first entry in
`entries`, a parameter whose value is not simple. -/
def BadParam (processed : List String) (entries : ParamMap) : Prop :=
  ∃ key param, firstParam entries key = some param ∧ key ∉ processed ∧
    isSimpleValue param.Value = false

/-- A test in the manner of `sampleGetUser` whose 2xx test case declares a
query parameter with a timestamp as its value. -/
def sampleBadParam : Test where
  Method := "GET"
  Path := "/events"
  TestCases :=
    [ { Description := "Events since a moment",
        QueryParams := [("since", { Value := GoValue.time 0 })],
        ExpectedHttpCode := 200 } ]

/-- What the three parameter loops of `generateSwaggerOperation` find wrong
in a test case when they run from the state `st`. -/
def CaseBad (st : swaggerOpState) (tc : TestCase) : Prop :=
  tc.is2xx ∧ (BadParam st.processedHeaderParams tc.Headers ∨
    BadParam st.processedPathParams tc.PathParams ∨
    BadParam st.processedQueryParams tc.QueryParams)

/-- What the loop of `generateSwaggerOperation` finds wrong in a list of test
cases when it runs from the state `st`. -/
def OpBad (st : swaggerOpState) (cases : List TestCase) : Prop :=
  BadParam st.processedHeaderParams (declaredAt "header" cases) ∨
    BadParam st.processedPathParams (declaredAt "path" cases) ∨
    BadParam st.processedQueryParams (declaredAt "query" cases)

/-- The names added to one of the processed sets by a test case. -/
def Grows (before after : List String) (tc : TestCase) (location : String) : Prop :=
  ∀ k, k ∈ after ↔ k ∈ before ∨
    k ∈ ((if tc.is2xx then tc.paramsAt location else []) : ParamMap).map Prod.fst

/-! ## testsuite.go: `TestCase.Url` -/

/-- The field of `url.URL` that `TestCase.Url` writes, and the rest of the
parsed URL. -/
structure URL where
  Rest : String := ""
  RawQuery : String := ""
  deriving DecidableEq

/-- The functions of go-sawyer, `net/url`, `net/http`, `net/textproto` and
`fmt` that `TestCase.Url` and `runTest` call. -/
structure HttpLib where
  /-- The call `hypermedia.Hyperlink(urlpath).Expand(params)`, the map `params`
  given by its entries. -/
  Expand : String → List (String × GoValue) → Except String URL
  /-- The call `fmt.Sprintf("%v", value)`. -/
  Sprint : GoValue → String
  /-- The method `Encode` of the `url.Values` that hold one value per key. -/
  Encode : List (String × String) → String
  /-- The method `String` of a `url.URL`. -/
  UrlString : URL → String
  /-- The error of `http.NewRequest(method, url, body)`, if it returns one. -/
  NewRequest : String → String → Option String
  /-- The function `textproto.CanonicalMIMEHeaderKey`, by which the methods
  `Set` and `Get` of `http.Header` turn a name into the key of the map. -/
  CanonicalKey : String → String

/-- The method `TestCase.Url`. `QueryParams` is not nil when it has an entry
or was made without entries; the query of the expanded URL is then replaced by
the encoded values, and it is left as it is for the nil map. -/
def TestCase.Url (lib : HttpLib) (testCase : TestCase) (urlpath : String) :
    Except String String :=
  let params := testCase.PathParams.map (fun e => (e.1, e.2.Value))
  match lib.Expand urlpath params with
  | .error err => .error err
  | .ok u =>
    if testCase.QueryParams ≠ [] ∨ testCase.QueryParamsMade = true then
      let query := testCase.QueryParams.map (fun e => (e.1, lib.Sprint e.2.Value))
      .ok (lib.UrlString { u with RawQuery := lib.Encode query })
    else
      .ok (lib.UrlString u)

/-! ## testrunner.go -/

/-- A `http.Header`: the values stored under each key. -/
abbrev Header := GoMap String (List String)

/-- The method `Set` of `http.Header`: the canonical key holds the value alone. -/
def headerSet (lib : HttpLib) (h : Header) (key value : String) : Header :=
  Function.update h (lib.CanonicalKey key) (some [value])

/-- The method `Get` of `http.Header`: the first value under the canonical
key, the empty string when there is none. -/
def headerGet (lib : HttpLib) (h : Header) (key : String) : String :=
  match h (lib.CanonicalKey key) with
  | some (v :: _) => v
  | _ => ""

/-- The fields of a `http.Request` that `runTest` sets. -/
structure Request where
  Method : String
  Url : String
  Body : Option (List UInt8) := none
  Header : Header := GoMap.empty

/-- The fields of a `http.Response` that `runTest` reads: `Body` is `none` for
a nil body, else what `ioutil.ReadAll` returns for it. -/
structure HttpResponse where
  StatusCode : Int
  Header : Header := GoMap.empty
  Body : Option (Except String (List UInt8)) := none

/-- The struct `httpRunner` over a world `W` that the client, `SetUp` and
`TearDown` read and change: `DefaultHeaders` lists the entries of the map in
iteration order, `HttpClient` is the method `Do` of the client, which is
handed a request or the nil pointer and returns a response or the nil pointer
and an error or nil. -/
structure httpRunner (W : Type) where
  DefaultHeaders : List (String × String) := []
  BaseUrl : String := ""
  HttpClient : W → Option Request → W × (Option HttpResponse × Option String)

/-- A value implementing `Test` as the runner sees it: the name of its
dynamic type, its name when it implements `INameable`, and `SetUp` and
`TearDown` when it implements `Setuppable` and `Teardownable`. -/
structure RunnerTest (W : Type) where
  test : Test
  TypeName : String := "*schreder.Test"
  Name : Option String := none
  SetUp : Option (W → W × Option String) := none
  TearDown : Option (W → W × Option String) := none

/-- What a run does that can be seen from outside, in the order in which it
does it. `test` is the position of the test in the arguments of `Run` and
`index` the position of the test case in the test. -/
inductive Event where
  /-- The call `t.Logf` with the formatted message. -/
  | logf (message : String)
  /-- The call `t.Errorf` with the formatted message. -/
  | errorf (message : String)
  /-- An assertion of testify that fails and reports it, with the message
  handed to it. -/
  | failed (message : String)
  /-- The call `t.Logf("body received: %s", string(responseBody))`. -/
  | logBody (body : List UInt8)
  /-- The call `SetUp()` and the error it returns. -/
  | setUp (test : Nat) (err : Option String)
  /-- The call `TearDown()` and the error it returns. -/
  | tearDown (test : Nat) (err : Option String)
  /-- The call `r.runTest` for a test case. -/
  | runTest (test index : Nat)
  /-- The call `r.HttpClient.Do(req)`. -/
  | send (req : Option Request)
  /-- The call of the test case's `AssertResponse` (`custom`) or of the
  function `AssertResponse`, with its arguments and what it returns. -/
  | assertResponse (custom : Bool) (expected : GoValue) (body : List UInt8) (result : Bool)

/-- The function `extractTestName`. -/
def extractTestName {W : Type} (value : RunnerTest W) : String :=
  match value.Name with
  | some name => name
  | none => value.TypeName

/-- Lines 118 to 133 of `runTest`: the request, a failed assertion with its
message, or the nil request. In the branch of a request body the error of
`http.NewRequest` is assigned to the variable `err` that the branch declares
with `encoded`, so the assertion after the branch sees the nil error of
`testCase.Url` and `req` stays nil. -/
def newRequest (lib : HttpLib) (jlib : JsonLib) (testCase : TestCase) (method url : String) :
    Except String (Option Request) :=
  if testCase.RequestBody ≠ GoValue.nil then
    match jlib.Marshal testCase.RequestBody with
    | .error _ => .error "could not encode body"
    | .ok encoded =>
      match lib.NewRequest method url with
      | some _ => .ok none
      | none => .ok (some { Method := method, Url := url, Body := some encoded })
  else
    match lib.NewRequest method url with
    | some _ => .error "could not create HTTP request"
    | none => .ok (some { Method := method, Url := url })

/-- The value that the second loop of `runTest` sets for a header. -/
def headerValue (lib : HttpLib) (param : Param) : String :=
  match param.Value with
  | .string stringValue => stringValue
  | value => lib.Sprint value

/-- The two loops of `runTest` over the default headers and the headers of the
test case, on the header of a request. -/
def requestHeaders {W : Type} (lib : HttpLib) (r : httpRunner W) (testCase : TestCase)
    (h : Header) : Header :=
  testCase.Headers.foldl (fun h e => headerSet lib h e.1 (headerValue lib e.2))
    (r.DefaultHeaders.foldl (fun h e => headerSet lib h e.1 e.2) h)

/-- Lines 135 to 144 of `runTest`: `none` is the panic of `req.Header` on the
nil request, which a loop with an entry runs into. -/
def setHeaders {W : Type} (lib : HttpLib) (r : httpRunner W) (testCase : TestCase) :
    Option Request → Option (Option Request)
  | none => if r.DefaultHeaders = [] ∧ testCase.Headers = [] then some none else none
  | some req => some (some { req with Header := requestHeaders lib r testCase req.Header })

/-- The loop of `runTest` over `ExpectedHeaders`: whether it is left at its
end, and not by the return after a failed assertion. -/
def expectedHeadersMatch (lib : HttpLib) (resp : HttpResponse) : List (String × String) → Bool
  | [] => true
  | (header, value) :: rest =>
    if value ≠ headerGet lib resp.Header header then false
    else expectedHeadersMatch lib resp rest

/-- Lines 165 to 186 of `runTest`. -/
def verifyResponse (lib : HttpLib) (jlib : JsonLib) (testCase : TestCase) (resp : HttpResponse)
    (responseBody : List UInt8) : List Event :=
  if testCase.ExpectedHttpCode ≠ resp.StatusCode then
    [.failed "", .logBody responseBody]
  else if ¬ expectedHeadersMatch lib resp (testCase.ExpectedHeaders.getD []) then
    [.failed "", .logBody responseBody]
  else
    match testCase.AssertResponse with
    | some assertResponse =>
      [.assertResponse true testCase.ExpectedData responseBody
        (assertResponse testCase.ExpectedData responseBody)]
    | none =>
      [.assertResponse false testCase.ExpectedData responseBody
        (AssertResponse jlib testCase.ExpectedData responseBody)]

/-- The method `runTest`: the world after the call and what the call did, or
`none` when it panics. -/
def httpRunner.runTest {W : Type} (lib : HttpLib) (jlib : JsonLib) (r : httpRunner W)
    (testCase : TestCase) (method path : String) (w : W) : Option (W × List Event) :=
  let urlstring := r.BaseUrl ++ path
  match testCase.Url lib urlstring with
  | .error _ => some (w, [.failed "could not prepare an url"])
  | .ok url =>
    match newRequest lib jlib testCase method url with
    | .error message => some (w, [.failed message])
    | .ok req0 =>
      match setHeaders lib r testCase req0 with
      | none => none
      | some req =>
        let sent := r.HttpClient w req
        match sent.2 with
        | (_, some _) => some (sent.1, [.send req, .failed "failed sending a request"])
        | (none, none) =>
          some (sent.1, [.send req, .failed "request to '%s' returned nil response"])
        | (some resp, none) =>
          match resp.Body with
          | some (.error _) => some (sent.1, [.send req, .failed ""])
          | some (.ok responseBody) =>
            some (sent.1, .send req :: verifyResponse lib jlib testCase resp responseBody)
          | none => some (sent.1, .send req :: verifyResponse lib jlib testCase resp [])

/-- The loop of `Run` over the test cases of a test, from the case at
`caseIndex`. -/
def httpRunner.runCases {W : Type} (lib : HttpLib) (jlib : JsonLib) (r : httpRunner W)
    (testIndex : Nat) (testName method path : String) :
    List TestCase → Nat → W → Option (W × List Event)
  | [], _, w => some (w, [])
  | testCase :: rest, caseIndex, w =>
    match r.runTest lib jlib testCase method path w with
    | none => none
    | some (w1, events) =>
      match runCases lib jlib r testIndex testName method path rest (caseIndex + 1) w1 with
      | none => none
      | some (w2, more) =>
        some (w2, [.logf ("running test '" ++ testName ++ "'(" ++ testCase.Description ++
          "), case " ++ toString (caseIndex + 1)), .runTest testIndex caseIndex] ++ events ++ more)

/-- The part of the loop body of `Run` after the setup: the test cases and the
teardown. -/
def httpRunner.runBody {W : Type} (lib : HttpLib) (jlib : JsonLib) (r : httpRunner W)
    (testIndex : Nat) (test : RunnerTest W) (w : W) : Option (W × List Event) :=
  let testName := extractTestName test
  match r.runCases lib jlib testIndex testName test.test.Method test.test.Path
      test.test.TestCases 0 w with
  | none => none
  | some (w1, events) =>
    match test.TearDown with
    | none => some (w1, events)
    | some tearDown =>
      let done := tearDown w1
      some (done.1, events ++
        [.logf ("tearing down test '" ++ testName ++ "'(" ++ test.test.Description ++ ")..."),
          .tearDown testIndex done.2] ++
        (match done.2 with
          | some err => [.errorf ("error cleaning up after a test '" ++ testName ++ "'(" ++
              test.test.Description ++ "): " ++ err)]
          | none => []))

/-- The loop body of `Run`: when `SetUp` returns an error it is left by
`continue` after the report. -/
def httpRunner.runOne {W : Type} (lib : HttpLib) (jlib : JsonLib) (r : httpRunner W)
    (testIndex : Nat) (test : RunnerTest W) (w : W) : Option (W × List Event) :=
  let testName := extractTestName test
  match test.SetUp with
  | none => r.runBody lib jlib testIndex test w
  | some setUp =>
    let ready := setUp w
    let log : List Event :=
      [.logf ("setting up test '" ++ testName ++ "'(" ++ test.test.Description ++ ")..."),
        .setUp testIndex ready.2]
    match ready.2 with
    | some err =>
      some (ready.1, log ++ [.errorf ("error setting up test '" ++ testName ++ "'(" ++
        test.test.Description ++ "): " ++ err)])
    | none =>
      match r.runBody lib jlib testIndex test ready.1 with
      | none => none
      | some (w1, events) => some (w1, log ++ events)

/-- The loop of `Run` over the tests, the first of which has the position
`testIndex` in the arguments. -/
def httpRunner.runTests {W : Type} (lib : HttpLib) (jlib : JsonLib) (r : httpRunner W) :
    Nat → List (RunnerTest W) → W → Option (W × List Event)
  | _, [], w => some (w, [])
  | testIndex, test :: rest, w =>
    match r.runOne lib jlib testIndex test w with
    | none => none
    | some (w1, events) =>
      match runTests lib jlib r (testIndex + 1) rest w1 with
      | none => none
      | some (w2, more) => some (w2, events ++ more)

/-- The method `Run`. -/
def httpRunner.Run {W : Type} (lib : HttpLib) (jlib : JsonLib) (r : httpRunner W)
    (tests : List (RunnerTest W)) (w : W) : Option (W × List Event) :=
  r.runTests lib jlib 0 tests w

/-! ## Vocabulary of the statements about the runner -/

/-- The request that an event hands to the client, if the event is a call of
the client. -/
def Event.sent : Event → Option (Option Request)
  | .send req => some req
  | _ => none

/-- The requests handed to the client, in order. -/
def sentRequests (events : List Event) : List (Option Request) :=
  events.filterMap Event.sent

/-- What setting the header of an entry writes under a key: the value of the
entry when the key is the canonical form of its name. -/
def headerWrite {α : Type} (lib : HttpLib) (value : α → String) (e : String × α)
    (key : String) : Option (List String) :=
  if lib.CanonicalKey e.1 = key then some [value e.2] else none

/-- What the last entry, in iteration order, whose name has the canonical form
`key` writes under it; `none` when no entry has such a name. -/
def lastHeader {α : Type} (lib : HttpLib) (value : α → String) (entries : List (String × α))
    (key : String) : Option (List String) :=
  lastWrite (headerWrite lib value) entries key

/-- A stand-in for the libraries of the runner: templates expand to
themselves, `NewRequest` rejects the method `GE T`, and the canonical form of
`content-type` is `Content-Type`. -/
def sampleHttpLib : HttpLib where
  Expand := fun urlpath _ => .ok { Rest := urlpath }
  Sprint := fun value =>
    match value with
    | .bool true => "true"
    | .bool false => "false"
    | .string s => s
    | _ => "?"
  Encode := fun _ => ""
  UrlString := fun u => if u.RawQuery = "" then u.Rest else u.Rest ++ "?" ++ u.RawQuery
  NewRequest := fun method _ => if method = "GE T" then some "net/http: invalid method" else none
  CanonicalKey := fun name => if name = "content-type" then "Content-Type" else name

/-- A runner whose world counts the calls of its client, which answers each
with the code 200, a content type and the body `[1]`. -/
def sampleRunner : httpRunner Nat where
  DefaultHeaders := [("content-type", "text/plain"), ("Accept", "*/*")]
  BaseUrl := "http://localhost"
  HttpClient := fun w _ =>
    (w + 1, (some { StatusCode := 200,
                    Header := Function.update GoMap.empty "Content-Type" (some ["application/json"]),
                    Body := some (.ok [1]) }, none))

/-- A test case that sets the content type again and a header with a bool as
its value. -/
def sampleHeaderCase : TestCase where
  Description := "Greeting with headers"
  Headers := [("Content-Type", { Value := GoValue.string "application/json" }),
    ("X-Verbose", { Value := GoValue.bool true })]
  ExpectedHttpCode := 200
  ExpectedHeaders := some [("content-type", "application/json")]
  ExpectedData := GoValue.string "Hello World!"

/-- The body assertion that an event calls, if it calls one: whether it is the
custom one, its two arguments and what it returns. -/
def Event.assertion : Event → Option (Bool × GoValue × List UInt8 × Bool)
  | .assertResponse custom expected body result => some (custom, expected, body, result)
  | _ => none

/-- The calls of a body assertion, in order. -/
def assertions (events : List Event) : List (Bool × GoValue × List UInt8 × Bool) :=
  events.filterMap Event.assertion

/-- The bytes that `runTest` reads from the body of a response: none for the
nil body, and `none` when reading fails. -/
def bodyRead (resp : HttpResponse) : Option (List UInt8) :=
  match resp.Body with
  | none => some []
  | some (.ok body) => some body
  | some (.error _) => none

/-- The calls that `Run` makes for a test: `SetUp` and whether it returned an
error, `runTest` for the test case at an index, and `TearDown`. -/
inductive Call where
  | setUp (test : Nat) (failed : Bool)
  | runTest (test index : Nat)
  | tearDown (test : Nat)
  deriving DecidableEq, Repr

/-- The call of `Run` that an event stands for, if it stands for one. -/
def Event.call : Event → Option Call
  | .setUp test err => some (.setUp test err.isSome)
  | .runTest test index => some (.runTest test index)
  | .tearDown test _ => some (.tearDown test)
  | _ => none

/-- The calls of `SetUp`, `runTest` and `TearDown`, in order. -/
def calls (events : List Event) : List Call :=
  events.filterMap Event.call

/-- The calls for the test cases of the test at position `i`, in declaration
order from the index `j`, each once. -/
def caseCalls (i j : Nat) : List TestCase → List Call
  | [] => []
  | _ :: rest => Call.runTest i j :: caseCalls i (j + 1) rest

/-- The calls for a test whose setup did not fail: one for each test case, in
declaration order, and then `TearDown` if the test has it. -/
def bodyCalls {W : Type} (i : Nat) (test : RunnerTest W) : List Call :=
  caseCalls i 0 test.test.TestCases ++
    (match test.TearDown with
      | some _ => [Call.tearDown i]
      | none => [])

/-- The calls for the test at position `i`, given whether its `SetUp`
returned an error. -/
def testCalls {W : Type} (i : Nat) (test : RunnerTest W) (failed : Bool) : List Call :=
  match test.SetUp with
  | none => bodyCalls i test
  | some _ => Call.setUp i failed :: (if failed then [] else bodyCalls i test)

/-- The list of calls is made of the calls for each test, in the order of the
tests, the first of which has the position `i`. -/
def CallsOf {W : Type} : Nat → List (RunnerTest W) → List Call → Prop
  | _, [], cs => cs = []
  | i, test :: rest, cs => ∃ failed more, cs = testCalls i test failed ++ more ∧
      CallsOf (i + 1) rest more

/-- The test `sampleHello` with a teardown that adds 100 to the world. -/
def sampleHelloRun : RunnerTest Nat where
  test := sampleHello
  TearDown := some (fun w => (w + 100, none))

/-- The test `sampleHelloRun` with a setup that adds 10 to the world and
returns an error. -/
def sampleSetupFails : RunnerTest Nat :=
  { sampleHelloRun with SetUp := some (fun w => (w + 10, some "no database")) }

/-- A test with a teardown whose method is not a method of HTTP and whose test
case has a request body. -/
def sampleBadMethod : RunnerTest Nat where
  test :=
    { Method := "GE T", Path := "/hello",
      TestCases := [ { Description := "Greeting with a body",
                       RequestBody := GoValue.string "Hello", ExpectedHttpCode := 200 } ] }
  TearDown := some (fun w => (w + 100, none))

/-- A test in the manner of `sampleHello` whose test case declares a query
parameter without a value: the `Value` of the `Param` is the nil interface. -/
def sampleNilParam : Test where
  Method := "GET"
  Path := "/events"
  TestCases :=
    [ { Description := "Events of a page",
        QueryParams := [("page", { Required := true, Description := "Number of the page" })],
        ExpectedHttpCode := 200 } ]

/-- What the parameter loop of a location does to an entry before converting
it: the path loop sets `Required`. -/
def prepAt (location : String) (param : Param) : Param :=
  if location = "path" then { param with Required := true } else param

/-- Where a parameter emitted by `generateSwaggerOperation` comes from: it is
the body parameter, or it is the conversion of the first entry that the 2xx
test cases among `done` declare under its name at its location. -/
def Origin (done : List TestCase) (p : Parameter) : Prop :=
  p.In = "body" ∨
    ((p.In = "header" ∨ p.In = "path" ∨ p.In = "query") ∧
      ∃ param, firstParam (declaredAt p.In done) p.Name = some param ∧
        generateSwaggerSpecParam p.Name (prepAt p.In param) p.In = .ok p)

/-- Invariant of the loop of `generateSwaggerOperation` after the test cases
`done`: the sets of processed names hold the names that the 2xx test cases
among `done` declare, and every parameter emitted so far has its origin among
`done`. -/
structure FirstInv (st : swaggerOpState) (done : List TestCase) : Prop where
  header : ∀ k, k ∈ st.processedHeaderParams ↔ k ∈ (declaredAt "header" done).map Prod.fst
  path : ∀ k, k ∈ st.processedPathParams ↔ k ∈ (declaredAt "path" done).map Prod.fst
  query : ∀ k, k ∈ st.processedQueryParams ↔ k ∈ (declaredAt "query" done).map Prod.fst
  origin : ∀ p ∈ st.Parameters, Origin done p

/-- A test on the path of `sampleGetUser` whose test cases declare the path
parameter `username` three times: on a 404 test case, on a 200 test case and,
with a number as its value, on a 201 test case. -/
def sampleRedeclared : Test where
  Method := "PUT"
  Path := "/user/{username}"
  TestCases :=
    [ { Description := "User is not found",
        PathParams := [("username", { Value := GoValue.string "ghost",
                                      Description := "Login of nobody" })],
        ExpectedHttpCode := 404 },
      { Description := "User is updated",
        PathParams := [("username", { Value := GoValue.string "octocat",
                                      Description := "Login of the user" })],
        ExpectedHttpCode := 200 },
      { Description := "User is created",
        PathParams := [("username", { Value := GoValue.int IntWidth.native 7,
                                      Description := "Number of the user" })],
        ExpectedHttpCode := 201 } ]

/-- The entries that the test cases declare as path parameters, in the order
in which the RAML generator iterates them. -/
def declaredPath : List TestCase → ParamMap
  | [] => []
  | tc :: rest => tc.PathParams ++ declaredPath rest

/-- Two tests on the path of `sampleGetUser`, the test `sampleGetUser` and
after it the test `sampleRedeclared`, whose first test case gives another
value to the path parameter `username`. -/
def sampleSharedPath : List Test := [sampleGetUser, sampleRedeclared]

/-! # Theorems -/

/-! ## Lemmas on the parameter loops of the Swagger generator -/

theorem generateSwaggerSpecParam_ok {key : String} {param : Param} {loc : String}
    {sp : Parameter} (h : generateSwaggerSpecParam key param loc = .ok sp) :
    sp.In = loc ∧ sp.Name = key := by
  unfold generateSwaggerSpecParam at h
  split at h
  · cases h
  · cases h
    exact ⟨rfl, rfl⟩

theorem simplePairs_append (ps qs : List Parameter) :
    simplePairs (ps ++ qs) = simplePairs ps ++ simplePairs qs := by
  simp [simplePairs]

theorem simplePairs_single_simple {sp : Parameter} (h : sp.isSimple) :
    simplePairs [sp] = [(sp.In, sp.Name)] := by
  simp [simplePairs, h]

theorem simplePairs_single_body {sp : Parameter} (h : sp.In = "body") :
    simplePairs [sp] = [] := by
  simp [simplePairs, Parameter.isSimple, h]

theorem collectSwaggerParams_inv (loc : String)
    (hloc : loc = "header" ∨ loc = "path" ∨ loc = "query") (prep : Param → Param) :
    ∀ (entries : ParamMap) (processed : List String) (params : List Parameter)
      (processed1 : List String) (params1 : List Parameter),
      collectSwaggerParams loc prep entries processed params = .ok (processed1, params1) →
      (simplePairs params).Nodup →
      (∀ n, (loc, n) ∈ simplePairs params ↔ n ∈ processed) →
      (simplePairs params1).Nodup ∧
      (∀ n, (loc, n) ∈ simplePairs params1 ↔ n ∈ processed1) ∧
      (∀ n, n ∈ processed1 ↔ n ∈ processed ∨ n ∈ entries.map Prod.fst) ∧
      (∀ l n, l ≠ loc → ((l, n) ∈ simplePairs params1 ↔ (l, n) ∈ simplePairs params)) := by
  intro entries
  induction entries with
  | nil =>
    intro processed params processed1 params1 h hnd hmem
    simp only [collectSwaggerParams, Except.ok.injEq, Prod.mk.injEq] at h
    obtain ⟨rfl, rfl⟩ := h
    exact ⟨hnd, hmem, by simp, fun _ _ _ => Iff.rfl⟩
  | cons e rest ih =>
    obtain ⟨key, param⟩ := e
    intro processed params processed1 params1 h hnd hmem
    unfold collectSwaggerParams at h
    by_cases hk : key ∈ processed
    · rw [if_pos hk] at h
      obtain ⟨h1, h2, h3, h4⟩ := ih processed params processed1 params1 h hnd hmem
      refine ⟨h1, h2, ?_, h4⟩
      intro n
      rw [h3 n]
      simp only [List.map_cons, List.mem_cons]
      constructor
      · rintro (h | h)
        · exact Or.inl h
        · exact Or.inr (Or.inr h)
      · rintro (h | h | h)
        · exact Or.inl h
        · exact Or.inl (h ▸ hk)
        · exact Or.inr h
    · rw [if_neg hk] at h
      cases hg : generateSwaggerSpecParam key (prep param) loc with
      | error err => rw [hg] at h; cases h
      | ok sp =>
        rw [hg] at h
        obtain ⟨hin, hname⟩ := generateSwaggerSpecParam_ok hg
        have hsimple : sp.isSimple := by rw [Parameter.isSimple, hin]; exact hloc
        have hsp : simplePairs (params ++ [sp]) = simplePairs params ++ [(loc, key)] := by
          rw [simplePairs_append, simplePairs_single_simple hsimple, hin, hname]
        have hnd1 : (simplePairs (params ++ [sp])).Nodup := by
          rw [hsp]
          refine List.Nodup.append hnd (List.nodup_singleton _) ?_
          intro x hx hx1
          rw [List.mem_singleton] at hx1
          subst hx1
          exact hk ((hmem key).1 hx)
        have hmem1 : ∀ n, (loc, n) ∈ simplePairs (params ++ [sp]) ↔ n ∈ key :: processed := by
          intro n
          rw [hsp, List.mem_append, List.mem_singleton, List.mem_cons, hmem n]
          constructor
          · rintro (h | h)
            · exact Or.inr h
            · exact Or.inl (by injection h)
          · rintro (h | h)
            · exact Or.inr (by rw [h])
            · exact Or.inl h
        obtain ⟨h1, h2, h3, h4⟩ := ih (key :: processed) (params ++ [sp]) processed1 params1 h
          hnd1 hmem1
        refine ⟨h1, h2, ?_, ?_⟩
        · intro n
          rw [h3 n]
          simp only [List.map_cons, List.mem_cons]
          tauto
        · intro l n hl
          rw [h4 l n hl, hsp, List.mem_append, List.mem_singleton]
          constructor
          · rintro (h | h)
            · exact h
            · exact absurd (by injection h) hl
          · exact Or.inl


theorem exists_mem_append_single {P : TestCase → Prop} (done : List TestCase) (tc : TestCase) :
    (∃ x ∈ done ++ [tc], P x) ↔ (∃ x ∈ done, P x) ∨ P tc := by
  constructor
  · rintro ⟨x, hx, hp⟩
    rw [List.mem_append, List.mem_singleton] at hx
    rcases hx with hx | rfl
    · exact Or.inl ⟨x, hx, hp⟩
    · exact Or.inr hp
  · rintro (⟨x, hx, hp⟩ | hp)
    · exact ⟨x, List.mem_append_left _ hx, hp⟩
    · exact ⟨tc, List.mem_append_right _ (List.mem_singleton.2 rfl), hp⟩

theorem swaggerCollect_inv (ext : Extern) {st st1 : swaggerOpState} {done : List TestCase}
    {tc : TestCase} (h2 : tc.is2xx) (hinv : SwaggerInv st done)
    (h : swaggerCollect ext st tc = .ok st1) : SwaggerInv st1 (done ++ [tc]) := by
  unfold swaggerCollect at h
  cases hh : collectSwaggerParams "header" id tc.Headers st.processedHeaderParams
      st.Parameters with
  | error err => rw [hh] at h; cases h
  | ok r1 =>
    obtain ⟨ph, params1⟩ := r1
    rw [hh] at h
    simp only at h
    cases hp : collectSwaggerParams "path" (fun p => { p with Required := true })
        tc.PathParams st.processedPathParams params1 with
    | error err => rw [hp] at h; cases h
    | ok r2 =>
      obtain ⟨pp, params2⟩ := r2
      rw [hp] at h
      simp only at h
      cases hq : collectSwaggerParams "query" id tc.QueryParams st.processedQueryParams
          params2 with
      | error err => rw [hq] at h; cases h
      | ok r3 =>
        obtain ⟨pq, params3⟩ := r3
        rw [hq] at h
        simp only at h
        obtain ⟨a1, a2, a3, a4⟩ := collectSwaggerParams_inv "header" (Or.inl rfl) id _ _ _ _ _ hh
          hinv.nodup hinv.header
        have hpath1 : ∀ n, ("path", n) ∈ simplePairs params1 ↔ n ∈ st.processedPathParams :=
          fun n => (a4 "path" n (by decide)).trans (hinv.path n)
        obtain ⟨b1, b2, b3, b4⟩ := collectSwaggerParams_inv "path" (Or.inr (Or.inl rfl)) _ _ _ _ _ _
          hp a1 hpath1
        have hquery2 : ∀ n, ("query", n) ∈ simplePairs params2 ↔ n ∈ st.processedQueryParams :=
          fun n => (b4 "query" n (by decide)).trans
            ((a4 "query" n (by decide)).trans (hinv.query n))
        obtain ⟨c1, c2, c3, c4⟩ := collectSwaggerParams_inv "query" (Or.inr (Or.inr rfl)) id _ _ _
          _ _ hq b1 hquery2
        have hH : ∀ n, ("header", n) ∈ simplePairs params3 ↔ n ∈ ph :=
          fun n => (c4 "header" n (by decide)).trans ((b4 "header" n (by decide)).trans (a2 n))
        have hP : ∀ n, ("path", n) ∈ simplePairs params3 ↔ n ∈ pp :=
          fun n => (c4 "path" n (by decide)).trans (b2 n)
        have hHD : ∀ n, n ∈ ph ↔ ∃ x ∈ done ++ [tc], x.is2xx ∧ n ∈ x.Headers.map Prod.fst := by
          intro n
          rw [a3 n, hinv.headerDone n, exists_mem_append_single]
          simp only [h2, true_and]
        have hPD : ∀ n, n ∈ pp ↔ ∃ x ∈ done ++ [tc], x.is2xx ∧ n ∈ x.PathParams.map Prod.fst := by
          intro n
          rw [b3 n, hinv.pathDone n, exists_mem_append_single]
          simp only [h2, true_and]
        have hQD : ∀ n, n ∈ pq ↔ ∃ x ∈ done ++ [tc], x.is2xx ∧ n ∈ x.QueryParams.map Prod.fst := by
          intro n
          rw [c3 n, hinv.queryDone n, exists_mem_append_single]
          simp only [h2, true_and]
        split at h
        · cases h
          have hb : ∀ sp : Parameter, sp.In = "body" →
              simplePairs (params3 ++ [sp]) = simplePairs params3 := by
            intro sp hsp
            rw [simplePairs_append, simplePairs_single_body hsp, List.append_nil]
          refine ⟨?_, ?_, ?_, ?_, hHD, hPD, hQD⟩
          · show (simplePairs (params3 ++ [_])).Nodup
            rw [hb _ rfl]
            exact c1
          · show ∀ n, ("header", n) ∈ simplePairs (params3 ++ [_]) ↔ n ∈ ph
            rw [hb _ rfl]
            exact hH
          · show ∀ n, ("path", n) ∈ simplePairs (params3 ++ [_]) ↔ n ∈ pp
            rw [hb _ rfl]
            exact hP
          · show ∀ n, ("query", n) ∈ simplePairs (params3 ++ [_]) ↔ n ∈ pq
            rw [hb _ rfl]
            exact c2
        · cases h
          exact ⟨c1, hH, hP, c2, hHD, hPD, hQD⟩

theorem swaggerCase_inv (ext : Extern) {st st1 : swaggerOpState} {done : List TestCase}
    {tc : TestCase} (hinv : SwaggerInv st done)
    (h : swaggerCase ext st tc = .ok st1) : SwaggerInv st1 (done ++ [tc]) := by
  unfold swaggerCase at h
  by_cases h2 : 200 ≤ tc.ExpectedHttpCode ∧ tc.ExpectedHttpCode < 300
  · rw [if_pos h2] at h
    cases hc : swaggerCollect ext st tc with
    | error err => rw [hc] at h; cases h
    | ok st2 =>
      rw [hc] at h
      cases h
      have := swaggerCollect_inv ext h2 hinv hc
      exact ⟨this.nodup, this.header, this.path, this.query, this.headerDone, this.pathDone,
        this.queryDone⟩
  · rw [if_neg h2] at h
    cases h
    have hn : ¬ tc.is2xx := h2
    refine ⟨hinv.nodup, hinv.header, hinv.path, hinv.query, ?_, ?_, ?_⟩
    · intro n
      rw [exists_mem_append_single]
      simpa only [hn, false_and, or_false] using hinv.headerDone n
    · intro n
      rw [exists_mem_append_single]
      simpa only [hn, false_and, or_false] using hinv.pathDone n
    · intro n
      rw [exists_mem_append_single]
      simpa only [hn, false_and, or_false] using hinv.queryDone n

theorem swaggerCases_inv (ext : Extern) :
    ∀ (cases done : List TestCase) (st st1 : swaggerOpState), SwaggerInv st done →
      swaggerCases ext cases st = .ok st1 → SwaggerInv st1 (done ++ cases) := by
  intro cases
  induction cases with
  | nil =>
    intro done st st1 hinv h
    simp only [swaggerCases, Except.ok.injEq] at h
    subst h
    simpa using hinv
  | cons tc rest ih =>
    intro done st st1 hinv h
    unfold swaggerCases at h
    cases hc : swaggerCase ext st tc with
    | error err => rw [hc] at h; cases h
    | ok st2 =>
      rw [hc] at h
      have := ih (done ++ [tc]) st2 st1 (swaggerCase_inv ext hinv hc) h
      simpa using this

theorem swaggerInv_init : SwaggerInv {} [] :=
  ⟨by simp [simplePairs], by simp [simplePairs], by simp [simplePairs], by simp [simplePairs],
    by simp, by simp, by simp⟩

theorem generateSwaggerOperation_ok {ext : Extern} {test : Test} {op : Operation}
    {ws : DefWrites} (h : generateSwaggerOperation ext test = .ok (op, ws)) :
    ∃ st, swaggerCases ext test.TestCases {} = .ok st ∧ op.Summary = st.description ∧
      op.Parameters = st.Parameters ∧ op.Responses = st.Responses ∧ ws = st.defs := by
  unfold generateSwaggerOperation at h
  cases hc : swaggerCases ext test.TestCases {} with
  | error err => rw [hc] at h; cases h
  | ok st =>
    rw [hc] at h
    cases h
    exact ⟨st, rfl, rfl, rfl, rfl, rfl⟩

theorem simplePairs_loc {ps : List Parameter} {l n : String} (h : (l, n) ∈ simplePairs ps) :
    l = "header" ∨ l = "path" ∨ l = "query" := by
  simp only [simplePairs, List.mem_map, List.mem_filter, decide_eq_true_eq] at h
  obtain ⟨p, ⟨_, hp⟩, he⟩ := h
  cases he
  exact hp

/-- C1: the header, path and query parameters of the operation built by the
Swagger generator are pairwise different as (location, name) pairs, and a pair
is among them exactly when some test case with a code in [200,300) declares
the name at the location. -/
theorem swagger_parameters_from_2xx_cases (ext : Extern) (test : Test) (op : Operation)
    (ws : DefWrites) (h : generateSwaggerOperation ext test = .ok (op, ws)) :
    (simplePairs op.Parameters).Nodup ∧
    ∀ location name, (location, name) ∈ simplePairs op.Parameters ↔
      (location = "header" ∨ location = "path" ∨ location = "query") ∧
      ∃ tc ∈ test.TestCases, tc.is2xx ∧ name ∈ (tc.paramsAt location).map Prod.fst := by
  obtain ⟨st, hst, -, hp, -, -⟩ := generateSwaggerOperation_ok h
  have hinv := swaggerCases_inv ext test.TestCases [] {} st swaggerInv_init hst
  rw [List.nil_append] at hinv
  rw [hp]
  refine ⟨hinv.nodup, ?_⟩
  intro location name
  constructor
  · intro hm
    have hl := simplePairs_loc hm
    refine ⟨hl, ?_⟩
    rcases hl with rfl | rfl | rfl
    · simpa [TestCase.paramsAt] using (hinv.headerDone name).1 ((hinv.header name).1 hm)
    · simpa [TestCase.paramsAt] using (hinv.pathDone name).1 ((hinv.path name).1 hm)
    · simpa [TestCase.paramsAt] using (hinv.queryDone name).1 ((hinv.query name).1 hm)
  · rintro ⟨hl, hex⟩
    rcases hl with rfl | rfl | rfl
    · exact (hinv.header name).2 ((hinv.headerDone name).2 (by simpa [TestCase.paramsAt] using hex))
    · exact (hinv.path name).2 ((hinv.pathDone name).2 (by simpa [TestCase.paramsAt] using hex))
    · exact (hinv.query name).2 ((hinv.queryDone name).2 (by simpa [TestCase.paramsAt] using hex))

/-- Witness of C1 on `sampleGetUser`: the header and the path parameter of the
200 test case are emitted once, the query parameter of the 404 test case is
not. -/
theorem swagger_parameters_from_2xx_cases_witness :
    simplePairs (swaggerOperationOf sampleExtern sampleGetUser).Parameters =
      [("header", "Content-Type"), ("path", "username")] ∧
    ((simplePairs (swaggerOperationOf sampleExtern sampleGetUser).Parameters).Nodup ∧
    ∀ location name,
      (location, name) ∈ simplePairs (swaggerOperationOf sampleExtern sampleGetUser).Parameters ↔
      (location = "header" ∨ location = "path" ∨ location = "query") ∧
      ∃ tc ∈ sampleGetUser.TestCases, tc.is2xx ∧
        name ∈ (tc.paramsAt location).map Prod.fst) :=
  ⟨by decide, swagger_parameters_from_2xx_cases sampleExtern sampleGetUser
    (swaggerOperationOf sampleExtern sampleGetUser) (swaggerWritesOf sampleExtern sampleGetUser)
    rfl⟩

/-! ## Responses and summary of a Swagger operation -/

theorem lastCase_nil (cond : TestCase → Bool) : lastCase cond [] = none := rfl

theorem lastCase_cons (cond : TestCase → Bool) (tc : TestCase) (rest : List TestCase) :
    lastCase cond (tc :: rest) =
      match lastCase cond rest with
      | some x => some x
      | none => if cond tc then some tc else none := by
  unfold lastCase
  by_cases h : cond tc
  · rw [List.filter_cons_of_pos h]
    cases hr : List.filter cond rest with
    | nil => simp [h]
    | cons y ys =>
      rw [List.getLast?_cons_cons]
      cases hy : (y :: ys).getLast? with
      | none => simp at hy
      | some x => rfl
  · rw [List.filter_cons_of_neg h]
    cases hr : (List.filter cond rest).getLast? with
    | none => simp [h]
    | some x => simp

theorem swaggerCollect_frame {ext : Extern} {st st1 : swaggerOpState} {tc : TestCase}
    (h : swaggerCollect ext st tc = .ok st1) :
    st1.Responses = st.Responses ∧ st1.description = tc.Description := by
  unfold swaggerCollect at h
  split at h
  · cases h
  · split at h
    · cases h
    · split at h
      · cases h
      · split at h
        · cases h
          exact ⟨rfl, rfl⟩
        · cases h
          exact ⟨rfl, rfl⟩

theorem swaggerCase_frame {ext : Extern} {st st1 : swaggerOpState} {tc : TestCase}
    (h : swaggerCase ext st tc = .ok st1) :
    st1.Responses =
      Function.update st.Responses tc.ExpectedHttpCode (some (swaggerResponse ext tc).1) ∧
    st1.description = if tc.is2xx then tc.Description else st.description := by
  unfold swaggerCase at h
  by_cases h2 : 200 ≤ tc.ExpectedHttpCode ∧ tc.ExpectedHttpCode < 300
  · rw [if_pos h2] at h
    cases hc : swaggerCollect ext st tc with
    | error err => rw [hc] at h; cases h
    | ok st2 =>
      rw [hc] at h
      cases h
      obtain ⟨hr, hd⟩ := swaggerCollect_frame hc
      have h2x : tc.is2xx := h2
      exact ⟨by simp only [hr], by simp only [hd, if_pos h2x]⟩
  · rw [if_neg h2] at h
    cases h
    have h2x : ¬ tc.is2xx := h2
    exact ⟨rfl, by simp only [if_neg h2x]⟩

theorem swaggerCases_frame (ext : Extern) :
    ∀ (cases : List TestCase) (st st1 : swaggerOpState),
      swaggerCases ext cases st = .ok st1 →
      (∀ code, st1.Responses code =
        match lastCase (fun tc => decide (tc.ExpectedHttpCode = code)) cases with
        | some tc => some (swaggerResponse ext tc).1
        | none => st.Responses code) ∧
      st1.description =
        match lastCase (fun tc => decide tc.is2xx) cases with
        | some tc => tc.Description
        | none => st.description := by
  intro cases
  induction cases with
  | nil =>
    intro st st1 h
    simp only [swaggerCases, Except.ok.injEq] at h
    subst h
    simp [lastCase_nil]
  | cons tc rest ih =>
    intro st st1 h
    unfold swaggerCases at h
    cases hc : swaggerCase ext st tc with
    | error err => rw [hc] at h; cases h
    | ok st2 =>
      rw [hc] at h
      obtain ⟨hr, hd⟩ := swaggerCase_frame hc
      obtain ⟨ihr, ihd⟩ := ih st2 st1 h
      constructor
      · intro code
        rw [ihr code, lastCase_cons]
        cases hl : lastCase (fun tc => decide (tc.ExpectedHttpCode = code)) rest with
        | some x => rfl
        | none =>
          simp only [hr]
          by_cases hcode : tc.ExpectedHttpCode = code
          · subst hcode
            simp
          · have : code ≠ tc.ExpectedHttpCode := fun h => hcode h.symm
            simp [hcode, Function.update_noteq this]
      · rw [ihd, lastCase_cons]
        cases hl : lastCase (fun tc => decide tc.is2xx) rest with
        | some x => rfl
        | none =>
          simp only [hd]
          by_cases h2 : tc.is2xx
          · simp [h2]
          · simp [h2]

/-! ## Responses of a RAML method -/

theorem ramlCase_frame {ext : Extern} {uri uri1 : GoMap String NamedParameter}
    {st st1 : ramlOpState} {tc : TestCase} (h : ramlCase ext uri st tc = (uri1, some st1)) :
    st1.m.Responses =
      Function.update st.m.Responses tc.ExpectedHttpCode (some (ramlResponse ext tc)) ∧
    st1.m.Description = tc.Description ∧ st1.m.Name = st.m.Name := by
  unfold ramlCase at h
  split at h
  · cases h
  · split at h
    · cases h
    · split at h
      · cases h
      · cases h
        exact ⟨rfl, rfl, rfl⟩

theorem ramlCases_frame (ext : Extern) :
    ∀ (cases : List TestCase) (uri uri1 : GoMap String NamedParameter) (st st1 : ramlOpState),
      ramlCases ext cases uri st = (uri1, some st1) →
      ∀ code, st1.m.Responses code =
        match lastCase (fun tc => decide (tc.ExpectedHttpCode = code)) cases with
        | some tc => some (ramlResponse ext tc)
        | none => st.m.Responses code := by
  intro cases
  induction cases with
  | nil =>
    intro uri uri1 st st1 h code
    simp only [ramlCases, Prod.mk.injEq, Option.some.injEq] at h
    obtain ⟨-, rfl⟩ := h
    simp [lastCase_nil]
  | cons tc rest ih =>
    intro uri uri1 st st1 h code
    unfold ramlCases at h
    cases hc : ramlCase ext uri st tc with
    | mk uri2 r =>
      cases r with
      | none => rw [hc] at h; cases h
      | some st2 =>
        rw [hc] at h
        obtain ⟨hr, -, -⟩ := ramlCase_frame hc
        rw [ih uri2 uri1 st2 st1 h code, lastCase_cons]
        cases hl : lastCase (fun tc => decide (tc.ExpectedHttpCode = code)) rest with
        | some x => rfl
        | none =>
          simp only [hr]
          by_cases hcode : tc.ExpectedHttpCode = code
          · subst hcode
            simp
          · have : code ≠ tc.ExpectedHttpCode := fun h => hcode h.symm
            simp [hcode, Function.update_noteq this]

theorem lastCase_append_last (cond : TestCase → Bool) (pre : List TestCase) (tc : TestCase)
    (post : List TestCase) (htc : cond tc = true) (hpost : ∀ later ∈ post, cond later = false) :
    lastCase cond (pre ++ tc :: post) = some tc := by
  unfold lastCase
  have hnil : post.filter cond = [] := by
    rw [List.filter_eq_nil_iff]
    intro a ha
    rw [hpost a ha]
    simp
  rw [List.filter_append, List.filter_cons_of_pos htc, hnil, List.getLast?_append]
  rfl

theorem lastCase_ne_none_iff (cond : TestCase → Bool) (cases : List TestCase) :
    lastCase cond cases ≠ none ↔ ∃ tc ∈ cases, cond tc = true := by
  unfold lastCase
  rw [ne_eq, List.getLast?_eq_none_iff, List.filter_eq_nil_iff]
  simp

/-- C2: in the operation that either generator builds for a test, a status
code has a response exactly when it is the ExpectedHttpCode of some test case,
whatever the code is, and the response stored for the code of a test case that
no later test case shares carries the description of that test case and, when
its ExpectedData is set, the schema converted from what `jsonschema.Reflect`
returns for that ExpectedData and that ExpectedData as the example (for RAML:
the code, and the two texts that `json.MarshalIndent` gives for them); when
ExpectedData is nil it carries no schema and no example. Nothing of an earlier
test case with the same code is in it. -/
theorem responses_last_case_wins (ext : Extern) (test : Test) :
    (∀ op ws, generateSwaggerOperation ext test = .ok (op, ws) →
      (∀ code, op.Responses code ≠ none ↔
        ∃ tc ∈ test.TestCases, tc.ExpectedHttpCode = code) ∧
      ∀ pre tc post, test.TestCases = pre ++ tc :: post →
        (∀ later ∈ post, later.ExpectedHttpCode ≠ tc.ExpectedHttpCode) →
        ∃ resp, op.Responses tc.ExpectedHttpCode = some resp ∧
          resp.Description = tc.Description ∧
          (tc.ExpectedData ≠ GoValue.nil →
            resp.Schema = some ((specSchemaFromJsonType
              (ext.Reflect tc.ExpectedData).Type_).withDefinitions (some [])) ∧
            resp.Examples = [("application/json", tc.ExpectedData)]) ∧
          (tc.ExpectedData = GoValue.nil → resp.Schema = none ∧ resp.Examples = [])) ∧
    (∀ uri uri1 st, ramlOperation ext test uri = (uri1, some st) →
      (∀ code, st.m.Responses code ≠ none ↔
        ∃ tc ∈ test.TestCases, tc.ExpectedHttpCode = code) ∧
      ∀ pre tc post, test.TestCases = pre ++ tc :: post →
        (∀ later ∈ post, later.ExpectedHttpCode ≠ tc.ExpectedHttpCode) →
        ∃ resp, st.m.Responses tc.ExpectedHttpCode = some resp ∧
          resp.Description = tc.Description ∧
          resp.HTTPCode = tc.ExpectedHttpCode ∧
          (tc.ExpectedData ≠ GoValue.nil →
            resp.DefaultSchema =
              (ext.MarshalIndentSchema (ext.Reflect tc.ExpectedData)).getD "" ∧
            resp.DefaultExample = (ext.MarshalIndent tc.ExpectedData).getD "") ∧
          (tc.ExpectedData = GoValue.nil →
            resp.DefaultSchema = "" ∧ resp.DefaultExample = "")) := by
  have hsome : ∀ code, (∃ tc ∈ test.TestCases, decide (tc.ExpectedHttpCode = code) = true) ↔
      ∃ tc ∈ test.TestCases, tc.ExpectedHttpCode = code := by
    intro code
    simp
  have hlastOf : ∀ pre tc post, test.TestCases = pre ++ tc :: post →
      (∀ later ∈ post, later.ExpectedHttpCode ≠ tc.ExpectedHttpCode) →
      lastCase (fun c => decide (c.ExpectedHttpCode = tc.ExpectedHttpCode)) test.TestCases =
        some tc := by
    intro pre tc post hcases hlast
    rw [hcases]
    exact lastCase_append_last _ pre tc post (by simp) (fun later hl => by simp [hlast later hl])
  constructor
  · intro op ws h
    obtain ⟨st, hst, -, -, hr, -⟩ := generateSwaggerOperation_ok h
    have hframe := (swaggerCases_frame ext _ _ _ hst).1
    refine ⟨?_, ?_⟩
    · intro code
      rw [hr, hframe code, ← hsome code, ← lastCase_ne_none_iff]
      cases lastCase (fun tc => decide (tc.ExpectedHttpCode = code)) test.TestCases with
      | none => exact ⟨fun hn => absurd rfl hn, fun hn => absurd rfl hn⟩
      | some x => exact ⟨fun _ => by simp, fun _ => by simp⟩
    · intro pre tc post hcases hlast
      rw [hr, hframe tc.ExpectedHttpCode, hlastOf pre tc post hcases hlast]
      refine ⟨_, rfl, ?_, ?_, ?_⟩
      · unfold swaggerResponse
        split <;> rfl
      · intro hd
        unfold swaggerResponse generateSpecSchema
        rw [if_pos hd]
        exact ⟨rfl, rfl⟩
      · intro hd
        unfold swaggerResponse
        rw [if_neg (fun hn => hn hd)]
        exact ⟨rfl, rfl⟩
  · intro uri uri1 st h
    have hframe := ramlCases_frame ext _ _ _ _ _ h
    refine ⟨?_, ?_⟩
    · intro code
      rw [hframe code, ← hsome code, ← lastCase_ne_none_iff]
      cases lastCase (fun tc => decide (tc.ExpectedHttpCode = code)) test.TestCases with
      | none => exact ⟨fun hn => absurd rfl hn, fun hn => absurd rfl hn⟩
      | some x => exact ⟨fun _ => by simp, fun _ => by simp⟩
    · intro pre tc post hcases hlast
      rw [hframe tc.ExpectedHttpCode, hlastOf pre tc post hcases hlast]
      refine ⟨_, rfl, ?_, ?_, ?_, ?_⟩
      · unfold ramlResponse
        split <;> rfl
      · unfold ramlResponse
        split <;> rfl
      · intro hd
        unfold ramlResponse
        rw [if_pos hd]
        exact ⟨rfl, rfl⟩
      · intro hd
        unfold ramlResponse
        rw [if_neg (fun hn => hn hd)]
        exact ⟨rfl, rfl⟩

/-- Witness of C2 on `sampleDuplicateCode`, whose two test cases have the code
200: both generators keep for it the description, schema and example of the
second test case, and have no response for the code 404. -/
theorem responses_last_case_wins_witness :
    (((swaggerOperationOf sampleExtern sampleDuplicateCode).Responses 200).map
        (fun r => (r.Description, r.Examples)) =
      some ("second greeting",
        [("application/json", GoValue.other "Greeting" "text: Hello")]) ∧
     (ramlStateOf sampleExtern sampleDuplicateCode GoMap.empty).m.Responses 200 =
      some { Description := "second greeting", HTTPCode := 200, DefaultSchema := "{}",
             DefaultExample := "text: Hello" } ∧
     (swaggerOperationOf sampleExtern sampleDuplicateCode).Responses 404 = none ∧
     (ramlStateOf sampleExtern sampleDuplicateCode GoMap.empty).m.Responses 404 = none) ∧
    (∃ resp, (swaggerOperationOf sampleExtern sampleDuplicateCode).Responses 200 = some resp ∧
      resp.Description = "second greeting" ∧
      (GoValue.other "Greeting" "text: Hello" ≠ GoValue.nil →
        resp.Schema = some ((specSchemaFromJsonType
          (sampleExtern.Reflect (GoValue.other "Greeting" "text: Hello")).Type_).withDefinitions
            (some [])) ∧
        resp.Examples = [("application/json", GoValue.other "Greeting" "text: Hello")]) ∧
      (GoValue.other "Greeting" "text: Hello" = GoValue.nil →
        resp.Schema = none ∧ resp.Examples = [])) ∧
    (∃ resp, (ramlStateOf sampleExtern sampleDuplicateCode GoMap.empty).m.Responses 200 =
        some resp ∧
      resp.Description = "second greeting" ∧ resp.HTTPCode = 200 ∧
      (GoValue.other "Greeting" "text: Hello" ≠ GoValue.nil →
        resp.DefaultSchema = (sampleExtern.MarshalIndentSchema
          (sampleExtern.Reflect (GoValue.other "Greeting" "text: Hello"))).getD "" ∧
        resp.DefaultExample =
          (sampleExtern.MarshalIndent (GoValue.other "Greeting" "text: Hello")).getD "") ∧
      (GoValue.other "Greeting" "text: Hello" = GoValue.nil →
        resp.DefaultSchema = "" ∧ resp.DefaultExample = "")) :=
  ⟨⟨by decide, by decide, rfl, by decide⟩,
    ((responses_last_case_wins sampleExtern sampleDuplicateCode).1
      (swaggerOperationOf sampleExtern sampleDuplicateCode)
      (swaggerWritesOf sampleExtern sampleDuplicateCode) rfl).2
      [{ Description := "first greeting", ExpectedHttpCode := 200,
         ExpectedData := GoValue.string "Hello World!" }]
      { Description := "second greeting", ExpectedHttpCode := 200,
        ExpectedData := GoValue.other "Greeting" "text: Hello" }
      [] rfl (fun _ he => absurd he (List.not_mem_nil _)),
    ((responses_last_case_wins sampleExtern sampleDuplicateCode).2 GoMap.empty
      (ramlOperation sampleExtern sampleDuplicateCode GoMap.empty).1
      (ramlStateOf sampleExtern sampleDuplicateCode GoMap.empty) rfl).2
      [{ Description := "first greeting", ExpectedHttpCode := 200,
         ExpectedData := GoValue.string "Hello World!" }]
      { Description := "second greeting", ExpectedHttpCode := 200,
        ExpectedData := GoValue.other "Greeting" "text: Hello" }
      [] rfl (fun _ he => absurd he (List.not_mem_nil _))⟩

/-! ## Summary and body parameters of a Swagger operation -/

/-- C5, as stated, fails on `sampleGetUser`: the operation is built, its last
test case (code 404) has another description than the summary, which is the
description of the 200 test case. -/
theorem summary_is_not_of_last_case :
    generateSwaggerOperation sampleExtern sampleGetUser =
      .ok (swaggerOperationOf sampleExtern sampleGetUser,
        swaggerWritesOf sampleExtern sampleGetUser) ∧
    sampleGetUser.TestCases.getLast?.map (fun tc => tc.Description) =
      some "404 error in case user not found" ∧
    (swaggerOperationOf sampleExtern sampleGetUser).Summary =
      "Successful getting of user details" ∧
    ¬ (some (swaggerOperationOf sampleExtern sampleGetUser).Summary =
      sampleGetUser.TestCases.getLast?.map (fun tc => tc.Description)) :=
  ⟨rfl, by decide, by decide, by decide⟩

/-- C5, amended: the summary of the operation built by the Swagger generator
is the Description of the last test case, in declaration order, whose
ExpectedHttpCode is in [200,300), and it is empty when there is none. -/
theorem summary_of_last_2xx_case (ext : Extern) (test : Test) (op : Operation) (ws : DefWrites)
    (h : generateSwaggerOperation ext test = .ok (op, ws)) :
    op.Summary =
      ((lastCase (fun tc => decide tc.is2xx) test.TestCases).map
        (fun tc => tc.Description)).getD "" := by
  obtain ⟨st, hst, hs, -, -, -⟩ := generateSwaggerOperation_ok h
  rw [hs, (swaggerCases_frame ext _ _ _ hst).2]
  cases lastCase (fun tc => decide tc.is2xx) test.TestCases <;> rfl

/-- Witness of the amended C5 on `sampleGetUser`. -/
theorem summary_of_last_2xx_case_witness :
    (swaggerOperationOf sampleExtern sampleGetUser).Summary =
      ((lastCase (fun tc => decide tc.is2xx) sampleGetUser.TestCases).map
        (fun tc => tc.Description)).getD "" :=
  summary_of_last_2xx_case sampleExtern sampleGetUser
    (swaggerOperationOf sampleExtern sampleGetUser) (swaggerWritesOf sampleExtern sampleGetUser)
    rfl

/-- C6 on `sampleTwoBodies`: the operation is built and has two parameters
located in the body, one for each 2xx test case with a request body. -/
theorem two_body_parameters :
    generateSwaggerOperation sampleExtern sampleTwoBodies =
      .ok (swaggerOperationOf sampleExtern sampleTwoBodies,
        swaggerWritesOf sampleExtern sampleTwoBodies) ∧
    (bodyParams (swaggerOperationOf sampleExtern sampleTwoBodies).Parameters).map
        (fun p => (p.In, p.Name, p.Description)) =
      [("body", "body", "login: octocat"),
       ("body", "body", "login: monalisa")] :=
  ⟨rfl, by decide⟩

/-! ## Stores written cell by cell -/

theorem foldl_obs {S X C V : Type} (obs : S → C → V) (step : S → X → S)
    (writeOf : X → C → Option V) :
    ∀ (L : List X) (s : S),
      (∀ x ∈ L, ∀ s c, obs (step s x) c = (writeOf x c).getD (obs s c)) →
      ∀ c, obs (L.foldl step s) c = (lastWrite writeOf L c).getD (obs s c) := by
  intro L
  induction L with
  | nil => intro s _ c; rfl
  | cons x rest ih =>
    intro s h c
    rw [List.foldl_cons, ih (step s x) (fun y hy => h y (List.mem_cons_of_mem _ hy)) c,
      h x (List.mem_cons_self _ _) s c]
    simp only [lastWrite]
    cases lastWrite writeOf rest c <;> rfl

theorem foldl_twice {S X C V : Type} (obs : S → C → V) (step : S → X → S)
    (writeOf : X → C → Option V) (hinj : ∀ s t, (∀ c, obs s c = obs t c) → s = t)
    (L : List X) (s : S)
    (h : ∀ x ∈ L, ∀ s c, obs (step s x) c = (writeOf x c).getD (obs s c)) :
    L.foldl step (L.foldl step s) = L.foldl step s := by
  apply hinj
  intro c
  rw [foldl_obs obs step writeOf L _ h c, foldl_obs obs step writeOf L s h c]
  cases lastWrite writeOf L c <;> rfl

theorem lastWrite_none {X C V : Type} (writeOf : X → C → Option V) (c : C) :
    ∀ L : List X, (∀ x ∈ L, writeOf x c = none) → lastWrite writeOf L c = none := by
  intro L
  induction L with
  | nil => intro _; rfl
  | cons x rest ih =>
    intro h
    simp only [lastWrite]
    rw [ih (fun y hy => h y (List.mem_cons_of_mem _ hy)), h x (List.mem_cons_self _ _)]

/-! ## The map of paths of the Swagger generator -/

theorem mem_swaggerMethods (m : String) :
    m ∈ swaggerMethods ↔ m = "GET" ∨ m = "POST" ∨ m = "PATCH" ∨ m = "DELETE" ∨ m = "PUT" ∨
      m = "HEAD" ∨ m = "OPTIONS" := by
  simp [swaggerMethods]

theorem PathItem.assign_other (item : PathItem) {m : String} (op : Operation)
    (h : m ∉ swaggerMethods) : item.assign m op = item := by
  rw [mem_swaggerMethods] at h
  simp only [not_or] at h
  obtain ⟨h1, h2, h3, h4, h5, h6, h7⟩ := h
  simp only [PathItem.assign, if_neg h1, if_neg h2, if_neg h3, if_neg h4, if_neg h5, if_neg h6,
    if_neg h7]

theorem PathItem.operation_other (item : PathItem) {m : String} (h : m ∉ swaggerMethods) :
    item.operation m = none := by
  rw [mem_swaggerMethods] at h
  simp only [not_or] at h
  obtain ⟨h1, h2, h3, h4, h5, h6, h7⟩ := h
  simp only [PathItem.operation, if_neg h1, if_neg h2, if_neg h3, if_neg h4, if_neg h5,
    if_neg h6, if_neg h7]

theorem PathItem.assign_operation (item : PathItem) (m : String) (op : Operation) (m1 : String) :
    (item.assign m op).operation m1 =
      if m = m1 ∧ m1 ∈ swaggerMethods then some op else item.operation m1 := by
  by_cases hm1 : m1 ∈ swaggerMethods
  · by_cases hm : m ∈ swaggerMethods
    · rw [mem_swaggerMethods] at hm hm1
      rcases hm with rfl | rfl | rfl | rfl | rfl | rfl | rfl <;>
        rcases hm1 with rfl | rfl | rfl | rfl | rfl | rfl | rfl <;> rfl
    · rw [PathItem.assign_other item op hm, if_neg]
      rintro ⟨rfl, -⟩
      exact hm hm1
  · rw [PathItem.operation_other _ hm1, PathItem.operation_other _ hm1, if_neg]
    exact fun h => hm1 h.2

theorem PathItem.ext_operation {a b : PathItem} (h : ∀ m, a.operation m = b.operation m) :
    a = b := by
  have h1 := h "GET"
  have h2 := h "POST"
  have h3 := h "PATCH"
  have h4 := h "DELETE"
  have h5 := h "PUT"
  have h6 := h "HEAD"
  have h7 := h "OPTIONS"
  simp [PathItem.operation] at h1 h2 h3 h4 h5 h6 h7
  cases a
  cases b
  simp_all

theorem swaggerObs_store (paths : GoMap String PathItem) (x : Test × Operation)
    (c : String × Option String) :
    swaggerObs (swaggerStore paths x.1 x.2) c = (swaggerWrite x c).getD (swaggerObs paths c) := by
  obtain ⟨p, cell⟩ := c
  cases cell with
  | none =>
    simp only [swaggerObs, swaggerWrite, swaggerStore]
    by_cases hp : x.1.Path = p
    · subst hp
      simp
    · have : p ≠ x.1.Path := fun h => hp h.symm
      simp [hp, Function.update_noteq this]
  | some m =>
    simp only [swaggerObs, swaggerWrite, swaggerStore]
    by_cases hp : x.1.Path = p
    · subst hp
      simp only [Function.update_same, Option.getD_some, PathItem.assign_operation, true_and]
      split_ifs <;> rfl
    · have : p ≠ x.1.Path := fun h => hp h.symm
      simp [hp, Function.update_noteq this]

theorem swaggerObs_injective (s t : GoMap String PathItem)
    (h : ∀ c, swaggerObs s c = swaggerObs t c) : s = t := by
  funext p
  have hp := h (p, none)
  simp only [swaggerObs, Sum.inl.injEq] at hp
  cases hs : s p with
  | none =>
    cases ht : t p with
    | none => rfl
    | some b => rw [hs, ht] at hp; cases hp
  | some a =>
    cases ht : t p with
    | none => rw [hs, ht] at hp; cases hp
    | some b =>
      congr 1
      apply PathItem.ext_operation
      intro m
      have hm := h (p, some m)
      simpa only [swaggerObs, hs, ht, Option.getD_some, Sum.inr.injEq] using hm

theorem swaggerTests_status (ext : Extern) :
    ∀ (tests : List Test) (P Q : GoMap String PathItem) (D : GoMap String SpecSchema),
      (swaggerTests ext tests P D).2 = (swaggerTests ext tests Q D).2 := by
  intro tests
  induction tests with
  | nil => intro P Q D; rfl
  | cons t rest ih =>
    intro P Q D
    unfold swaggerTests
    cases hg : generateSwaggerOperation ext t with
    | error err => rfl
    | ok r => exact ih _ _ _

theorem swaggerTests_paths (ext : Extern) :
    ∀ (tests : List Test) (P : GoMap String PathItem) (D D1 : GoMap String SpecSchema),
      (swaggerTests ext tests P D).2 = .ok D1 →
      (swaggerTests ext tests P D).1 =
        (swaggerOps ext tests).foldl (fun paths x => swaggerStore paths x.1 x.2) P := by
  intro tests
  induction tests with
  | nil => intro P D D1 _; rfl
  | cons t rest ih =>
    intro P D D1 h
    unfold swaggerTests at h ⊢
    unfold swaggerOps
    cases hg : generateSwaggerOperation ext t with
    | error err => rw [hg] at h; cases h
    | ok r =>
      rw [hg] at h
      simp only [List.filterMap_cons, hg, List.foldl_cons]
      exact ih _ _ _ h

theorem swaggerTests_twice (ext : Extern) (tests : List Test) (P : GoMap String PathItem)
    (D D1 : GoMap String SpecSchema) (h : (swaggerTests ext tests P D).2 = .ok D1) :
    (swaggerTests ext tests (swaggerTests ext tests P D).1 D).1 =
      (swaggerTests ext tests P D).1 := by
  have h2 : (swaggerTests ext tests (swaggerTests ext tests P D).1 D).2 = .ok D1 := by
    rw [swaggerTests_status ext tests _ P D, h]
  rw [swaggerTests_paths ext tests _ D D1 h2, swaggerTests_paths ext tests P D D1 h]
  exact foldl_twice swaggerObs _ swaggerWrite swaggerObs_injective _ _
    (fun x _ s c => swaggerObs_store s x c)

theorem swaggerDocument_fst (ext : Extern) (g : swaggerGenerator) (tests : List Test) :
    (g.document ext tests).1 =
      { g with seed := { g.seed with
          Paths := (swaggerTests ext tests g.seed.Paths GoMap.empty).1 } } := by
  unfold swaggerGenerator.document
  simp only
  split <;> rfl

theorem swaggerDocument_snd (ext : Extern) (g : swaggerGenerator) (tests : List Test) :
    (g.document ext tests).2 =
      match (swaggerTests ext tests g.seed.Paths GoMap.empty).2 with
      | .error err => .error err
      | .ok defs => .ok { g.seed with
          Paths := (swaggerTests ext tests g.seed.Paths GoMap.empty).1, Definitions := defs } := by
  unfold swaggerGenerator.document
  simp only
  split <;> rfl

theorem swaggerDocument_twice (ext : Extern) (g : swaggerGenerator) (tests : List Test) :
    ((g.document ext tests).1.document ext tests).2 = (g.document ext tests).2 := by
  rw [swaggerDocument_snd ext (g.document ext tests).1, swaggerDocument_snd ext g,
    swaggerDocument_fst]
  simp only
  have h2 := swaggerTests_status ext tests
    (swaggerTests ext tests g.seed.Paths GoMap.empty).1 g.seed.Paths GoMap.empty
  cases h : (swaggerTests ext tests g.seed.Paths GoMap.empty).2 with
  | error err =>
    rw [h] at h2
    rw [h2]
  | ok D1 =>
    rw [h] at h2
    rw [h2, swaggerTests_twice ext tests g.seed.Paths GoMap.empty D1 h]

/-! ## The map of resources of the RAML generator -/

theorem overlay_empty {K V : Type} (u : GoMap K V) : overlay GoMap.empty u = u := rfl

theorem overlay_update {K V : Type} [DecidableEq K] (w u : GoMap K V) (k : K) (v : V) :
    Function.update (overlay w u) k (some v) = overlay (Function.update w k (some v)) u := by
  funext x
  by_cases hx : x = k
  · subst hx
    simp [overlay]
  · simp [overlay, Function.update_noteq hx]

theorem collectRamlParams_overlay :
    ∀ (entries : ParamMap) (processed : List String) (w u : GoMap String NamedParameter),
      collectRamlParams entries processed (overlay w u) =
        (overlay (collectRamlParams entries processed w).1 u,
          (collectRamlParams entries processed w).2) := by
  intro entries
  induction entries with
  | nil => intro processed w u; rfl
  | cons e rest ih =>
    obtain ⟨key, param⟩ := e
    intro processed w u
    unfold collectRamlParams
    by_cases hk : key ∈ processed
    · simp only [if_pos hk]
      exact ih processed w u
    · simp only [if_neg hk]
      cases hg : generateRamlNamedParameter key param with
      | none => rfl
      | some p =>
        simp only
        rw [overlay_update]
        exact ih _ _ u

theorem ramlCase_overlay (ext : Extern) (w u : GoMap String NamedParameter) (st : ramlOpState)
    (tc : TestCase) :
    ramlCase ext (overlay w u) st tc =
      (overlay (ramlCase ext w st tc).1 u, (ramlCase ext w st tc).2) := by
  unfold ramlCase
  rw [collectRamlParams_overlay]
  cases h1 : collectRamlParams tc.PathParams st.processedPathParams w with
  | mk uri1 r1 =>
    cases r1 with
    | none => rfl
    | some pp =>
      simp only
      cases h2 : collectRamlParams tc.Headers st.processedHeaderParams st.m.Headers with
      | mk hd r2 =>
        cases r2 with
        | none => rfl
        | some ph =>
          simp only
          cases h3 : collectRamlParams tc.QueryParams st.processedQueryParams
              st.m.QueryParameters with
          | mk q r3 =>
            cases r3 with
            | none => rfl
            | some pq => rfl

theorem ramlCases_overlay (ext : Extern) :
    ∀ (cases : List TestCase) (w u : GoMap String NamedParameter) (st : ramlOpState),
      ramlCases ext cases (overlay w u) st =
        (overlay (ramlCases ext cases w st).1 u, (ramlCases ext cases w st).2) := by
  intro cases
  induction cases with
  | nil => intro w u st; rfl
  | cons tc rest ih =>
    intro w u st
    unfold ramlCases
    rw [ramlCase_overlay]
    cases h : ramlCase ext w st tc with
    | mk uri1 r =>
      cases r with
      | none => rfl
      | some st1 =>
        simp only
        exact ih uri1 u st1

theorem ramlOperation_overlay (ext : Extern) (test : Test) (u : GoMap String NamedParameter) :
    ramlOperation ext test u =
      (overlay (ramlOperation ext test GoMap.empty).1 u,
        (ramlOperation ext test GoMap.empty).2) := by
  unfold ramlOperation
  rw [← ramlCases_overlay, overlay_empty]

theorem mem_ramlMethods (m : String) :
    m ∈ ramlMethods ↔ m = "GET" ∨ m = "POST" ∨ m = "PATCH" ∨ m = "DELETE" ∨ m = "PUT" ∨
      m = "HEAD" := by
  simp [ramlMethods]

theorem Resource.assign_unknown (resource : Resource) {m : String} (x : Method)
    (h : m ∉ ramlMethods) : resource.assign m x = resource := by
  rw [mem_ramlMethods] at h
  simp only [not_or] at h
  obtain ⟨h1, h2, h3, h4, h5, h6⟩ := h
  simp only [Resource.assign, if_neg h1, if_neg h2, if_neg h3, if_neg h4, if_neg h5, if_neg h6]

theorem Resource.method_other (resource : Resource) {m : String} (h : m ∉ ramlMethods) :
    resource.method m = none := by
  rw [mem_ramlMethods] at h
  simp only [not_or] at h
  obtain ⟨h1, h2, h3, h4, h5, h6⟩ := h
  simp only [Resource.method, if_neg h1, if_neg h2, if_neg h3, if_neg h4, if_neg h5, if_neg h6]

theorem Resource.assign_method (resource : Resource) (m : String) (x : Method) (m1 : String) :
    (resource.assign m x).method m1 =
      if m = m1 ∧ m1 ∈ ramlMethods then some x else resource.method m1 := by
  by_cases hm1 : m1 ∈ ramlMethods
  · by_cases hm : m ∈ ramlMethods
    · rw [mem_ramlMethods] at hm hm1
      rcases hm with rfl | rfl | rfl | rfl | rfl | rfl <;>
        rcases hm1 with rfl | rfl | rfl | rfl | rfl | rfl <;> rfl
    · rw [Resource.assign_unknown resource x hm, if_neg]
      rintro ⟨rfl, -⟩
      exact hm hm1
  · rw [Resource.method_other _ hm1, Resource.method_other _ hm1, if_neg]
    exact fun h => hm1 h.2

theorem Resource.assign_uri (resource : Resource) (m : String) (x : Method) :
    (resource.assign m x).UriParameters = resource.UriParameters := by
  by_cases hm : m ∈ ramlMethods
  · rw [mem_ramlMethods] at hm
    rcases hm with rfl | rfl | rfl | rfl | rfl | rfl <;> rfl
  · rw [Resource.assign_unknown resource x hm]

theorem Resource.ext_method {a b : Resource} (hu : a.UriParameters = b.UriParameters)
    (h : ∀ m, a.method m = b.method m) : a = b := by
  have h1 := h "GET"
  have h2 := h "POST"
  have h3 := h "PATCH"
  have h4 := h "DELETE"
  have h5 := h "PUT"
  have h6 := h "HEAD"
  simp [Resource.method] at h1 h2 h3 h4 h5 h6
  cases a
  cases b
  simp_all

theorem ramlTest_ok (ext : Extern) (R : GoMap String Resource) {t : Test} {q : String}
    {st : ramlOpState} (hq : ramlPath t.Path = some q)
    (hst : (ramlOperation ext t GoMap.empty).2 = some st) :
    ramlTest ext R t =
      (Function.update R q (some (({ ((R q).getD {}) with
          UriParameters := overlay (ramlOperation ext t GoMap.empty).1
            ((R q).getD {}).UriParameters } : Resource).assign t.Method st.m)), true) := by
  unfold ramlTest
  rw [hq]
  simp only
  rw [ramlOperation_overlay, hst]

theorem ramlTest_status (ext : Extern) (R Q : GoMap String Resource) (t : Test) :
    (ramlTest ext R t).2 = (ramlTest ext Q t).2 := by
  unfold ramlTest
  cases hq : ramlPath t.Path with
  | none => rfl
  | some q =>
    simp only
    rw [ramlOperation_overlay ext t ((R q).getD {}).UriParameters,
      ramlOperation_overlay ext t ((Q q).getD {}).UriParameters]
    cases hst : (ramlOperation ext t GoMap.empty).2 with
    | none =>
      simp only
      cases R q <;> cases Q q <;> rfl
    | some st => rfl

theorem ramlTest_true {ext : Extern} {R : GoMap String Resource} {t : Test}
    (h : (ramlTest ext R t).2 = true) :
    ∃ q st, ramlPath t.Path = some q ∧ (ramlOperation ext t GoMap.empty).2 = some st := by
  unfold ramlTest at h
  cases hq : ramlPath t.Path with
  | none => rw [hq] at h; cases h
  | some q =>
    rw [hq] at h
    simp only at h
    rw [ramlOperation_overlay ext t ((R q).getD {}).UriParameters] at h
    cases hst : (ramlOperation ext t GoMap.empty).2 with
    | none =>
      rw [hst] at h
      simp only at h
      cases hr : R q with
      | none => rw [hr] at h; cases h
      | some stored => rw [hr] at h; cases h
    | some st => exact ⟨q, st, rfl, rfl⟩

theorem ramlObs_test (ext : Extern) (R : GoMap String Resource) (t : Test)
    (ht : (ramlTest ext R t).2 = true) (c : String × RamlCell) :
    ramlObs (ramlTest ext R t).1 c = (ramlWrite ext t c).getD (ramlObs R c) := by
  obtain ⟨q, st, hq, hst⟩ := ramlTest_true ht
  rw [ramlTest_ok ext R hq hst]
  obtain ⟨p, cell⟩ := c
  simp only [ramlWrite, hq, hst]
  by_cases hp : q = p
  · subst hp
    simp only [if_true]
    cases cell with
    | presence => simp [ramlObs]
    | method name =>
      simp only [ramlObs, Function.update_same, Option.getD_some, Resource.assign_method]
      split_ifs <;> rfl
    | uri key =>
      simp only [ramlObs, Function.update_same, Option.getD_some, Resource.assign_uri, overlay]
      cases (ramlOperation ext t GoMap.empty).1 key <;> rfl
  · have hne : p ≠ q := fun h => hp h.symm
    simp only [if_neg hp, Option.getD_none]
    cases cell <;> simp [ramlObs, Function.update_noteq hne]

theorem ramlObs_injective (s t : GoMap String Resource)
    (h : ∀ c, ramlObs s c = ramlObs t c) : s = t := by
  funext p
  have hp := h (p, .presence)
  simp only [ramlObs, RamlCellValue.present.injEq] at hp
  cases hs : s p with
  | none =>
    cases ht : t p with
    | none => rfl
    | some b => rw [hs, ht] at hp; cases hp
  | some a =>
    cases ht : t p with
    | none => rw [hs, ht] at hp; cases hp
    | some b =>
      congr 1
      apply Resource.ext_method
      · funext k
        have hk := h (p, .uri k)
        simpa only [ramlObs, hs, ht, Option.getD_some, RamlCellValue.uri.injEq] using hk
      · intro m
        have hm := h (p, .method m)
        simpa only [ramlObs, hs, ht, Option.getD_some, RamlCellValue.method.injEq] using hm

theorem ramlTests_status (ext : Extern) :
    ∀ (tests : List Test) (R Q : GoMap String Resource),
      (ramlTests ext tests R).2 = (ramlTests ext tests Q).2 := by
  intro tests
  induction tests with
  | nil => intro R Q; rfl
  | cons t rest ih =>
    intro R Q
    unfold ramlTests
    have hs := ramlTest_status ext R Q t
    cases h1 : ramlTest ext R t with
    | mk R1 b1 =>
      cases h2 : ramlTest ext Q t with
      | mk Q1 b2 =>
        rw [h1, h2] at hs
        simp only at hs
        subst hs
        cases b1 with
        | false => rfl
        | true => exact ih R1 Q1

theorem ramlTests_resources (ext : Extern) :
    ∀ (tests : List Test) (R : GoMap String Resource), (ramlTests ext tests R).2 = true →
      (ramlTests ext tests R).1 = tests.foldl (fun r t => (ramlTest ext r t).1) R ∧
      ∀ t ∈ tests, ∀ r, (ramlTest ext r t).2 = true := by
  intro tests
  induction tests with
  | nil => intro R _; exact ⟨rfl, by simp⟩
  | cons t rest ih =>
    intro R h
    unfold ramlTests at h ⊢
    cases h1 : ramlTest ext R t with
    | mk R1 b1 =>
      rw [h1] at h
      cases b1 with
      | false => cases h
      | true =>
        simp only at h ⊢
        obtain ⟨ih1, ih2⟩ := ih R1 h
        refine ⟨?_, ?_⟩
        · rw [ih1, List.foldl_cons, h1]
        · intro x hx r
          rw [List.mem_cons] at hx
          rcases hx with rfl | hx
          · rw [ramlTest_status ext r R x, h1]
          · exact ih2 x hx r

theorem ramlTests_twice (ext : Extern) (tests : List Test) (R : GoMap String Resource)
    (h : (ramlTests ext tests R).2 = true) :
    (ramlTests ext tests (ramlTests ext tests R).1).1 = (ramlTests ext tests R).1 := by
  have h2 : (ramlTests ext tests (ramlTests ext tests R).1).2 = true := by
    rw [ramlTests_status ext tests _ R, h]
  obtain ⟨e1, hall⟩ := ramlTests_resources ext tests R h
  obtain ⟨e2, -⟩ := ramlTests_resources ext tests _ h2
  rw [e2, e1]
  exact foldl_twice ramlObs _ (ramlWrite ext) ramlObs_injective _ _
    (fun x hx s c => ramlObs_test ext s x (hall x hx s) c)

theorem ramlDocument_fst (ext : Extern) (g : ramlGenerator) (tests : List Test) :
    (g.document ext tests).1 =
      { seed := { g.seed with Resources := (ramlTests ext tests g.seed.Resources).1 } } := by
  unfold ramlGenerator.document
  simp only
  split <;> rfl

theorem ramlDocument_snd (ext : Extern) (g : ramlGenerator) (tests : List Test) :
    (g.document ext tests).2 =
      if (ramlTests ext tests g.seed.Resources).2 then
        some { g.seed with Resources := (ramlTests ext tests g.seed.Resources).1 }
      else none := by
  unfold ramlGenerator.document
  simp only
  split <;> rfl

theorem ramlDocument_twice (ext : Extern) (g : ramlGenerator) (tests : List Test) :
    ((g.document ext tests).1.document ext tests).2 = (g.document ext tests).2 := by
  rw [ramlDocument_snd ext (g.document ext tests).1, ramlDocument_snd ext g, ramlDocument_fst]
  simp only
  have h2 := ramlTests_status ext tests (ramlTests ext tests g.seed.Resources).1 g.seed.Resources
  cases h : (ramlTests ext tests g.seed.Resources).2 with
  | false =>
    rw [h] at h2
    rw [h2]
    rfl
  | true =>
    rw [h] at h2
    rw [h2, ramlTests_twice ext tests g.seed.Resources h]

/-- For either generator, in whatever state earlier calls left it, a second
call of Generate with the same suite right after the first, iterating the
maps of the suite in the same order, builds the same document (or stops with
the same error or panic) and returns the same result as the first. -/
theorem generate_twice_same_order (ext : Extern) (yamlMarshal : APIDefinition → Result)
    (g : swaggerGenerator) (gr : ramlGenerator) (tests : List Test) :
    ((g.Generate ext tests).1.document ext tests).2 = (g.document ext tests).2 ∧
    ((g.Generate ext tests).1.Generate ext tests).2 = (g.Generate ext tests).2 ∧
    ((gr.Generate ext yamlMarshal tests).1.document ext tests).2 = (gr.document ext tests).2 ∧
    ((gr.Generate ext yamlMarshal tests).1.Generate ext yamlMarshal tests).2 =
      (gr.Generate ext yamlMarshal tests).2 := by
  have hg : (g.Generate ext tests).1 = (g.document ext tests).1 := by
    unfold swaggerGenerator.Generate
    simp only
    split <;> rfl
  have hgr : (gr.Generate ext yamlMarshal tests).1 = (gr.document ext tests).1 := by
    unfold ramlGenerator.Generate
    simp only
    split
    · rfl
    · split <;> rfl
  have hm : (g.document ext tests).1.marshaller = g.marshaller := by
    rw [swaggerDocument_fst]
  refine ⟨?_, ?_, ?_, ?_⟩
  · rw [hg, swaggerDocument_twice]
  · rw [hg]
    unfold swaggerGenerator.Generate
    simp only
    rw [swaggerDocument_twice, hm]
    cases (g.document ext tests).2 <;> rfl
  · rw [hgr, ramlDocument_twice]
  · rw [hgr]
    unfold ramlGenerator.Generate
    simp only
    rw [ramlDocument_twice]
    cases (gr.document ext tests).2 with
    | none => rfl
    | some doc =>
      simp only
      split <;> rfl

/-! ## State kept between two calls of Generate; keys of the document -/

/-- C3 on the suites A = `[sampleHello]` and B = `[sampleGetUser]`: a fresh
generator reports no entry for the path `/hello` of A in the document of
Generate(B), the same generator after Generate(A) reports one; so for the
Swagger and for the RAML generator. -/
theorem generate_keeps_paths_of_earlier_call :
    ((NewSwaggerGenerator {} (probeMarshaller "/hello")).Generate sampleExtern
        [sampleGetUser]).2 = (some [0], none) ∧
    (((NewSwaggerGenerator {} (probeMarshaller "/hello")).Generate sampleExtern
        [sampleHello]).1.Generate sampleExtern [sampleGetUser]).2 = (some [1], none) ∧
    ((NewRamlGenerator {}).Generate sampleExtern (probeYaml "/hello") [sampleGetUser]).2 =
      some (some (ramlHeader { RAMLVersion := "0.8" } ++ [0]), none) ∧
    (((NewRamlGenerator {}).Generate sampleExtern (probeYaml "/hello")
        [sampleHello]).1.Generate sampleExtern (probeYaml "/hello") [sampleGetUser]).2 =
      some (some (ramlHeader { RAMLVersion := "0.8" } ++ [1]), none) :=
  ⟨rfl, rfl, rfl, rfl⟩

/-- C7 on `sampleNoSlash`, whose path is `hello`: the Swagger generator stores
the entry under `hello` and nothing under `/hello`, the RAML generator stores
the resource under `/hello` and nothing under `hello`. -/
theorem swagger_keeps_path_without_slash :
    ((NewSwaggerGenerator {} (probeMarshaller "hello")).Generate sampleExtern
        [sampleNoSlash]).2 = (some [1], none) ∧
    ((NewSwaggerGenerator {} (probeMarshaller "/hello")).Generate sampleExtern
        [sampleNoSlash]).2 = (some [0], none) ∧
    ((NewRamlGenerator {}).Generate sampleExtern (probeYaml "hello") [sampleNoSlash]).2 =
      some (some (ramlHeader { RAMLVersion := "0.8" } ++ [0]), none) ∧
    ((NewRamlGenerator {}).Generate sampleExtern (probeYaml "/hello") [sampleNoSlash]).2 =
      some (some (ramlHeader { RAMLVersion := "0.8" } ++ [1]), none) :=
  ⟨rfl, rfl, rfl, rfl⟩

/-! ## Method slots -/

theorem swaggerTests_single (ext : Extern) (test : Test) (paths : GoMap String PathItem)
    (defs : GoMap String SpecSchema) {op : Operation} {ws : DefWrites}
    (h : generateSwaggerOperation ext test = .ok (op, ws)) :
    swaggerTests ext [test] paths defs = (swaggerStore paths test op, .ok (applyDefWrites ws defs)) := by
  simp only [swaggerTests, h]

/-- C8 on `sampleOptions`, whose method is OPTIONS: the RAML generator builds
the document without a panic, the resource of the path is there, and none of
its method slots holds a method, although OPTIONS is one of the seven methods
of the claim. -/
theorem raml_drops_options :
    "OPTIONS" ∈ swaggerMethods ∧
    ((NewRamlGenerator {}).document sampleExtern [sampleOptions]).2.map
        (fun doc => (doc.Resources "/hello").map (fun r =>
          [r.Get.isSome, r.Post.isSome, r.Patch.isSome, r.Delete.isSome, r.Put.isSome,
            r.Head.isSome])) =
      some (some [false, false, false, false, false, false]) :=
  ⟨by decide, by decide⟩

/-- C8, amended: the loop body of the Swagger generator stores the operation
built for a test under the method of the test exactly when the method is one
of GET, POST, PATCH, DELETE, PUT, HEAD, OPTIONS, that of the RAML generator
exactly when it is one of GET, POST, PATCH, DELETE, PUT, HEAD; for any other
method string the method slots of the entry are what they were, and the loop
goes on without an error or a panic. -/
theorem method_slot_iff_recognized (ext : Extern) (test : Test) :
    (∀ paths defs op ws, generateSwaggerOperation ext test = .ok (op, ws) →
      (swaggerTests ext [test] paths defs).2 = .ok (applyDefWrites ws defs) ∧
      ∃ item, (swaggerTests ext [test] paths defs).1 test.Path = some item ∧
        (item.operation test.Method = some op ↔ test.Method ∈ swaggerMethods) ∧
        (test.Method ∉ swaggerMethods → item = (paths test.Path).getD {})) ∧
    (∀ resources q st, ramlPath test.Path = some q →
      (ramlOperation ext test ((resources q).getD {}).UriParameters).2 = some st →
      (ramlTest ext resources test).2 = true ∧
      ∃ resource, (ramlTest ext resources test).1 q = some resource ∧
        (resource.method test.Method = some st.m ↔ test.Method ∈ ramlMethods) ∧
        (test.Method ∉ ramlMethods →
          ∀ m, resource.method m = ((resources q).getD {}).method m)) := by
  constructor
  · intro paths defs op ws h
    rw [swaggerTests_single ext test paths defs h]
    refine ⟨rfl, _, Function.update_same _ _ _, ?_, ?_⟩
    · rw [PathItem.assign_operation]
      by_cases hm : test.Method ∈ swaggerMethods
      · simp [hm]
      · simp [hm, PathItem.operation_other _ hm]
    · intro hm
      exact PathItem.assign_other _ op hm
  · intro resources q st hq hst
    rw [ramlOperation_overlay] at hst
    simp only at hst
    rw [ramlTest_ok ext resources hq hst]
    refine ⟨rfl, _, Function.update_same _ _ _, ?_, ?_⟩
    · rw [Resource.assign_method]
      by_cases hm : test.Method ∈ ramlMethods
      · simp [hm]
      · simp [hm, Resource.method_other _ hm]
    · intro hm m
      rw [Resource.assign_unknown _ st.m hm]
      rfl

/-- Witness of the amended C8 on `sampleOptions`, from the empty maps. -/
theorem method_slot_iff_recognized_witness :
    ((swaggerTests sampleExtern [sampleOptions] GoMap.empty GoMap.empty).2 =
        .ok (applyDefWrites (swaggerWritesOf sampleExtern sampleOptions) GoMap.empty) ∧
      ∃ item, (swaggerTests sampleExtern [sampleOptions] GoMap.empty GoMap.empty).1
          sampleOptions.Path = some item ∧
        (item.operation sampleOptions.Method = some (swaggerOperationOf sampleExtern sampleOptions) ↔
          sampleOptions.Method ∈ swaggerMethods) ∧
        (sampleOptions.Method ∉ swaggerMethods →
          item = ((GoMap.empty : GoMap String PathItem) sampleOptions.Path).getD {})) ∧
    ((ramlTest sampleExtern GoMap.empty sampleOptions).2 = true ∧
      ∃ resource, (ramlTest sampleExtern GoMap.empty sampleOptions).1 "/hello" = some resource ∧
        (resource.method sampleOptions.Method =
            some (ramlStateOf sampleExtern sampleOptions GoMap.empty).m ↔
          sampleOptions.Method ∈ ramlMethods) ∧
        (sampleOptions.Method ∉ ramlMethods →
          ∀ m, resource.method m =
            (((GoMap.empty : GoMap String Resource) "/hello").getD {}).method m)) :=
  ⟨(method_slot_iff_recognized sampleExtern sampleOptions).1 GoMap.empty GoMap.empty
      (swaggerOperationOf sampleExtern sampleOptions) (swaggerWritesOf sampleExtern sampleOptions)
      rfl,
    (method_slot_iff_recognized sampleExtern sampleOptions).2 GoMap.empty "/hello"
      (ramlStateOf sampleExtern sampleOptions GoMap.empty) rfl rfl⟩

theorem lastWrite_some_mem {X C V : Type} (writeOf : X → C → Option V) (c : C) (v : V) :
    ∀ L : List X, lastWrite writeOf L c = some v → ∃ y ∈ L, writeOf y c = some v := by
  intro L
  induction L with
  | nil => intro h; cases h
  | cons x rest ih =>
    intro h
    simp only [lastWrite] at h
    cases hr : lastWrite writeOf rest c with
    | some v1 =>
      rw [hr] at h
      cases h
      obtain ⟨y, hy, hw⟩ := ih hr
      exact ⟨y, List.mem_cons_of_mem _ hy, hw⟩
    | none =>
      rw [hr] at h
      exact ⟨x, List.mem_cons_self _ _, h⟩

theorem lastWrite_isSome_of_mem {X C V : Type} (writeOf : X → C → Option V) (c : C) :
    ∀ (L : List X) (x : X) (v : V), x ∈ L → writeOf x c = some v →
      ∃ v1, lastWrite writeOf L c = some v1 := by
  intro L
  induction L with
  | nil => intro x v hx; cases hx
  | cons z rest ih =>
    intro x v hx hw
    simp only [lastWrite]
    cases hr : lastWrite writeOf rest c with
    | some v1 => exact ⟨v1, rfl⟩
    | none =>
      rw [List.mem_cons] at hx
      rcases hx with rfl | hx
      · exact ⟨v, hw⟩
      · obtain ⟨v1, h1⟩ := ih x v hx hw
        rw [hr] at h1
        cases h1

theorem lastWrite_eq {X C V : Type} (writeOf : X → C → Option V) (c : C) (L : List X) (x : X)
    (v : V) (hx : x ∈ L) (hw : writeOf x c = some v)
    (hall : ∀ y ∈ L, ∀ v1, writeOf y c = some v1 → v1 = v) :
    lastWrite writeOf L c = some v := by
  obtain ⟨v1, h1⟩ := lastWrite_isSome_of_mem writeOf c L x v hx hw
  obtain ⟨y, hy, hyw⟩ := lastWrite_some_mem writeOf c v1 L h1
  rw [h1, hall y hy v1 hyw]

theorem swaggerTests_all_ok (ext : Extern) :
    ∀ (tests : List Test) (P : GoMap String PathItem) (D D1 : GoMap String SpecSchema),
      (swaggerTests ext tests P D).2 = .ok D1 →
      ∀ t ∈ tests, ∃ op ws, generateSwaggerOperation ext t = .ok (op, ws) := by
  intro tests
  induction tests with
  | nil => intro P D D1 _ t ht; cases ht
  | cons x rest ih =>
    intro P D D1 h t ht
    unfold swaggerTests at h
    cases hg : generateSwaggerOperation ext x with
    | error err => rw [hg] at h; cases h
    | ok r =>
      rw [hg] at h
      rw [List.mem_cons] at ht
      rcases ht with rfl | ht
      · exact ⟨r.1, r.2, hg⟩
      · exact ih _ _ _ h t ht

theorem mem_swaggerOps {ext : Extern} {tests : List Test} {t : Test} {op : Operation} :
    (t, op) ∈ swaggerOps ext tests ↔
      t ∈ tests ∧ ∃ ws, generateSwaggerOperation ext t = .ok (op, ws) := by
  unfold swaggerOps
  rw [List.mem_filterMap]
  constructor
  · rintro ⟨a, ha, h⟩
    cases hg : generateSwaggerOperation ext a with
    | error err => rw [hg] at h; cases h
    | ok r =>
      rw [hg] at h
      simp only [Option.some.injEq, Prod.mk.injEq] at h
      obtain ⟨rfl, rfl⟩ := h
      exact ⟨ha, r.2, hg⟩
  · rintro ⟨ht, ws, hg⟩
    exact ⟨t, ht, by rw [hg]⟩

/-- C9: in the Swagger generator, processing a test with a recognized method
goes on without an error (given that its operation is built), puts the
operation under the method of the test in the entry of its path, and leaves
the operations under the other methods of the entry and the other entries as
they were; hence, after a run over tests that share a path and have pairwise
different recognized methods, the one entry of the path holds, under the
method of each test, the operation built for that test. -/
theorem store_changes_one_slot (ext : Extern) :
    (∀ (test : Test) (paths : GoMap String PathItem) (defs : GoMap String SpecSchema)
        (op : Operation) (ws : DefWrites),
      test.Method ∈ swaggerMethods → generateSwaggerOperation ext test = .ok (op, ws) →
      (swaggerTests ext [test] paths defs).2 = .ok (applyDefWrites ws defs) ∧
      (∃ item, (swaggerTests ext [test] paths defs).1 test.Path = some item ∧
        item.operation test.Method = some op ∧
        ∀ m, m ≠ test.Method → item.operation m = ((paths test.Path).getD {}).operation m) ∧
      (∀ p, p ≠ test.Path → (swaggerTests ext [test] paths defs).1 p = paths p)) ∧
    (∀ (tests : List Test) (paths : GoMap String PathItem) (defs defs1 : GoMap String SpecSchema)
        (path : String),
      tests ≠ [] → (∀ t ∈ tests, t.Path = path ∧ t.Method ∈ swaggerMethods) →
      (tests.map (fun t => t.Method)).Nodup →
      (swaggerTests ext tests paths defs).2 = .ok defs1 →
      ∃ item, (swaggerTests ext tests paths defs).1 path = some item ∧
        ∀ t ∈ tests, ∃ op ws, generateSwaggerOperation ext t = .ok (op, ws) ∧
          item.operation t.Method = some op) := by
  constructor
  · intro test paths defs op ws hm h
    rw [swaggerTests_single ext test paths defs h]
    refine ⟨rfl, ⟨_, Function.update_same _ _ _, ?_, ?_⟩, ?_⟩
    · rw [PathItem.assign_operation, if_pos ⟨rfl, hm⟩]
    · intro m hne
      rw [PathItem.assign_operation, if_neg]
      exact fun h => hne h.1.symm
    · intro p hp
      exact Function.update_noteq hp _ _
  · intro tests paths defs defs1 path hne hall hnd hok
    have hobs := foldl_obs swaggerObs (fun paths x => swaggerStore paths x.1 x.2) swaggerWrite
      (swaggerOps ext tests) paths (fun x _ s c => swaggerObs_store s x c)
    rw [← swaggerTests_paths ext tests paths defs defs1 hok] at hobs
    have hgen := swaggerTests_all_ok ext tests paths defs defs1 hok
    -- the entry is there
    obtain ⟨t0, ht0⟩ := List.exists_mem_of_ne_nil tests hne
    obtain ⟨op0, ws0, hg0⟩ := hgen t0 ht0
    have hpres : lastWrite swaggerWrite (swaggerOps ext tests) (path, none) =
        some (Sum.inl true) := by
      apply lastWrite_eq swaggerWrite _ _ (t0, op0) _ (mem_swaggerOps.2 ⟨ht0, ws0, hg0⟩)
      · simp only [swaggerWrite, (hall t0 ht0).1, if_true]
      · intro y _ v1 hv
        simp only [swaggerWrite] at hv
        split at hv
        · cases hv; rfl
        · cases hv
    have h1 := hobs (path, none)
    rw [hpres] at h1
    simp only [swaggerObs, Option.getD_some, Sum.inl.injEq] at h1
    cases hitem : (swaggerTests ext tests paths defs).1 path with
    | none => rw [hitem] at h1; cases h1
    | some item =>
      refine ⟨item, rfl, ?_⟩
      intro t ht
      obtain ⟨op, ws, hg⟩ := hgen t ht
      refine ⟨op, ws, hg, ?_⟩
      have hslot : lastWrite swaggerWrite (swaggerOps ext tests) (path, some t.Method) =
          some (Sum.inr (some op)) := by
        apply lastWrite_eq swaggerWrite _ _ (t, op) _ (mem_swaggerOps.2 ⟨ht, ws, hg⟩)
        · simp only [swaggerWrite, (hall t ht).1, (hall t ht).2, and_self, if_true]
        · intro y hy v1 hv
          obtain ⟨y1, opy⟩ := y
          obtain ⟨hy1, wsy, hgy⟩ := mem_swaggerOps.1 hy
          simp only [swaggerWrite] at hv
          split at hv
          · rename_i hc
            cases hv
            have heq : y1 = t := List.inj_on_of_nodup_map hnd hy1 ht hc.2.1
            subst heq
            rw [hg] at hgy
            cases hgy
            rfl
          · cases hv
      have h2 := hobs (path, some t.Method)
      rw [hslot] at h2
      simpa only [swaggerObs, hitem, Option.getD_some, Sum.inr.injEq] using h2

/-- Witness of C9: `sampleGetUser` processed from the empty map, and the run
over `sampleGetUser` and `sampleDeleteUser`, which share their path. -/
theorem store_changes_one_slot_witness :
    ((swaggerTests sampleExtern [sampleGetUser] GoMap.empty GoMap.empty).2 =
        .ok (applyDefWrites (swaggerWritesOf sampleExtern sampleGetUser) GoMap.empty) ∧
      (∃ item, (swaggerTests sampleExtern [sampleGetUser] GoMap.empty GoMap.empty).1
          sampleGetUser.Path = some item ∧
        item.operation sampleGetUser.Method = some (swaggerOperationOf sampleExtern sampleGetUser) ∧
        ∀ m, m ≠ sampleGetUser.Method → item.operation m =
          (((GoMap.empty : GoMap String PathItem) sampleGetUser.Path).getD {}).operation m) ∧
      (∀ p, p ≠ sampleGetUser.Path →
        (swaggerTests sampleExtern [sampleGetUser] GoMap.empty GoMap.empty).1 p =
          (GoMap.empty : GoMap String PathItem) p)) ∧
    (∃ item, (swaggerTests sampleExtern [sampleGetUser, sampleDeleteUser] GoMap.empty
        GoMap.empty).1 "/user/{username}" = some item ∧
      ∀ t ∈ [sampleGetUser, sampleDeleteUser], ∃ op ws,
        generateSwaggerOperation sampleExtern t = .ok (op, ws) ∧
        item.operation t.Method = some op) :=
  ⟨(store_changes_one_slot sampleExtern).1 sampleGetUser GoMap.empty GoMap.empty
      (swaggerOperationOf sampleExtern sampleGetUser) (swaggerWritesOf sampleExtern sampleGetUser)
      (by decide) rfl,
    (store_changes_one_slot sampleExtern).2 [sampleGetUser, sampleDeleteUser] GoMap.empty
      GoMap.empty
      (swaggerDefsOf sampleExtern [sampleGetUser, sampleDeleteUser] GoMap.empty GoMap.empty)
      "/user/{username}" (List.cons_ne_nil _ _)
      (by
        intro t ht
        simp only [List.mem_cons, List.mem_singleton, List.not_mem_nil, or_false] at ht
        rcases ht with rfl | rfl
        · exact ⟨rfl, by decide⟩
        · exact ⟨rfl, by decide⟩)
      (by decide) rfl⟩

/-! ## The default assertion -/

theorem Json.hasKey_iff (fields : List (String × Json)) (key : String) :
    Json.hasKey fields key = true ↔ ∃ v, Json.lookup fields key = some v := by
  induction fields with
  | nil => simp [Json.hasKey, Json.lookup]
  | cons e rest ih =>
    obtain ⟨k, v⟩ := e
    have ih1 : (rest.any fun e => decide (e.1 = key)) = true ↔
        ∃ v, Json.lookup rest key = some v := ih
    simp only [Json.hasKey, List.any_cons, Bool.or_eq_true, decide_eq_true_eq, Json.lookup]
    rw [ih1]
    cases hl : Json.lookup rest key with
    | some w => simp
    | none =>
      by_cases hk : k = key
      · simp [hk]
      · simp [hk]

theorem Json.hasKey_false_iff (fields : List (String × Json)) (key : String) :
    Json.hasKey fields key = false ↔ Json.lookup fields key = none := by
  have h := Json.hasKey_iff fields key
  cases hk : Json.hasKey fields key with
  | true =>
    obtain ⟨v, hv⟩ := h.1 hk
    simp [hv]
  | false =>
    cases hl : Json.lookup fields key with
    | none => simp
    | some v =>
      have := h.2 ⟨v, hl⟩
      rw [hk] at this
      cases this

theorem Json.hasKey_of_mem {fields : List (String × Json)} {e : String × Json}
    (h : e ∈ fields) : Json.hasKey fields e.1 = true := by
  simp only [Json.hasKey, List.any_eq_true, decide_eq_true_eq]
  exact ⟨e, h, rfl⟩

theorem Json.sameFields_iff (fb : List (String × Json)) :
    ∀ fa : List (String × Json), Json.sameFields fa fb = true ↔
      ∀ key va, Json.lookup fa key = some va →
        ∃ vb, Json.lookup fb key = some vb ∧ Json.same va vb = true := by
  intro fa
  induction fa with
  | nil => simp [Json.sameFields, Json.lookup]
  | cons e rest ih =>
    obtain ⟨k, v⟩ := e
    simp only [Json.sameFields, Bool.and_eq_true, ih]
    constructor
    · rintro ⟨h1, h2⟩ key va hl
      simp only [Json.lookup] at hl
      cases hr : Json.lookup rest key with
      | some w =>
        rw [hr] at hl
        simp only [Option.some.injEq] at hl
        rw [← hl]
        exact h2 key w hr
      | none =>
        rw [hr] at hl
        by_cases hk : k = key
        · subst hk
          simp only [if_true, Option.some.injEq] at hl
          subst hl
          have hf := (Json.hasKey_false_iff rest k).2 hr
          rw [hf] at h1
          simp only [Bool.false_eq_true, if_false] at h1
          cases hb : Json.lookup fb k with
          | none => rw [hb] at h1; cases h1
          | some w =>
            rw [hb] at h1
            exact ⟨w, rfl, h1⟩
        · simp [hk] at hl
    · intro h
      constructor
      · cases hf : Json.hasKey rest k with
        | true => simp
        | false =>
          simp only [Bool.false_eq_true, if_false]
          have hr := (Json.hasKey_false_iff rest k).1 hf
          obtain ⟨vb, hvb, hs⟩ := h k v (by simp [Json.lookup, hr])
          rw [hvb]
          exact hs
      · intro key va hl
        exact h key va (by simp [Json.lookup, hl])

theorem Json.allKeys_iff (fa fb : List (String × Json)) :
    (fb.all fun e => Json.hasKey fa e.1) = true ↔
      ∀ key vb, Json.lookup fb key = some vb → ∃ va, Json.lookup fa key = some va := by
  rw [List.all_eq_true]
  constructor
  · intro h key vb hl
    have hk := (Json.hasKey_iff fb key).2 ⟨vb, hl⟩
    simp only [Json.hasKey, List.any_eq_true, decide_eq_true_eq] at hk
    obtain ⟨e, he, rfl⟩ := hk
    exact (Json.hasKey_iff fa e.1).1 (h e he)
  · intro h e he
    obtain ⟨vb, hvb⟩ := (Json.hasKey_iff fb e.1).1 (Json.hasKey_of_mem he)
    exact (Json.hasKey_iff fa e.1).2 (h e.1 vb hvb)

theorem Json.same_object_iff (fa fb : List (String × Json)) :
    Json.same (.object fa) (.object fb) = true ↔ SameMapping fa fb := by
  simp only [Json.same, Bool.and_eq_true]
  rw [Json.sameFields_iff, Json.allKeys_iff]
  unfold SameMapping
  constructor
  · rintro ⟨h1, h2⟩ key
    cases ha : Json.lookup fa key with
    | none =>
      cases hb : Json.lookup fb key with
      | none => trivial
      | some vb =>
        obtain ⟨va, hva⟩ := h2 key vb hb
        rw [ha] at hva
        cases hva
    | some va =>
      obtain ⟨vb, hvb, hs⟩ := h1 key va ha
      rw [hvb]
      exact hs
  · intro h
    constructor
    · intro key va ha
      have hk := h key
      rw [ha] at hk
      cases hb : Json.lookup fb key with
      | none => rw [hb] at hk; exact hk.elim
      | some vb => rw [hb] at hk; exact ⟨vb, rfl, hk⟩
    · intro key vb hb
      have hk := h key
      rw [hb] at hk
      cases ha : Json.lookup fa key with
      | none => rw [ha] at hk; exact hk.elim
      | some va => exact ⟨va, rfl⟩

theorem Json.same_scalar {va vb : Json} (ha : va.isScalar = true) (hb : vb.isScalar = true)
    (h : Json.same va vb = true) : va = vb := by
  cases va <;> cases vb <;> simp_all [Json.isScalar, Json.same]

theorem assertResponse_objects {lib : JsonLib} {expected : GoValue} {body js : List UInt8}
    {fe fb : List (String × Json)} (hnil : expected ≠ GoValue.nil)
    (hm : lib.Marshal expected = .ok js) (he : lib.Parse js = some (.object fe))
    (hb : lib.Parse body = some (.object fb)) :
    AssertResponse lib expected body = Json.same (.object fe) (.object fb) := by
  simp only [AssertResponse, if_pos hnil, decodeExpected, objToJsonMap, hm, unmarshalMap, he,
    decodeResponse, hb, jsondiffIsEqual]
  cases Json.same (.object fe) (.object fb) <;> rfl

theorem Json.lookup_mem_iff :
    ∀ (fields : List (String × Json)), (fields.map Prod.fst).Nodup →
      ∀ key v, Json.lookup fields key = some v ↔ (key, v) ∈ fields := by
  intro fields
  induction fields with
  | nil => intro _ key v; simp [Json.lookup]
  | cons e rest ih =>
    obtain ⟨k0, v0⟩ := e
    intro hnd key v
    rw [List.map_cons, List.nodup_cons] at hnd
    obtain ⟨hk0, hrest⟩ := hnd
    have ih1 := ih hrest
    simp only [Json.lookup, List.mem_cons, Prod.mk.injEq]
    cases hl : Json.lookup rest key with
    | some w =>
      have hw := (ih1 key w).1 hl
      constructor
      · intro h
        simp only [Option.some.injEq] at h
        subst h
        exact Or.inr hw
      · rintro (⟨rfl, rfl⟩ | h)
        · exact absurd (List.mem_map_of_mem Prod.fst hw) hk0
        · have := (ih1 key v).2 h
          rw [hl] at this
          exact this
    | none =>
      constructor
      · intro h
        by_cases hk : k0 = key
        · simp only [hk, if_true, Option.some.injEq] at h
          exact Or.inl ⟨hk.symm, h.symm⟩
        · simp [hk] at h
      · rintro (⟨rfl, rfl⟩ | h)
        · simp
        · have := (ih1 key v).2 h
          rw [hl] at this
          cases this

theorem Json.lookup_perm {fa fb : List (String × Json)} (hp : fa.Perm fb)
    (hnd : (fb.map Prod.fst).Nodup) (key : String) : Json.lookup fa key = Json.lookup fb key := by
  have hnda : (fa.map Prod.fst).Nodup := (hp.map Prod.fst).nodup_iff.2 hnd
  cases ha : Json.lookup fa key with
  | some v =>
    have := (Json.lookup_mem_iff fb hnd key v).2 (hp.subset ((Json.lookup_mem_iff fa hnda key v).1 ha))
    rw [this]
  | none =>
    cases hb : Json.lookup fb key with
    | none => rfl
    | some v =>
      have := (Json.lookup_mem_iff fa hnda key v).2
        (hp.symm.subset ((Json.lookup_mem_iff fb hnd key v).1 hb))
      rw [ha] at this
      cases this

theorem SameMapping_congr (fe : List (String × Json)) {fb fb1 : List (String × Json)}
    (h : ∀ key, Json.lookup fb1 key = Json.lookup fb key) :
    SameMapping fe fb1 ↔ SameMapping fe fb := by
  unfold SameMapping
  constructor
  · intro hs key
    have := hs key
    rwa [h key] at this
  · intro hs key
    rw [h key]
    exact hs key

/-- C10: for an expected value whose JSON form is an object and a response
body that is a JSON object, the default assertion returns true exactly when
the two decoded mappings have the same keys with equal values; the verdict is
the same for a body with the same fields in another order and for another
expected value with the same JSON form, and it is false when a key holds two
different scalars, when the body lacks a key and when the body has a key more. -/
theorem assert_response_compares_mappings (lib : JsonLib) (expected : GoValue)
    (body js : List UInt8) (fe fb : List (String × Json)) (hnil : expected ≠ GoValue.nil)
    (hm : lib.Marshal expected = .ok js) (he : lib.Parse js = some (.object fe))
    (hb : lib.Parse body = some (.object fb)) :
    (AssertResponse lib expected body = true ↔ SameMapping fe fb) ∧
    (∀ body1 fb1, lib.Parse body1 = some (.object fb1) → (fb.map Prod.fst).Nodup →
      fb1.Perm fb → AssertResponse lib expected body1 = AssertResponse lib expected body) ∧
    (∀ expected1 js1, expected1 ≠ GoValue.nil → lib.Marshal expected1 = .ok js1 →
      lib.Parse js1 = some (.object fe) →
      AssertResponse lib expected1 body = AssertResponse lib expected body) ∧
    (∀ key va vb, Json.lookup fe key = some va → Json.lookup fb key = some vb →
      va.isScalar = true → vb.isScalar = true → va ≠ vb →
      AssertResponse lib expected body = false) ∧
    (∀ key va, Json.lookup fe key = some va → Json.lookup fb key = none →
      AssertResponse lib expected body = false) ∧
    (∀ key vb, Json.lookup fe key = none → Json.lookup fb key = some vb →
      AssertResponse lib expected body = false) := by
  have hiff : AssertResponse lib expected body = true ↔ SameMapping fe fb := by
    rw [assertResponse_objects hnil hm he hb, Json.same_object_iff]
  have hfalse : ¬ SameMapping fe fb → AssertResponse lib expected body = false := by
    intro hn
    cases hv : AssertResponse lib expected body with
    | false => rfl
    | true => exact absurd (hiff.1 hv) hn
  refine ⟨hiff, ?_, ?_, ?_, ?_, ?_⟩
  · intro body1 fb1 hb1 hnd hp
    have h1 : AssertResponse lib expected body1 = true ↔ SameMapping fe fb1 := by
      rw [assertResponse_objects hnil hm he hb1, Json.same_object_iff]
    have h2 := SameMapping_congr fe (fun key => Json.lookup_perm hp hnd key)
    cases hv : AssertResponse lib expected body with
    | true =>
      exact h1.2 (h2.2 (hiff.1 hv))
    | false =>
      cases hv1 : AssertResponse lib expected body1 with
      | false => rfl
      | true =>
        have := hiff.2 (h2.1 (h1.1 hv1))
        rw [hv] at this
        cases this
  · intro expected1 js1 hnil1 hm1 he1
    rw [assertResponse_objects hnil1 hm1 he1 hb, assertResponse_objects hnil hm he hb]
  · intro key va vb ha hvb hsa hsb hne
    apply hfalse
    intro hs
    have hk := hs key
    rw [ha, hvb] at hk
    exact hne (Json.same_scalar hsa hsb hk)
  · intro key va ha hnone
    apply hfalse
    intro hs
    have hk := hs key
    rw [ha, hnone] at hk
    exact hk
  · intro key vb hnone hvb
    apply hfalse
    intro hs
    have hk := hs key
    rw [hnone, hvb] at hk
    exact hk

/-- Witness of C10 on `sampleJsonLib`: the body `[2]`, which has the fields of
the expected object in another order, passes; the bodies with a changed
value, with a field less and with a field more fail. -/
theorem assert_response_compares_mappings_witness :
    (AssertResponse sampleJsonLib (GoValue.other "User" "octocat") [2] = true ∧
     AssertResponse sampleJsonLib (GoValue.other "User" "octocat") [3] = false ∧
     AssertResponse sampleJsonLib (GoValue.other "User" "octocat") [4] = false ∧
     AssertResponse sampleJsonLib (GoValue.other "User" "octocat") [5] = false) ∧
    (AssertResponse sampleJsonLib (GoValue.other "User" "octocat") [2] = true ↔
      SameMapping
        [("login", .string "octocat"), ("id", .number 1),
          ("plan", .object [("name", .string "free"), ("seats", .array [.number 1, .null])])]
        [("plan", .object [("seats", .array [.number 1, .null]), ("name", .string "free")]),
          ("id", .number 1), ("login", .string "octocat")]) :=
  ⟨⟨by decide, by decide, by decide, by decide⟩,
    (assert_response_compares_mappings sampleJsonLib (GoValue.other "User" "octocat") [2] [1]
      _ _ (by decide) rfl rfl rfl).1⟩

/-! ## Iteration order of the parameter maps: the Swagger generator -/

theorem exceptRel_bind {α β γ δ : Type} {R : α → β → Prop} {S : γ → δ → Prop}
    {x : Except String α} {y : Except String β} {f : α → Except String γ}
    {g : β → Except String δ} (h : ExceptRel R x y)
    (hf : ∀ a b, R a b → ExceptRel S (f a) (g b)) :
    ExceptRel S (x.bind f) (y.bind g) := by
  cases x with
  | error e =>
    cases y with
    | error e1 => trivial
    | ok b => exact h.elim
  | ok a =>
    cases y with
    | error e1 => exact h.elim
    | ok b => exact hf a b h

theorem exceptRel_trans {α β γ : Type} {R : α → β → Prop} {S : β → γ → Prop}
    (T : α → γ → Prop) (hT : ∀ a b c, R a b → S b c → T a c)
    {x : Except String α} {y : Except String β} {z : Except String γ}
    (h1 : ExceptRel R x y) (h2 : ExceptRel S y z) : ExceptRel T x z := by
  cases x <;> cases y <;> cases z <;> first | trivial | exact h1.elim | exact h2.elim | skip
  exact hT _ _ _ h1 h2

theorem except_bind_assoc {α β γ : Type} (u : Except String α) (f : α → Except String β)
    (g : β → Except String γ) : (u.bind f).bind g = u.bind (fun a => (f a).bind g) := by
  cases u <;> rfl

theorem collectSwaggerParams_cons (location : String) (prep : Param → Param) (e : String × Param)
    (rest : ParamMap) (processed : List String) (params : List Parameter) :
    collectSwaggerParams location prep (e :: rest) processed params =
      (collectSwaggerStep location prep e (processed, params)).bind
        (fun s => collectSwaggerParams location prep rest s.1 s.2) := by
  obtain ⟨key, param⟩ := e
  simp only [collectSwaggerParams, collectSwaggerStep]
  by_cases hk : key ∈ processed
  · simp only [if_pos hk]
    rfl
  · simp only [if_neg hk]
    cases generateSwaggerSpecParam key (prep param) location <;> rfl

theorem collectSwaggerStep_congr (location : String) (prep : Param → Param) (e : String × Param)
    {s t : List String × List Parameter} (h : CollectRel s t) :
    ExceptRel CollectRel (collectSwaggerStep location prep e s)
      (collectSwaggerStep location prep e t) := by
  unfold collectSwaggerStep
  by_cases hk : e.1 ∈ s.1
  · rw [if_pos hk, if_pos (h.1.mem_iff.1 hk)]
    exact h
  · rw [if_neg hk, if_neg (fun hm => hk (h.1.mem_iff.2 hm))]
    cases generateSwaggerSpecParam e.1 (prep e.2) location with
    | error err => trivial
    | ok sp => exact ⟨h.1.cons _, h.2.append_right _⟩

theorem collectSwaggerParams_congr (location : String) (prep : Param → Param) :
    ∀ (entries : ParamMap) (s t : List String × List Parameter), CollectRel s t →
      ExceptRel CollectRel (collectSwaggerParams location prep entries s.1 s.2)
        (collectSwaggerParams location prep entries t.1 t.2) := by
  intro entries
  induction entries with
  | nil => intro s t h; exact h
  | cons e rest ih =>
    intro s t h
    rw [collectSwaggerParams_cons, collectSwaggerParams_cons]
    exact exceptRel_bind (collectSwaggerStep_congr location prep e h) (fun a b hab => ih a b hab)

theorem collectSwaggerStep_swap (location : String) (prep : Param → Param)
    (x y : String × Param) (hxy : x.1 ≠ y.1) (s : List String × List Parameter) :
    ExceptRel CollectRel
      ((collectSwaggerStep location prep y s).bind (collectSwaggerStep location prep x))
      ((collectSwaggerStep location prep x s).bind (collectSwaggerStep location prep y)) := by
  have hyx : y.1 ≠ x.1 := fun h => hxy h.symm
  unfold collectSwaggerStep
  by_cases hx : x.1 ∈ s.1 <;> by_cases hy : y.1 ∈ s.1
  · simp only [if_pos hx, if_pos hy, Except.bind]
    exact ⟨List.Perm.refl _, List.Perm.refl _⟩
  · simp only [if_pos hx, if_neg hy, Except.bind]
    cases generateSwaggerSpecParam y.1 (prep y.2) location with
    | error err => trivial
    | ok sy =>
      simp only [List.mem_cons, hxy, hx, or_true, if_true]
      exact ⟨List.Perm.refl _, List.Perm.refl _⟩
  · simp only [if_neg hx, if_pos hy, Except.bind]
    cases generateSwaggerSpecParam x.1 (prep x.2) location with
    | error err => trivial
    | ok sx =>
      simp only [List.mem_cons, hyx, hy, or_true, if_true]
      exact ⟨List.Perm.refl _, List.Perm.refl _⟩
  · simp only [if_neg hx, if_neg hy, Except.bind]
    cases hgy : generateSwaggerSpecParam y.1 (prep y.2) location with
    | error err =>
      cases hgx : generateSwaggerSpecParam x.1 (prep x.2) location with
      | error err1 => trivial
      | ok sx =>
        simp only [List.mem_cons, hyx, hy, or_self, if_false, hgy]
        trivial
    | ok sy =>
      simp only [List.mem_cons, hxy, hx, or_self, if_false]
      cases hgx : generateSwaggerSpecParam x.1 (prep x.2) location with
      | error err1 => trivial
      | ok sx =>
        simp only [List.mem_cons, hyx, hy, or_self, if_false, hgy]
        refine ⟨List.Perm.swap _ _ _, ?_⟩
        rw [List.append_assoc, List.append_assoc]
        exact List.Perm.append_left _ (List.Perm.swap _ _ _)

theorem collectSwaggerParams_perm (location : String) (prep : Param → Param)
    {l1 l2 : ParamMap} (hp : l1.Perm l2) :
    (l1.map Prod.fst).Nodup → ∀ (s t : List String × List Parameter), CollectRel s t →
      ExceptRel CollectRel (collectSwaggerParams location prep l1 s.1 s.2)
        (collectSwaggerParams location prep l2 t.1 t.2) := by
  induction hp with
  | nil => intro _ s t h; exact h
  | cons x _ ih =>
    intro hnd s t h
    rw [List.map_cons, List.nodup_cons] at hnd
    rw [collectSwaggerParams_cons, collectSwaggerParams_cons]
    exact exceptRel_bind (collectSwaggerStep_congr location prep x h)
      (fun a b hab => ih hnd.2 a b hab)
  | swap x y l =>
    intro hnd s t h
    have hxy : x.1 ≠ y.1 := by
      simp only [List.map_cons, List.nodup_cons, List.mem_cons, not_or] at hnd
      exact fun h => hnd.1.1 h.symm
    have h1 := collectSwaggerStep_swap location prep x y hxy s
    have h2 : ExceptRel CollectRel
        ((collectSwaggerStep location prep x s).bind (collectSwaggerStep location prep y))
        ((collectSwaggerStep location prep x t).bind (collectSwaggerStep location prep y)) :=
      exceptRel_bind (collectSwaggerStep_congr location prep x h)
        (fun a b hab => collectSwaggerStep_congr location prep y hab)
    have h3 := exceptRel_trans CollectRel
      (fun a b c hab hbc => ⟨hab.1.trans hbc.1, hab.2.trans hbc.2⟩) h1 h2
    have h4 := exceptRel_bind h3
      (fun a b hab => collectSwaggerParams_congr location prep l a b hab)
    rw [except_bind_assoc, except_bind_assoc] at h4
    rw [collectSwaggerParams_cons, collectSwaggerParams_cons]
    simp only [collectSwaggerParams_cons]
    exact h4
  | trans hp1 _ ih1 ih2 =>
    intro hnd s t h
    have hnd2 := ((hp1.map Prod.fst).nodup_iff).1 hnd
    exact exceptRel_trans CollectRel
      (fun a b c hab hbc => ⟨hab.1.trans hbc.1, hab.2.trans hbc.2⟩)
      (ih1 hnd s s ⟨List.Perm.refl _, List.Perm.refl _⟩) (ih2 hnd2 s t h)

theorem swaggerCollect_rel (ext : Extern) {st st1 : swaggerOpState} {tc tc1 : TestCase}
    (hst : SwaggerStateRel st st1) (hc : SameCase tc tc1) (hwf : tc.WellFormed) :
    ExceptRel SwaggerStateRel (swaggerCollect ext st tc) (swaggerCollect ext st1 tc1) := by
  unfold swaggerCollect
  have h1 := collectSwaggerParams_perm "header" id hc.headers hwf.1
    (st.processedHeaderParams, st.Parameters) (st1.processedHeaderParams, st1.Parameters)
    ⟨hst.header, hst.parameters⟩
  simp only at h1
  cases e1 : collectSwaggerParams "header" id tc.Headers st.processedHeaderParams
      st.Parameters with
  | error err =>
    cases f1 : collectSwaggerParams "header" id tc1.Headers st1.processedHeaderParams
        st1.Parameters with
    | error err1 => trivial
    | ok b => rw [e1, f1] at h1; exact h1.elim
  | ok a =>
    cases f1 : collectSwaggerParams "header" id tc1.Headers st1.processedHeaderParams
        st1.Parameters with
    | error err1 => rw [e1, f1] at h1; exact h1.elim
    | ok b =>
      rw [e1, f1] at h1
      obtain ⟨ph, params1⟩ := a
      obtain ⟨ph1, params11⟩ := b
      simp only
      have h2 := collectSwaggerParams_perm "path" (fun p => { p with Required := true })
        hc.path hwf.2.2 (st.processedPathParams, params1) (st1.processedPathParams, params11)
        ⟨hst.path, h1.2⟩
      simp only at h2
      cases e2 : collectSwaggerParams "path" (fun p => { p with Required := true })
          tc.PathParams st.processedPathParams params1 with
      | error err =>
        cases f2 : collectSwaggerParams "path" (fun p => { p with Required := true })
            tc1.PathParams st1.processedPathParams params11 with
        | error err1 => trivial
        | ok b => rw [e2, f2] at h2; exact h2.elim
      | ok a =>
        cases f2 : collectSwaggerParams "path" (fun p => { p with Required := true })
            tc1.PathParams st1.processedPathParams params11 with
        | error err1 => rw [e2, f2] at h2; exact h2.elim
        | ok b =>
          rw [e2, f2] at h2
          obtain ⟨pp, params2⟩ := a
          obtain ⟨pp1, params21⟩ := b
          simp only
          have h3 := collectSwaggerParams_perm "query" id hc.query hwf.2.1
            (st.processedQueryParams, params2) (st1.processedQueryParams, params21)
            ⟨hst.query, h2.2⟩
          simp only at h3
          cases e3 : collectSwaggerParams "query" id tc.QueryParams st.processedQueryParams
              params2 with
          | error err =>
            cases f3 : collectSwaggerParams "query" id tc1.QueryParams
                st1.processedQueryParams params21 with
            | error err1 => trivial
            | ok b => rw [e3, f3] at h3; exact h3.elim
          | ok a =>
            cases f3 : collectSwaggerParams "query" id tc1.QueryParams
                st1.processedQueryParams params21 with
            | error err1 => rw [e3, f3] at h3; exact h3.elim
            | ok b =>
              rw [e3, f3] at h3
              obtain ⟨pq, params3⟩ := a
              obtain ⟨pq1, params31⟩ := b
              simp only
              rw [← hc.body, ← hc.description]
              by_cases hb : tc.RequestBody ≠ GoValue.nil
              · rw [if_pos hb, if_pos hb]
                exact ⟨h3.2.append_right _, hst.responses, rfl, h3.1, h2.1, h1.1,
                  by simp only [hst.defs]⟩
              · rw [if_neg hb, if_neg hb]
                exact ⟨h3.2, hst.responses, rfl, h3.1, h2.1, h1.1, hst.defs⟩

theorem swaggerResponse_same (ext : Extern) {tc tc1 : TestCase} (hc : SameCase tc tc1) :
    swaggerResponse ext tc = swaggerResponse ext tc1 := by
  unfold swaggerResponse
  rw [hc.data, hc.description]

theorem swaggerCase_rel (ext : Extern) {st st1 : swaggerOpState} {tc tc1 : TestCase}
    (hst : SwaggerStateRel st st1) (hc : SameCase tc tc1) (hwf : tc.WellFormed) :
    ExceptRel SwaggerStateRel (swaggerCase ext st tc) (swaggerCase ext st1 tc1) := by
  unfold swaggerCase
  rw [← hc.code, ← swaggerResponse_same ext hc]
  by_cases h2 : 200 ≤ tc.ExpectedHttpCode ∧ tc.ExpectedHttpCode < 300
  · rw [if_pos h2, if_pos h2]
    have h := swaggerCollect_rel ext hst hc hwf
    cases e : swaggerCollect ext st tc with
    | error err =>
      cases f : swaggerCollect ext st1 tc1 with
      | error err1 => trivial
      | ok b => rw [e, f] at h; exact h.elim
    | ok a =>
      cases f : swaggerCollect ext st1 tc1 with
      | error err1 => rw [e, f] at h; exact h.elim
      | ok b =>
        rw [e, f] at h
        exact ⟨h.parameters, by simp only [h.responses], h.description, h.query, h.path,
          h.header, by simp only [h.defs]⟩
  · rw [if_neg h2, if_neg h2]
    exact ⟨hst.parameters, by simp only [hst.responses], hst.description, hst.query, hst.path,
      hst.header, by simp only [hst.defs]⟩

theorem swaggerCases_rel (ext : Extern) {cases cases1 : List TestCase}
    (hc : List.Forall₂ SameCase cases cases1) :
    (∀ tc ∈ cases, tc.WellFormed) → ∀ st st1, SwaggerStateRel st st1 →
      ExceptRel SwaggerStateRel (swaggerCases ext cases st) (swaggerCases ext cases1 st1) := by
  induction hc with
  | nil => intro _ st st1 h; exact h
  | cons hab _ ih =>
    intro hwf st st1 h
    unfold swaggerCases
    have h1 := swaggerCase_rel ext h hab (hwf _ (List.mem_cons_self _ _))
    rename_i a b l1 l2 _
    cases e : swaggerCase ext st a with
    | error err =>
      cases f : swaggerCase ext st1 b with
      | error err1 => trivial
      | ok y => rw [e, f] at h1; exact h1.elim
    | ok x =>
      cases f : swaggerCase ext st1 b with
      | error err1 => rw [e, f] at h1; exact h1.elim
      | ok y =>
        rw [e, f] at h1
        exact ih (fun tc htc => hwf tc (List.mem_cons_of_mem _ htc)) x y h1

theorem generateSwaggerOperation_rel (ext : Extern) {t t1 : Test} (ht : SameTest t t1)
    (hwf : t.WellFormed) :
    ExceptRel (fun a b => Operation.Equiv a.1 b.1 ∧ a.2 = b.2)
      (generateSwaggerOperation ext t) (generateSwaggerOperation ext t1) := by
  unfold generateSwaggerOperation
  have h := swaggerCases_rel ext ht.cases hwf {} {}
    ⟨List.Perm.refl _, rfl, rfl, List.Perm.refl _, List.Perm.refl _, List.Perm.refl _, rfl⟩
  cases e : swaggerCases ext t.TestCases {} with
  | error err =>
    cases f : swaggerCases ext t1.TestCases {} with
    | error err1 => trivial
    | ok y => rw [e, f] at h; exact h.elim
  | ok x =>
    cases f : swaggerCases ext t1.TestCases {} with
    | error err1 => rw [e, f] at h; exact h.elim
    | ok y =>
      rw [e, f] at h
      exact ⟨⟨h.description, by simp only [ht.tag], h.parameters, h.responses⟩, h.defs⟩

theorem operationEquiv_refl (a : Operation) : Operation.Equiv a a :=
  ⟨rfl, rfl, List.Perm.refl _, rfl⟩

theorem pathItemEquiv_refl (a : PathItem) : PathItem.Equiv a a := by
  intro m
  cases h : a.operation m with
  | none => trivial
  | some op => exact operationEquiv_refl op

theorem pathsEquiv_refl (P : GoMap String PathItem) : PathsEquiv P P := by
  intro p
  cases h : P p with
  | none => trivial
  | some item => exact pathItemEquiv_refl item

theorem PathItem.assign_equiv {a b : PathItem} {op op1 : Operation} (m : String)
    (hab : PathItem.Equiv a b) (hop : Operation.Equiv op op1) :
    PathItem.Equiv (a.assign m op) (b.assign m op1) := by
  intro m1
  rw [PathItem.assign_operation, PathItem.assign_operation]
  by_cases h : m = m1 ∧ m1 ∈ swaggerMethods
  · rw [if_pos h, if_pos h]
    exact hop
  · rw [if_neg h, if_neg h]
    exact hab m1

theorem swaggerStore_equiv {P P1 : GoMap String PathItem} {t t1 : Test} {op op1 : Operation}
    (hP : PathsEquiv P P1) (hpath : t.Path = t1.Path) (hmethod : t.Method = t1.Method)
    (hop : Operation.Equiv op op1) :
    PathsEquiv (swaggerStore P t op) (swaggerStore P1 t1 op1) := by
  intro p
  unfold swaggerStore
  rw [← hpath, ← hmethod]
  by_cases hp : p = t.Path
  · subst hp
    simp only [Function.update_same]
    apply PathItem.assign_equiv _ _ hop
    have := hP t.Path
    cases h1 : P t.Path with
    | none =>
      cases h2 : P1 t.Path with
      | none => exact pathItemEquiv_refl _
      | some b => rw [h1, h2] at this; exact this.elim
    | some a =>
      cases h2 : P1 t.Path with
      | none => rw [h1, h2] at this; exact this.elim
      | some b => rw [h1, h2] at this; exact this
  · simp only [Function.update_noteq hp]
    exact hP p

theorem swaggerTests_rel (ext : Extern) {ts ts1 : List Test} (hs : SameSuite ts ts1) :
    (∀ t ∈ ts, t.WellFormed) → ∀ (P P1 : GoMap String PathItem) (D : GoMap String SpecSchema),
      PathsEquiv P P1 →
      ExceptRel (fun a b => a = b) (swaggerTests ext ts P D).2 (swaggerTests ext ts1 P1 D).2 ∧
      PathsEquiv (swaggerTests ext ts P D).1 (swaggerTests ext ts1 P1 D).1 := by
  induction hs with
  | nil => intro _ P P1 D h; exact ⟨rfl, h⟩
  | cons hab _ ih =>
    intro hwf P P1 D h
    rename_i a b l1 l2 _
    unfold swaggerTests
    have hg := generateSwaggerOperation_rel ext hab (hwf a (List.mem_cons_self _ _))
    cases e : generateSwaggerOperation ext a with
    | error err =>
      cases f : generateSwaggerOperation ext b with
      | error err1 => exact ⟨trivial, h⟩
      | ok y => rw [e, f] at hg; exact hg.elim
    | ok x =>
      cases f : generateSwaggerOperation ext b with
      | error err1 => rw [e, f] at hg; exact hg.elim
      | ok y =>
        rw [e, f] at hg
        obtain ⟨op, ws⟩ := x
        obtain ⟨op1, ws1⟩ := y
        obtain ⟨hop, hws⟩ := hg
        simp only at hws
        subst hws
        exact ih (fun t ht => hwf t (List.mem_cons_of_mem _ ht)) _ _ _
          (swaggerStore_equiv h hab.path hab.method hop)

theorem swaggerDocument_reordered (ext : Extern) (g : swaggerGenerator) {ts ts1 : List Test}
    (hs : SameSuite ts ts1) (hwf : ∀ t ∈ ts, t.WellFormed) :
    ExceptRel SwaggerEquiv (g.document ext ts).2 ((g.document ext ts).1.document ext ts1).2 := by
  rw [swaggerDocument_snd ext (g.document ext ts).1, swaggerDocument_snd ext g,
    swaggerDocument_fst]
  simp only
  obtain ⟨h1, h2⟩ := swaggerTests_rel ext hs hwf
    (swaggerTests ext ts g.seed.Paths GoMap.empty).1
    (swaggerTests ext ts g.seed.Paths GoMap.empty).1 GoMap.empty (pathsEquiv_refl _)
  rw [swaggerTests_status ext ts _ g.seed.Paths GoMap.empty] at h1
  cases e : (swaggerTests ext ts g.seed.Paths GoMap.empty).2 with
  | error err =>
    rw [e] at h1
    cases f : (swaggerTests ext ts1 (swaggerTests ext ts g.seed.Paths GoMap.empty).1
        GoMap.empty).2 with
    | error err1 => trivial
    | ok y => rw [f] at h1; exact h1.elim
  | ok D =>
    rw [e] at h1
    rw [swaggerTests_twice ext ts g.seed.Paths GoMap.empty D e] at h2
    cases f : (swaggerTests ext ts1 (swaggerTests ext ts g.seed.Paths GoMap.empty).1
        GoMap.empty).2 with
    | error err1 => rw [f] at h1; exact h1.elim
    | ok D1 =>
      rw [f] at h1
      have hD : D = D1 := h1
      subst hD
      exact ⟨rfl, h2⟩

/-! ## Iteration order of the parameter maps: the RAML generator -/

theorem optionRel_bind {α β γ δ : Type} {R : α → β → Prop} {S : γ → δ → Prop}
    {x : Option α} {y : Option β} {f : α → Option γ} {g : β → Option δ} (h : OptionRel R x y)
    (hf : ∀ a b, R a b → OptionRel S (f a) (g b)) : OptionRel S (x.bind f) (y.bind g) := by
  cases x with
  | none =>
    cases y with
    | none => trivial
    | some b => exact h.elim
  | some a =>
    cases y with
    | none => exact h.elim
    | some b => exact hf a b h

theorem optionRel_trans {α β γ : Type} {R : α → β → Prop} {S : β → γ → Prop}
    (T : α → γ → Prop) (hT : ∀ a b c, R a b → S b c → T a c)
    {x : Option α} {y : Option β} {z : Option γ}
    (h1 : OptionRel R x y) (h2 : OptionRel S y z) : OptionRel T x z := by
  cases x <;> cases y <;> cases z <;> first | trivial | exact h1.elim | exact h2.elim | skip
  exact hT _ _ _ h1 h2

theorem collectRamlParams_cons (e : String × Param) (rest : ParamMap) (processed : List String)
    (table : GoMap String NamedParameter) :
    pairOpt (collectRamlParams (e :: rest) processed table) =
      (collectRamlStep e (table, processed)).bind
        (fun s => pairOpt (collectRamlParams rest s.2 s.1)) := by
  obtain ⟨key, param⟩ := e
  simp only [collectRamlParams, collectRamlStep]
  by_cases hk : key ∈ processed
  · simp only [if_pos hk]
    rfl
  · simp only [if_neg hk]
    cases generateRamlNamedParameter key param <;> rfl

theorem collectRamlStep_congr (e : String × Param)
    {s t : GoMap String NamedParameter × List String} (h : RamlCollectRel s t) :
    OptionRel RamlCollectRel (collectRamlStep e s) (collectRamlStep e t) := by
  unfold collectRamlStep
  by_cases hk : e.1 ∈ s.2
  · rw [if_pos hk, if_pos (h.2.mem_iff.1 hk)]
    exact h
  · rw [if_neg hk, if_neg (fun hm => hk (h.2.mem_iff.2 hm))]
    cases generateRamlNamedParameter e.1 e.2 with
    | none => trivial
    | some p => exact ⟨by rw [h.1], h.2.cons _⟩

theorem collectRamlParams_congr :
    ∀ (entries : ParamMap) (s t : GoMap String NamedParameter × List String),
      RamlCollectRel s t →
      OptionRel RamlCollectRel (pairOpt (collectRamlParams entries s.2 s.1))
        (pairOpt (collectRamlParams entries t.2 t.1)) := by
  intro entries
  induction entries with
  | nil => intro s t h; exact h
  | cons e rest ih =>
    intro s t h
    rw [collectRamlParams_cons, collectRamlParams_cons]
    exact optionRel_bind (collectRamlStep_congr e h) (fun a b hab => ih a b hab)

theorem option_bind_assoc {α β γ : Type} (u : Option α) (f : α → Option β)
    (g : β → Option γ) : (u.bind f).bind g = u.bind (fun a => (f a).bind g) := by
  cases u <;> rfl

theorem collectRamlStep_swap (x y : String × Param) (hxy : x.1 ≠ y.1)
    (s : GoMap String NamedParameter × List String) :
    OptionRel RamlCollectRel ((collectRamlStep y s).bind (collectRamlStep x))
      ((collectRamlStep x s).bind (collectRamlStep y)) := by
  have hyx : y.1 ≠ x.1 := fun h => hxy h.symm
  unfold collectRamlStep
  by_cases hx : x.1 ∈ s.2 <;> by_cases hy : y.1 ∈ s.2
  · simp only [if_pos hx, if_pos hy, Option.bind]
    exact ⟨rfl, List.Perm.refl _⟩
  · simp only [if_pos hx, if_neg hy, Option.bind]
    cases generateRamlNamedParameter y.1 y.2 with
    | none => trivial
    | some py =>
      simp only [List.mem_cons, hxy, hx, or_true, if_true]
      exact ⟨rfl, List.Perm.refl _⟩
  · simp only [if_neg hx, if_pos hy, Option.bind]
    cases generateRamlNamedParameter x.1 x.2 with
    | none => trivial
    | some px =>
      simp only [List.mem_cons, hyx, hy, or_true, if_true]
      exact ⟨rfl, List.Perm.refl _⟩
  · simp only [if_neg hx, if_neg hy, Option.bind]
    cases hgy : generateRamlNamedParameter y.1 y.2 with
    | none =>
      cases hgx : generateRamlNamedParameter x.1 x.2 with
      | none => trivial
      | some px =>
        simp only [List.mem_cons, hyx, hy, or_self, if_false, hgy]
        trivial
    | some py =>
      simp only [List.mem_cons, hxy, hx, or_self, if_false]
      cases hgx : generateRamlNamedParameter x.1 x.2 with
      | none => trivial
      | some px =>
        simp only [List.mem_cons, hyx, hy, or_self, if_false, hgy]
        exact ⟨Function.update_comm hyx _ _ _, List.Perm.swap _ _ _⟩

theorem collectRamlParams_perm {l1 l2 : ParamMap} (hp : l1.Perm l2) :
    (l1.map Prod.fst).Nodup → ∀ (s t : GoMap String NamedParameter × List String),
      RamlCollectRel s t →
      OptionRel RamlCollectRel (pairOpt (collectRamlParams l1 s.2 s.1))
        (pairOpt (collectRamlParams l2 t.2 t.1)) := by
  induction hp with
  | nil => intro _ s t h; exact h
  | cons x _ ih =>
    intro hnd s t h
    rw [List.map_cons, List.nodup_cons] at hnd
    rw [collectRamlParams_cons, collectRamlParams_cons]
    exact optionRel_bind (collectRamlStep_congr x h) (fun a b hab => ih hnd.2 a b hab)
  | swap x y l =>
    intro hnd s t h
    have hxy : x.1 ≠ y.1 := by
      simp only [List.map_cons, List.nodup_cons, List.mem_cons, not_or] at hnd
      exact fun h => hnd.1.1 h.symm
    have h1 := collectRamlStep_swap x y hxy s
    have h2 : OptionRel RamlCollectRel ((collectRamlStep x s).bind (collectRamlStep y))
        ((collectRamlStep x t).bind (collectRamlStep y)) :=
      optionRel_bind (collectRamlStep_congr x h) (fun a b hab => collectRamlStep_congr y hab)
    have h3 := optionRel_trans RamlCollectRel
      (fun a b c hab hbc => ⟨hab.1.trans hbc.1, hab.2.trans hbc.2⟩) h1 h2
    have h4 := optionRel_bind h3 (fun a b hab => collectRamlParams_congr l a b hab)
    rw [option_bind_assoc, option_bind_assoc] at h4
    rw [collectRamlParams_cons, collectRamlParams_cons]
    simp only [collectRamlParams_cons]
    exact h4
  | trans hp1 _ ih1 ih2 =>
    intro hnd s t h
    have hnd2 := ((hp1.map Prod.fst).nodup_iff).1 hnd
    exact optionRel_trans RamlCollectRel
      (fun a b c hab hbc => ⟨hab.1.trans hbc.1, hab.2.trans hbc.2⟩)
      (ih1 hnd s s ⟨rfl, List.Perm.refl _⟩) (ih2 hnd2 s t h)

theorem ramlResponse_same (ext : Extern) {tc tc1 : TestCase} (hc : SameCase tc tc1) :
    ramlResponse ext tc = ramlResponse ext tc1 := by
  unfold ramlResponse
  rw [hc.data, hc.description, hc.code]

theorem ramlCase_rel (ext : Extern) (uri : GoMap String NamedParameter) {st st1 : ramlOpState}
    {tc tc1 : TestCase} (hst : RamlStateRel st st1) (hc : SameCase tc tc1)
    (hwf : tc.WellFormed) :
    OptionRel RamlCaseRel (pairOpt (ramlCase ext uri st tc))
      (pairOpt (ramlCase ext uri st1 tc1)) := by
  unfold ramlCase
  have h1 := collectRamlParams_perm hc.path hwf.2.2 (uri, st.processedPathParams)
    (uri, st1.processedPathParams) ⟨rfl, hst.path⟩
  have h2 := collectRamlParams_perm hc.headers hwf.1 (st.m.Headers, st.processedHeaderParams)
    (st1.m.Headers, st1.processedHeaderParams) ⟨by rw [hst.m], hst.header⟩
  have h3 := collectRamlParams_perm hc.query hwf.2.1
    (st.m.QueryParameters, st.processedQueryParams)
    (st1.m.QueryParameters, st1.processedQueryParams) ⟨by rw [hst.m], hst.query⟩
  simp only at h1 h2 h3
  rw [← ramlResponse_same ext hc, ← hc.description, ← hc.code]
  cases e1 : collectRamlParams tc.PathParams st.processedPathParams uri with
  | mk u1 r1 =>
  cases f1 : collectRamlParams tc1.PathParams st1.processedPathParams uri with
  | mk v1 s1 =>
  rw [e1, f1] at h1
  cases r1 with
  | none =>
    cases s1 with
    | none => trivial
    | some q => exact h1.elim
  | some pp =>
    cases s1 with
    | none => exact h1.elim
    | some pp1 =>
      obtain ⟨hu, hpp⟩ : u1 = v1 ∧ pp.Perm pp1 := h1
      subst hu
      simp only
      cases e2 : collectRamlParams tc.Headers st.processedHeaderParams st.m.Headers with
      | mk u2 r2 =>
      cases f2 : collectRamlParams tc1.Headers st1.processedHeaderParams st1.m.Headers with
      | mk v2 s2 =>
      rw [e2, f2] at h2
      cases r2 with
      | none =>
        cases s2 with
        | none => trivial
        | some q => exact h2.elim
      | some ph =>
        cases s2 with
        | none => exact h2.elim
        | some ph1 =>
          obtain ⟨hu2, hph⟩ : u2 = v2 ∧ ph.Perm ph1 := h2
          subst hu2
          simp only
          cases e3 : collectRamlParams tc.QueryParams st.processedQueryParams
              st.m.QueryParameters with
          | mk u3 r3 =>
          cases f3 : collectRamlParams tc1.QueryParams st1.processedQueryParams
              st1.m.QueryParameters with
          | mk v3 s3 =>
          rw [e3, f3] at h3
          cases r3 with
          | none =>
            cases s3 with
            | none => trivial
            | some q => exact h3.elim
          | some pq =>
            cases s3 with
            | none => exact h3.elim
            | some pq1 =>
              obtain ⟨hu3, hpq⟩ : u3 = v3 ∧ pq.Perm pq1 := h3
              subst hu3
              exact ⟨rfl, by simp only [hst.m], hph, hpp, hpq⟩

theorem ramlCases_rel (ext : Extern) {cases cases1 : List TestCase}
    (hc : List.Forall₂ SameCase cases cases1) :
    (∀ tc ∈ cases, tc.WellFormed) → ∀ uri st st1, RamlStateRel st st1 →
      OptionRel RamlCaseRel (pairOpt (ramlCases ext cases uri st))
        (pairOpt (ramlCases ext cases1 uri st1)) := by
  induction hc with
  | nil => intro _ uri st st1 h; exact ⟨rfl, h⟩
  | cons hab _ ih =>
    intro hwf uri st st1 h
    rename_i a b l1 l2 _
    unfold ramlCases
    have h1 := ramlCase_rel ext uri h hab (hwf a (List.mem_cons_self _ _))
    cases e : ramlCase ext uri st a with
    | mk u r =>
    cases f : ramlCase ext uri st1 b with
    | mk v s =>
    rw [e, f] at h1
    cases r with
    | none =>
      cases s with
      | none => trivial
      | some q => exact h1.elim
    | some x =>
      cases s with
      | none => exact h1.elim
      | some y =>
        obtain ⟨hu, hxy⟩ : u = v ∧ RamlStateRel x y := h1
        subst hu
        exact ih (fun tc htc => hwf tc (List.mem_cons_of_mem _ htc)) u x y hxy

theorem ramlTest_rel (ext : Extern) (R : GoMap String Resource) {t t1 : Test}
    (ht : SameTest t t1) (hwf : t.WellFormed) :
    (ramlTest ext R t).2 = (ramlTest ext R t1).2 ∧
    ((ramlTest ext R t).2 = true → (ramlTest ext R t).1 = (ramlTest ext R t1).1) := by
  unfold ramlTest
  rw [← ht.path]
  cases hq : ramlPath t.Path with
  | none => exact ⟨rfl, fun _ => rfl⟩
  | some q =>
    simp only
    have h := ramlCases_rel ext ht.cases hwf ((R q).getD {}).UriParameters
      { m := { Description := t.Description, Name := t.Method } }
      { m := { Description := t1.Description, Name := t1.Method } }
      ⟨by rw [ht.description, ht.method], List.Perm.refl _, List.Perm.refl _, List.Perm.refl _⟩
    unfold ramlOperation
    cases e : ramlCases ext t.TestCases ((R q).getD {}).UriParameters
        { m := { Description := t.Description, Name := t.Method } } with
    | mk u r =>
    cases f : ramlCases ext t1.TestCases ((R q).getD {}).UriParameters
        { m := { Description := t1.Description, Name := t1.Method } } with
    | mk v s =>
    rw [e, f] at h
    cases r with
    | none =>
      cases s with
      | none =>
        simp only
        cases R q <;> exact ⟨rfl, fun hf => by cases hf⟩
      | some y => exact h.elim
    | some x =>
      cases s with
      | none => exact h.elim
      | some y =>
        obtain ⟨hu, hxy⟩ : u = v ∧ RamlStateRel x y := h
        subst hu
        simp only [hxy.m, ht.method]
        exact ⟨trivial, fun _ => trivial⟩

theorem ramlTests_rel (ext : Extern) {ts ts1 : List Test} (hs : SameSuite ts ts1) :
    (∀ t ∈ ts, t.WellFormed) → ∀ R : GoMap String Resource,
      (ramlTests ext ts R).2 = (ramlTests ext ts1 R).2 ∧
      ((ramlTests ext ts R).2 = true → (ramlTests ext ts R).1 = (ramlTests ext ts1 R).1) := by
  induction hs with
  | nil => intro _ R; exact ⟨rfl, fun _ => rfl⟩
  | cons hab _ ih =>
    intro hwf R
    rename_i a b l1 l2 _
    unfold ramlTests
    obtain ⟨h1, h2⟩ := ramlTest_rel ext R hab (hwf a (List.mem_cons_self _ _))
    cases e : ramlTest ext R a with
    | mk R1 b1 =>
    cases f : ramlTest ext R b with
    | mk R2 b2 =>
    rw [e, f] at h1 h2
    simp only at h1 h2
    subst h1
    cases b1 with
    | false => exact ⟨rfl, fun hf => by cases hf⟩
    | true =>
      have hR := h2 rfl
      subst hR
      exact ih (fun t ht => hwf t (List.mem_cons_of_mem _ ht)) R1

theorem ramlDocument_reordered (ext : Extern) (g : ramlGenerator) {ts ts1 : List Test}
    (hs : SameSuite ts ts1) (hwf : ∀ t ∈ ts, t.WellFormed) :
    ((g.document ext ts).1.document ext ts1).2 = (g.document ext ts).2 := by
  rw [← ramlDocument_twice ext g ts]
  rw [ramlDocument_snd ext (g.document ext ts).1 ts1, ramlDocument_snd ext (g.document ext ts).1 ts]
  obtain ⟨h1, h2⟩ := ramlTests_rel ext hs hwf (g.document ext ts).1.seed.Resources
  rw [← h1]
  cases hb : (ramlTests ext ts (g.document ext ts).1.seed.Resources).2 with
  | false => rfl
  | true =>
    rw [← h2 hb]

/-- C4: let a generator, in whatever state earlier calls left it, run Generate
on a suite, and then again on the same suite, the parameter maps being
iterated in any order the second time. The Swagger generator builds both
times the same document up to the order of the parameters of each operation
(same paths, same methods on each path, same summary, tags, response codes and
entries, same parameters, same definitions), or fails both times; the RAML
generator builds the same document, or panics both times. When the second
call iterates the maps in the order of the first, the documents and the
results of the two calls are equal. -/
theorem generate_twice_same_document (ext : Extern) (yamlMarshal : APIDefinition → Result)
    (g : swaggerGenerator) (gr : ramlGenerator) (tests tests1 : List Test)
    (hs : SameSuite tests tests1) (hwf : ∀ t ∈ tests, t.WellFormed) :
    ExceptRel SwaggerEquiv (g.document ext tests).2
      ((g.Generate ext tests).1.document ext tests1).2 ∧
    ((gr.Generate ext yamlMarshal tests).1.document ext tests1).2 = (gr.document ext tests).2 ∧
    ((g.Generate ext tests).1.document ext tests).2 = (g.document ext tests).2 ∧
    ((g.Generate ext tests).1.Generate ext tests).2 = (g.Generate ext tests).2 ∧
    ((gr.Generate ext yamlMarshal tests).1.Generate ext yamlMarshal tests).2 =
      (gr.Generate ext yamlMarshal tests).2 := by
  have hg : (g.Generate ext tests).1 = (g.document ext tests).1 := by
    unfold swaggerGenerator.Generate
    simp only
    split <;> rfl
  have hgr : (gr.Generate ext yamlMarshal tests).1 = (gr.document ext tests).1 := by
    unfold ramlGenerator.Generate
    simp only
    split
    · rfl
    · split <;> rfl
  obtain ⟨h1, h2, -, h4⟩ := generate_twice_same_order ext yamlMarshal g gr tests
  refine ⟨?_, ?_, h1, h2, h4⟩
  · rw [hg]
    exact swaggerDocument_reordered ext g hs hwf
  · rw [hgr]
    exact ramlDocument_reordered ext gr hs hwf

/-- Witness of C4 on `sampleTwoHeaders`, iterated the second time in the order
of `sampleTwoHeadersReordered`: the two runs emit the header parameters in
different orders. -/
theorem generate_twice_same_document_witness :
    ((swaggerOperationOf sampleExtern sampleTwoHeaders).Parameters.map (fun p => p.Name) =
        ["Accept", "Content-Type", "username"] ∧
      (swaggerOperationOf sampleExtern sampleTwoHeadersReordered).Parameters.map
          (fun p => p.Name) = ["Content-Type", "Accept", "username"]) ∧
    (ExceptRel SwaggerEquiv
      ((NewSwaggerGenerator {} (probeMarshaller "/hello")).document sampleExtern
        [sampleTwoHeaders]).2
      (((NewSwaggerGenerator {} (probeMarshaller "/hello")).Generate sampleExtern
        [sampleTwoHeaders]).1.document sampleExtern [sampleTwoHeadersReordered]).2 ∧
    (((NewRamlGenerator {}).Generate sampleExtern (probeYaml "/hello")
        [sampleTwoHeaders]).1.document sampleExtern [sampleTwoHeadersReordered]).2 =
      ((NewRamlGenerator {}).document sampleExtern [sampleTwoHeaders]).2 ∧
    (((NewSwaggerGenerator {} (probeMarshaller "/hello")).Generate sampleExtern
        [sampleTwoHeaders]).1.document sampleExtern [sampleTwoHeaders]).2 =
      ((NewSwaggerGenerator {} (probeMarshaller "/hello")).document sampleExtern
        [sampleTwoHeaders]).2 ∧
    (((NewSwaggerGenerator {} (probeMarshaller "/hello")).Generate sampleExtern
        [sampleTwoHeaders]).1.Generate sampleExtern [sampleTwoHeaders]).2 =
      ((NewSwaggerGenerator {} (probeMarshaller "/hello")).Generate sampleExtern
        [sampleTwoHeaders]).2 ∧
    (((NewRamlGenerator {}).Generate sampleExtern (probeYaml "/hello")
        [sampleTwoHeaders]).1.Generate sampleExtern (probeYaml "/hello") [sampleTwoHeaders]).2 =
      ((NewRamlGenerator {}).Generate sampleExtern (probeYaml "/hello") [sampleTwoHeaders]).2) :=
  ⟨⟨by decide, by decide⟩,
    generate_twice_same_document sampleExtern (probeYaml "/hello")
      (NewSwaggerGenerator {} (probeMarshaller "/hello")) (NewRamlGenerator {})
      [sampleTwoHeaders] [sampleTwoHeadersReordered]
      (List.Forall₂.cons
        ⟨rfl, rfl, rfl, rfl,
          List.Forall₂.cons
            ⟨rfl, List.Perm.swap _ _ _, List.Perm.refl _, List.Perm.refl _, rfl, rfl, rfl⟩
            List.Forall₂.nil⟩
        List.Forall₂.nil)
      (by
        intro t ht
        rw [List.mem_singleton] at ht
        subst ht
        intro tc htc
        rw [show sampleTwoHeaders.TestCases = [_] from rfl, List.mem_singleton] at htc
        subst htc
        decide)⟩

/-! ## Support: the number of body parameters, the keys of a RAML document -/

theorem bodyParams_append (ps qs : List Parameter) :
    bodyParams (ps ++ qs) = bodyParams ps ++ bodyParams qs := by
  simp [bodyParams]

theorem collectSwaggerParams_bodyParams (loc : String) (hloc : loc ≠ "body")
    (prep : Param → Param) :
    ∀ (entries : ParamMap) (processed : List String) (params : List Parameter)
      (processed1 : List String) (params1 : List Parameter),
      collectSwaggerParams loc prep entries processed params = .ok (processed1, params1) →
      bodyParams params1 = bodyParams params := by
  intro entries
  induction entries with
  | nil =>
    intro processed params processed1 params1 h
    simp only [collectSwaggerParams, Except.ok.injEq, Prod.mk.injEq] at h
    rw [h.2]
  | cons e rest ih =>
    obtain ⟨key, param⟩ := e
    intro processed params processed1 params1 h
    unfold collectSwaggerParams at h
    by_cases hk : key ∈ processed
    · rw [if_pos hk] at h
      exact ih _ _ _ _ h
    · rw [if_neg hk] at h
      cases hg : generateSwaggerSpecParam key (prep param) loc with
      | error err => rw [hg] at h; cases h
      | ok sp =>
        rw [hg] at h
        rw [ih _ _ _ _ h, bodyParams_append]
        have hin := (generateSwaggerSpecParam_ok hg).1
        have : bodyParams [sp] = [] := by
          simp [bodyParams, hin, hloc]
        rw [this, List.append_nil]

theorem swaggerCollect_bodyParams {ext : Extern} {st st1 : swaggerOpState} {tc : TestCase}
    (h : swaggerCollect ext st tc = .ok st1) :
    (bodyParams st1.Parameters).length =
      (bodyParams st.Parameters).length + if tc.RequestBody ≠ GoValue.nil then 1 else 0 := by
  unfold swaggerCollect at h
  cases hh : collectSwaggerParams "header" id tc.Headers st.processedHeaderParams
      st.Parameters with
  | error err => rw [hh] at h; cases h
  | ok r1 =>
    obtain ⟨ph, params1⟩ := r1
    rw [hh] at h
    simp only at h
    cases hp : collectSwaggerParams "path" (fun p => { p with Required := true })
        tc.PathParams st.processedPathParams params1 with
    | error err => rw [hp] at h; cases h
    | ok r2 =>
      obtain ⟨pp, params2⟩ := r2
      rw [hp] at h
      simp only at h
      cases hq : collectSwaggerParams "query" id tc.QueryParams st.processedQueryParams
          params2 with
      | error err => rw [hq] at h; cases h
      | ok r3 =>
        obtain ⟨pq, params3⟩ := r3
        rw [hq] at h
        simp only at h
        have e1 := collectSwaggerParams_bodyParams "header" (by decide) id _ _ _ _ _ hh
        have e2 := collectSwaggerParams_bodyParams "path" (by decide) _ _ _ _ _ _ hp
        have e3 := collectSwaggerParams_bodyParams "query" (by decide) id _ _ _ _ _ hq
        by_cases hb : tc.RequestBody ≠ GoValue.nil
        · rw [if_pos hb] at h
          cases h
          simp only [bodyParams_append, List.length_append, e3, e2, e1, if_pos hb]
          rfl
        · rw [if_neg hb] at h
          cases h
          simp only [e3, e2, e1, if_neg hb, Nat.add_zero]

/-- What the Swagger generator does about request bodies: the operation has
one parameter located in the body for each test case with a code in [200,300)
and a non-nil RequestBody. -/
theorem body_parameter_per_2xx_request_body (ext : Extern) (test : Test) (op : Operation)
    (ws : DefWrites) (h : generateSwaggerOperation ext test = .ok (op, ws)) :
    (bodyParams op.Parameters).length =
      (test.TestCases.filter
        (fun tc => decide (tc.is2xx ∧ tc.RequestBody ≠ GoValue.nil))).length := by
  obtain ⟨st, hst, -, hp, -, -⟩ := generateSwaggerOperation_ok h
  rw [hp]
  have key : ∀ (cases : List TestCase) (s s1 : swaggerOpState),
      swaggerCases ext cases s = .ok s1 →
      (bodyParams s1.Parameters).length = (bodyParams s.Parameters).length +
        (cases.filter (fun tc => decide (tc.is2xx ∧ tc.RequestBody ≠ GoValue.nil))).length := by
    intro cases
    induction cases with
    | nil =>
      intro s s1 h
      simp only [swaggerCases, Except.ok.injEq] at h
      subst h
      rfl
    | cons tc rest ih =>
      intro s s1 h
      unfold swaggerCases at h
      cases hc : swaggerCase ext s tc with
      | error err => rw [hc] at h; cases h
      | ok s2 =>
        rw [hc] at h
        rw [ih s2 s1 h]
        have hstep : (bodyParams s2.Parameters).length = (bodyParams s.Parameters).length +
            if tc.is2xx ∧ tc.RequestBody ≠ GoValue.nil then 1 else 0 := by
          unfold swaggerCase at hc
          by_cases h2 : 200 ≤ tc.ExpectedHttpCode ∧ tc.ExpectedHttpCode < 300
          · rw [if_pos h2] at hc
            cases hcol : swaggerCollect ext s tc with
            | error err => rw [hcol] at hc; cases hc
            | ok s3 =>
              rw [hcol] at hc
              cases hc
              have h2x : tc.is2xx := h2
              simp only [swaggerCollect_bodyParams hcol, h2x, true_and]
          · rw [if_neg h2] at hc
            cases hc
            have h2x : ¬ tc.is2xx := h2
            simp only [h2x, false_and, if_false, Nat.add_zero]
        rw [hstep]
        by_cases hcond : tc.is2xx ∧ tc.RequestBody ≠ GoValue.nil
        · rw [if_pos hcond, List.filter_cons_of_pos (by simpa using hcond), List.length_cons]
          omega
        · rw [if_neg hcond, List.filter_cons_of_neg (by simpa using hcond)]
          omega
  have := key test.TestCases {} st hst
  simpa [bodyParams] using this

theorem ramlPath_slash {p q : String} (h : ramlPath p = some q) :
    q.data.head? = some '/' ∧ (p.data.head? = some '/' → q = p) ∧
      (p.data.head? ≠ some '/' → q = "/" ++ p) := by
  unfold ramlPath at h
  cases hp : p.data with
  | nil => rw [hp] at h; cases h
  | cons c rest =>
    rw [hp] at h
    simp only at h
    by_cases hc : c ≠ '/'
    · rw [if_pos hc] at h
      cases h
      refine ⟨by simp [String.data_append], ?_, fun _ => rfl⟩
      intro h1
      simp only [List.head?_cons, Option.some.injEq] at h1
      exact absurd h1 hc
    · rw [if_neg hc] at h
      cases h
      have hc1 : c = '/' := not_not.1 hc
      subst hc1
      refine ⟨by rw [hp]; rfl, fun _ => rfl, ?_⟩
      intro h1
      exact absurd (by simp) h1

/-- What the RAML generator does about paths: every key that a run puts into
the map of resources starts with a slash. -/
theorem raml_keys_start_with_slash (ext : Extern) :
    ∀ (tests : List Test) (R : GoMap String Resource) (key : String),
      (ramlTests ext tests R).1 key ≠ none → R key ≠ none ∨ key.data.head? = some '/' := by
  have step : ∀ (t : Test) (R : GoMap String Resource) (key : String),
      (ramlTest ext R t).1 key ≠ none → R key ≠ none ∨ key.data.head? = some '/' := by
    intro t R key h
    unfold ramlTest at h
    cases hq : ramlPath t.Path with
    | none =>
      rw [hq] at h
      exact Or.inl h
    | some q =>
      rw [hq] at h
      simp only at h
      by_cases hk : key = q
      · subst hk
        exact Or.inr (ramlPath_slash hq).1
      · left
        cases hop : ramlOperation ext t ((R q).getD {}).UriParameters with
        | mk u r =>
          rw [hop] at h
          cases r with
          | none =>
            simp only at h
            cases hr : R q with
            | none => rw [hr] at h; exact h
            | some stored =>
              rw [hr] at h
              simpa only [Function.update_noteq hk] using h
          | some st =>
            simpa only [Function.update_noteq hk] using h
  intro tests
  induction tests with
  | nil => intro R key h; exact Or.inl h
  | cons t rest ih =>
    intro R key h
    unfold ramlTests at h
    cases ht : ramlTest ext R t with
    | mk R1 b =>
      have hs := step t R key
      rw [ht] at h hs
      cases b with
      | false => exact hs h
      | true =>
        rcases ih R1 key h with h1 | h1
        · exact hs h1
        · exact Or.inr h1

/-! ## The default assertion on a nil expected value -/

/-- C11: for a nil expected value the default assertion returns true exactly
when the response body has no bytes. -/
theorem assert_response_nil_expected (lib : JsonLib) (responseBody : List UInt8) :
    AssertResponse lib GoValue.nil responseBody = true ↔ responseBody = [] := by
  simp [AssertResponse]

/-! ## Path parameters are required -/

theorem collectSwaggerParams_forall (P : Parameter → Prop) (loc : String)
    (prep : Param → Param)
    (hgen : ∀ key param sp, generateSwaggerSpecParam key (prep param) loc = .ok sp → P sp) :
    ∀ (entries : ParamMap) (processed : List String) (params : List Parameter)
      (processed1 : List String) (params1 : List Parameter),
      collectSwaggerParams loc prep entries processed params = .ok (processed1, params1) →
      (∀ p ∈ params, P p) → ∀ p ∈ params1, P p := by
  intro entries
  induction entries with
  | nil =>
    intro processed params processed1 params1 h hp
    simp only [collectSwaggerParams, Except.ok.injEq, Prod.mk.injEq] at h
    rw [← h.2]
    exact hp
  | cons e rest ih =>
    obtain ⟨key, param⟩ := e
    intro processed params processed1 params1 h hp
    unfold collectSwaggerParams at h
    by_cases hk : key ∈ processed
    · rw [if_pos hk] at h
      exact ih _ _ _ _ h hp
    · rw [if_neg hk] at h
      cases hg : generateSwaggerSpecParam key (prep param) loc with
      | error err => rw [hg] at h; cases h
      | ok sp =>
        rw [hg] at h
        apply ih _ _ _ _ h
        intro p hpm
        rw [List.mem_append, List.mem_singleton] at hpm
        rcases hpm with hpm | rfl
        · exact hp p hpm
        · exact hgen key param p hg

theorem generateSwaggerSpecParam_fields {key : String} {param : Param} {loc : String}
    {sp : Parameter} (h : generateSwaggerSpecParam key param loc = .ok sp) :
    sp.Required = param.Required ∧ sp.Description = param.Description ∧
      sp.Default = param.Value := by
  unfold generateSwaggerSpecParam at h
  split at h
  · cases h
  · cases h
    exact ⟨rfl, rfl, rfl⟩

theorem swaggerCase_forall (ext : Extern) (P : Parameter → Prop)
    (hh : ∀ key param sp, generateSwaggerSpecParam key param "header" = .ok sp → P sp)
    (hp : ∀ key (param : Param) sp,
      generateSwaggerSpecParam key { param with Required := true } "path" = .ok sp → P sp)
    (hq : ∀ key param sp, generateSwaggerSpecParam key param "query" = .ok sp → P sp)
    (hb : ∀ sp : Parameter, sp.In = "body" → P sp)
    {st st1 : swaggerOpState} {tc : TestCase} (h : swaggerCase ext st tc = .ok st1)
    (hst : ∀ p ∈ st.Parameters, P p) : ∀ p ∈ st1.Parameters, P p := by
  unfold swaggerCase at h
  by_cases h2 : 200 ≤ tc.ExpectedHttpCode ∧ tc.ExpectedHttpCode < 300
  · rw [if_pos h2] at h
    cases hc : swaggerCollect ext st tc with
    | error err => rw [hc] at h; cases h
    | ok st2 =>
      rw [hc] at h
      cases h
      show ∀ p ∈ st2.Parameters, P p
      unfold swaggerCollect at hc
      cases e1 : collectSwaggerParams "header" id tc.Headers st.processedHeaderParams
          st.Parameters with
      | error err => rw [e1] at hc; cases hc
      | ok r1 =>
        obtain ⟨ph, params1⟩ := r1
        rw [e1] at hc
        simp only at hc
        cases e2 : collectSwaggerParams "path" (fun p => { p with Required := true })
            tc.PathParams st.processedPathParams params1 with
        | error err => rw [e2] at hc; cases hc
        | ok r2 =>
          obtain ⟨pp, params2⟩ := r2
          rw [e2] at hc
          simp only at hc
          cases e3 : collectSwaggerParams "query" id tc.QueryParams st.processedQueryParams
              params2 with
          | error err => rw [e3] at hc; cases hc
          | ok r3 =>
            obtain ⟨pq, params3⟩ := r3
            rw [e3] at hc
            simp only at hc
            have a1 := collectSwaggerParams_forall P "header" id hh _ _ _ _ _ e1 hst
            have a2 := collectSwaggerParams_forall P "path" _ hp _ _ _ _ _ e2 a1
            have a3 := collectSwaggerParams_forall P "query" id hq _ _ _ _ _ e3 a2
            split at hc
            · cases hc
              intro p hpm
              rw [List.mem_append, List.mem_singleton] at hpm
              rcases hpm with hpm | rfl
              · exact a3 p hpm
              · exact hb _ rfl
            · cases hc
              exact a3
  · rw [if_neg h2] at h
    cases h
    exact hst

theorem swaggerCases_forall (ext : Extern) (P : Parameter → Prop)
    (hh : ∀ key param sp, generateSwaggerSpecParam key param "header" = .ok sp → P sp)
    (hp : ∀ key (param : Param) sp,
      generateSwaggerSpecParam key { param with Required := true } "path" = .ok sp → P sp)
    (hq : ∀ key param sp, generateSwaggerSpecParam key param "query" = .ok sp → P sp)
    (hb : ∀ sp : Parameter, sp.In = "body" → P sp) :
    ∀ (cases : List TestCase) (st st1 : swaggerOpState), swaggerCases ext cases st = .ok st1 →
      (∀ p ∈ st.Parameters, P p) → ∀ p ∈ st1.Parameters, P p := by
  intro cases
  induction cases with
  | nil =>
    intro st st1 h hst
    simp only [swaggerCases, Except.ok.injEq] at h
    subst h
    exact hst
  | cons tc rest ih =>
    intro st st1 h hst
    unfold swaggerCases at h
    cases hc : swaggerCase ext st tc with
    | error err => rw [hc] at h; cases h
    | ok st2 =>
      rw [hc] at h
      exact ih st2 st1 h (swaggerCase_forall ext P hh hp hq hb hc hst)

/-- C17: every parameter of the operation built by the Swagger generator that
is located in the path is marked required, whatever the flag of the Param it
comes from. The generator works on a copy of the Param: the test is an
argument that it cannot write to, and the RAML parameter built from the same
Param still carries the declared flag. -/
theorem path_parameters_required (ext : Extern) (test : Test) (op : Operation) (ws : DefWrites)
    (h : generateSwaggerOperation ext test = .ok (op, ws)) :
    (∀ p ∈ op.Parameters, p.In = "path" → p.Required = true) ∧
    (∀ tc ∈ test.TestCases, ∀ e ∈ tc.PathParams, ∀ np,
      generateRamlNamedParameter e.1 e.2 = some np → np.Required = e.2.Required) := by
  constructor
  · obtain ⟨st, hst, -, hp, -, -⟩ := generateSwaggerOperation_ok h
    rw [hp]
    refine swaggerCases_forall ext (fun p => p.In = "path" → p.Required = true) ?_ ?_ ?_ ?_
      test.TestCases {} st hst (by intro p hpm; cases hpm)
    · intro key param sp hg hin
      rw [(generateSwaggerSpecParam_ok hg).1] at hin
      exact absurd hin (by decide)
    · intro key param sp hg _
      exact (generateSwaggerSpecParam_fields hg).1
    · intro key param sp hg hin
      rw [(generateSwaggerSpecParam_ok hg).1] at hin
      exact absurd hin (by decide)
    · intro sp hb hin
      rw [hb] at hin
      exact absurd hin (by decide)
  · intro tc _ e _ np hnp
    unfold generateRamlNamedParameter at hnp
    split at hnp
    · cases hnp
    · cases hnp
      rfl

/-- Witness of C17 on `sampleGetUser`, whose path parameter `username` is
declared with `Required` false. -/
theorem path_parameters_required_witness :
    ((swaggerOperationOf sampleExtern sampleGetUser).Parameters.filter
        (fun p => decide (p.In = "path"))).map (fun p => (p.Name, p.Required)) =
      [("username", true)] ∧
    ((∀ p ∈ (swaggerOperationOf sampleExtern sampleGetUser).Parameters,
        p.In = "path" → p.Required = true) ∧
     (∀ tc ∈ sampleGetUser.TestCases, ∀ e ∈ tc.PathParams, ∀ np,
        generateRamlNamedParameter e.1 e.2 = some np → np.Required = e.2.Required)) :=
  ⟨by decide, path_parameters_required sampleExtern sampleGetUser
    (swaggerOperationOf sampleExtern sampleGetUser) (swaggerWritesOf sampleExtern sampleGetUser)
    rfl⟩

/-! ## The RAML generator collects the parameters of every test case -/

theorem collectRamlParams_keys :
    ∀ (entries : ParamMap) (processed : List String) (table : GoMap String NamedParameter)
      (table1 : GoMap String NamedParameter) (processed1 : List String),
      collectRamlParams entries processed table = (table1, some processed1) →
      (∀ k ∈ processed, table k ≠ none) →
      (∀ k ∈ processed1, table1 k ≠ none) ∧ (∀ k ∈ processed, k ∈ processed1) ∧
      (∀ k ∈ entries.map Prod.fst, k ∈ processed1) ∧ (∀ k, table k ≠ none → table1 k ≠ none) := by
  intro entries
  induction entries with
  | nil =>
    intro processed table table1 processed1 h hp
    simp only [collectRamlParams, Prod.mk.injEq, Option.some.injEq] at h
    obtain ⟨rfl, rfl⟩ := h
    exact ⟨hp, fun k hk => hk, by simp, fun k hk => hk⟩
  | cons e rest ih =>
    obtain ⟨key, param⟩ := e
    intro processed table table1 processed1 h hp
    unfold collectRamlParams at h
    by_cases hk : key ∈ processed
    · rw [if_pos hk] at h
      obtain ⟨a1, a2, a3, a4⟩ := ih _ _ _ _ h hp
      refine ⟨a1, a2, ?_, a4⟩
      intro k hkm
      rw [List.map_cons, List.mem_cons] at hkm
      rcases hkm with rfl | hkm
      · exact a2 _ hk
      · exact a3 k hkm
    · rw [if_neg hk] at h
      cases hg : generateRamlNamedParameter key param with
      | none => rw [hg] at h; cases h
      | some p =>
        rw [hg] at h
        have hp1 : ∀ k ∈ key :: processed, Function.update table key (some p) k ≠ none := by
          intro k hkm
          by_cases hkk : k = key
          · subst hkk
            simp
          · rw [Function.update_noteq hkk]
            rw [List.mem_cons] at hkm
            rcases hkm with hkm | hkm
            · exact absurd hkm hkk
            · exact hp k hkm
        obtain ⟨a1, a2, a3, a4⟩ := ih _ _ _ _ h hp1
        refine ⟨a1, fun k hkm => a2 k (List.mem_cons_of_mem _ hkm), ?_, ?_⟩
        · intro k hkm
          rw [List.map_cons, List.mem_cons] at hkm
          rcases hkm with rfl | hkm
          · exact a2 _ (List.mem_cons_self _ _)
          · exact a3 k hkm
        · intro k hkn
          apply a4
          by_cases hkk : k = key
          · subst hkk
            simp
          · rw [Function.update_noteq hkk]
            exact hkn

theorem ramlCase_inv {ext : Extern} {uri uri1 : GoMap String NamedParameter}
    {st st1 : ramlOpState} {tc : TestCase} {done : List TestCase}
    (hinv : RamlInv uri st done) (h : ramlCase ext uri st tc = (uri1, some st1)) :
    RamlInv uri1 st1 (done ++ [tc]) := by
  unfold ramlCase at h
  cases e1 : collectRamlParams tc.PathParams st.processedPathParams uri with
  | mk u1 r1 =>
  rw [e1] at h
  cases r1 with
  | none => cases h
  | some pp =>
    simp only at h
    cases e2 : collectRamlParams tc.Headers st.processedHeaderParams st.m.Headers with
    | mk u2 r2 =>
    rw [e2] at h
    cases r2 with
    | none => cases h
    | some ph =>
      simp only at h
      cases e3 : collectRamlParams tc.QueryParams st.processedQueryParams
          st.m.QueryParameters with
      | mk u3 r3 =>
      rw [e3] at h
      cases r3 with
      | none => cases h
      | some pq =>
        simp only [Prod.mk.injEq, Option.some.injEq] at h
        obtain ⟨rfl, rfl⟩ := h
        obtain ⟨a1, a2, a3, -⟩ := collectRamlParams_keys _ _ _ _ _ e1 hinv.path
        obtain ⟨b1, b2, b3, -⟩ := collectRamlParams_keys _ _ _ _ _ e2 hinv.header
        obtain ⟨c1, c2, c3, -⟩ := collectRamlParams_keys _ _ _ _ _ e3 hinv.query
        refine ⟨b1, c1, a1, ?_, ?_, ?_⟩
        · intro x hx k hk
          rw [List.mem_append, List.mem_singleton] at hx
          rcases hx with hx | rfl
          · exact b2 k (hinv.headerDone x hx k hk)
          · exact b3 k hk
        · intro x hx k hk
          rw [List.mem_append, List.mem_singleton] at hx
          rcases hx with hx | rfl
          · exact c2 k (hinv.queryDone x hx k hk)
          · exact c3 k hk
        · intro x hx k hk
          rw [List.mem_append, List.mem_singleton] at hx
          rcases hx with hx | rfl
          · exact a2 k (hinv.pathDone x hx k hk)
          · exact a3 k hk

theorem ramlCases_inv (ext : Extern) :
    ∀ (cases done : List TestCase) (uri uri1 : GoMap String NamedParameter)
      (st st1 : ramlOpState), RamlInv uri st done →
      ramlCases ext cases uri st = (uri1, some st1) → RamlInv uri1 st1 (done ++ cases) := by
  intro cases
  induction cases with
  | nil =>
    intro done uri uri1 st st1 hinv h
    simp only [ramlCases, Prod.mk.injEq, Option.some.injEq] at h
    obtain ⟨rfl, rfl⟩ := h
    simpa using hinv
  | cons tc rest ih =>
    intro done uri uri1 st st1 hinv h
    unfold ramlCases at h
    cases hc : ramlCase ext uri st tc with
    | mk u r =>
    rw [hc] at h
    cases r with
    | none => cases h
    | some st2 =>
      have := ih (done ++ [tc]) u uri1 st2 st1 (ramlCase_inv hinv hc) h
      simpa using this

/-- C18: the RAML generator collects the parameters of every test case,
whatever its ExpectedHttpCode: when the method of a test is built, each header
name and each query-parameter name that any test case declares is a key of the
headers, respectively the query parameters, of the method, and each
path-parameter name that any test case declares is a key of the table of URI
parameters of the resource, which the loop body stores under the normalized
path. -/
theorem raml_parameters_from_every_case (ext : Extern) (test : Test) :
    (∀ uri uri1 st, ramlOperation ext test uri = (uri1, some st) →
      ∀ tc ∈ test.TestCases,
        (∀ k ∈ tc.Headers.map Prod.fst, st.m.Headers k ≠ none) ∧
        (∀ k ∈ tc.QueryParams.map Prod.fst, st.m.QueryParameters k ≠ none) ∧
        (∀ k ∈ tc.PathParams.map Prod.fst, uri1 k ≠ none)) ∧
    (∀ resources q uri1 st, ramlPath test.Path = some q →
      ramlOperation ext test ((resources q).getD {}).UriParameters = (uri1, some st) →
      ∃ resource, (ramlTest ext resources test).1 q = some resource ∧
        resource.UriParameters = uri1) := by
  constructor
  · intro uri uri1 st h tc htc
    have hinv := ramlCases_inv ext test.TestCases [] uri uri1
      { m := { Description := test.Description, Name := test.Method } } st
      ⟨fun k hk => absurd hk (List.not_mem_nil k), fun k hk => absurd hk (List.not_mem_nil k),
        fun k hk => absurd hk (List.not_mem_nil k), fun x hx => absurd hx (List.not_mem_nil x),
        fun x hx => absurd hx (List.not_mem_nil x), fun x hx => absurd hx (List.not_mem_nil x)⟩ h
    rw [List.nil_append] at hinv
    exact ⟨fun k hk => hinv.header k (hinv.headerDone tc htc k hk),
      fun k hk => hinv.query k (hinv.queryDone tc htc k hk),
      fun k hk => hinv.path k (hinv.pathDone tc htc k hk)⟩
  · intro resources q uri1 st hq hop
    unfold ramlTest
    rw [hq]
    simp only
    rw [hop]
    exact ⟨_, Function.update_same _ _ _, Resource.assign_uri _ _ _⟩

/-- Witness of C18 on `sampleGetUser`, whose query parameter `verbose` is
declared only by the 404 test case. -/
theorem raml_parameters_from_every_case_witness :
    ((ramlStateOf sampleExtern sampleGetUser GoMap.empty).m.QueryParameters "verbose" =
        some { Name := "verbose", Default := GoValue.bool true, Type_ := "boolean" } ∧
      ((ramlTest sampleExtern GoMap.empty sampleGetUser).1 "/user/{username}").map
          (fun r => ((r.UriParameters "username").map (fun p => p.Default))) =
        some (some (GoValue.string "octocat"))) ∧
    ((∀ tc ∈ sampleGetUser.TestCases,
        (∀ k ∈ tc.Headers.map Prod.fst,
          (ramlStateOf sampleExtern sampleGetUser GoMap.empty).m.Headers k ≠ none) ∧
        (∀ k ∈ tc.QueryParams.map Prod.fst,
          (ramlStateOf sampleExtern sampleGetUser GoMap.empty).m.QueryParameters k ≠ none) ∧
        (∀ k ∈ tc.PathParams.map Prod.fst,
          (ramlOperation sampleExtern sampleGetUser GoMap.empty).1 k ≠ none)) ∧
     (∃ resource, (ramlTest sampleExtern GoMap.empty sampleGetUser).1 "/user/{username}" =
          some resource ∧
        resource.UriParameters = (ramlOperation sampleExtern sampleGetUser GoMap.empty).1)) :=
  ⟨⟨by decide, by decide⟩,
    (raml_parameters_from_every_case sampleExtern sampleGetUser).1 GoMap.empty
      (ramlOperation sampleExtern sampleGetUser GoMap.empty).1
      (ramlStateOf sampleExtern sampleGetUser GoMap.empty) rfl,
    (raml_parameters_from_every_case sampleExtern sampleGetUser).2 GoMap.empty
      "/user/{username}" (ramlOperation sampleExtern sampleGetUser GoMap.empty).1
      (ramlStateOf sampleExtern sampleGetUser GoMap.empty) rfl rfl⟩

/-! ## The header line of a RAML document -/

theorem ramlGenerate_version (ext : Extern) (yamlMarshal : APIDefinition → Result)
    (g : ramlGenerator) (tests : List Test) :
    (g.Generate ext yamlMarshal tests).1.seed.RAMLVersion = g.seed.RAMLVersion := by
  have hgr : (g.Generate ext yamlMarshal tests).1 = (g.document ext tests).1 := by
    unfold ramlGenerator.Generate
    simp only
    split
    · rfl
    · split <;> rfl
  rw [hgr, ramlDocument_fst]

theorem ramlGenerate_success (ext : Extern) (yamlMarshal : APIDefinition → Result)
    (g : ramlGenerator) (tests : List Test) (bytes : Option (List UInt8))
    (h : (g.Generate ext yamlMarshal tests).2 = some (bytes, none)) :
    ∃ doc d, (g.document ext tests).2 = some doc ∧ yamlMarshal doc = (d, none) ∧
      doc.RAMLVersion = g.seed.RAMLVersion ∧ bytes = some (ramlHeader doc ++ d.getD []) := by
  unfold ramlGenerator.Generate at h
  simp only at h
  cases hd : (g.document ext tests).2 with
  | none => rw [hd] at h; cases h
  | some doc =>
    rw [hd] at h
    simp only at h
    have hv : doc.RAMLVersion = g.seed.RAMLVersion := by
      rw [ramlDocument_snd] at hd
      split at hd
      · cases hd
        rfl
      · cases hd
    cases hy : yamlMarshal doc with
    | mk d e =>
      rw [hy] at h
      cases e with
      | none =>
        simp only [Option.some.injEq, Prod.mk.injEq, and_true] at h
        exact ⟨doc, d, rfl, hy, hv, h.symm⟩
      | some err =>
        simp only [Option.some.injEq, Prod.mk.injEq] at h
        cases h.2

/-- C20: for every seed, whatever RAML version it carries, and every suite on
which Generate of the RAML generator built from the seed returns no error, on
its first call or on a call after another, the returned bytes are the bytes of
the line `#%RAML 0.8` with its newline, followed by the bytes that yaml.Marshal
returned for the document. -/
theorem raml_header_line (ext : Extern) (yamlMarshal : APIDefinition → Result)
    (seed : APIDefinition) (earlier tests : List Test) :
    (∀ bytes, ((NewRamlGenerator seed).Generate ext yamlMarshal tests).2 = some (bytes, none) →
      ∃ doc d, ((NewRamlGenerator seed).document ext tests).2 = some doc ∧
        yamlMarshal doc = (d, none) ∧
        bytes = some ("#%RAML 0.8\n".toUTF8.toList ++ d.getD [])) ∧
    (∀ bytes,
      (((NewRamlGenerator seed).Generate ext yamlMarshal earlier).1.Generate ext yamlMarshal
        tests).2 = some (bytes, none) →
      ∃ doc d,
        (((NewRamlGenerator seed).Generate ext yamlMarshal earlier).1.document ext tests).2 =
          some doc ∧
        yamlMarshal doc = (d, none) ∧
        bytes = some ("#%RAML 0.8\n".toUTF8.toList ++ d.getD [])) := by
  have hline : ∀ doc : APIDefinition, doc.RAMLVersion = "0.8" →
      ramlHeader doc = "#%RAML 0.8\n".toUTF8.toList := by
    intro doc hv
    unfold ramlHeader
    rw [hv]
    rfl
  constructor
  · intro bytes h
    obtain ⟨doc, d, h1, h2, h3, h4⟩ := ramlGenerate_success ext yamlMarshal _ tests bytes h
    exact ⟨doc, d, h1, h2, by rw [h4, hline doc (by rw [h3]; rfl)]⟩
  · intro bytes h
    obtain ⟨doc, d, h1, h2, h3, h4⟩ := ramlGenerate_success ext yamlMarshal _ tests bytes h
    refine ⟨doc, d, h1, h2, ?_⟩
    rw [h4, hline doc]
    rw [h3, ramlGenerate_version]
    rfl

/-- Witness of C20: a seed that carries the RAML version 1.0, on the suite
`[sampleHello]`. -/
theorem raml_header_line_witness :
    ∃ doc d, ((NewRamlGenerator { RAMLVersion := "1.0" }).document sampleExtern
        [sampleHello]).2 = some doc ∧
      probeYaml "/hello" doc = (d, none) ∧
      some ("#%RAML 0.8\n".toUTF8.toList ++ [1]) =
        some ("#%RAML 0.8\n".toUTF8.toList ++ d.getD []) :=
  (raml_header_line sampleExtern (probeYaml "/hello") { RAMLVersion := "1.0" } []
    [sampleHello]).1 (some ("#%RAML 0.8\n".toUTF8.toList ++ [1])) rfl

/-! ## Errors of the Swagger generator -/

theorem generateSpecSimpleType_ok_iff (v : GoValue) :
    (∃ t, generateSpecSimpleType v = .ok t) ↔ isSimpleValue v = true := by
  cases v <;> simp [generateSpecSimpleType, isSimpleValue]

theorem generateSwaggerSpecParam_error_iff (key : String) (param : Param) (loc : String) :
    (∃ err, generateSwaggerSpecParam key param loc = .error err) ↔
      isSimpleValue param.Value = false := by
  unfold generateSwaggerSpecParam
  have h := generateSpecSimpleType_ok_iff param.Value
  cases hg : generateSpecSimpleType param.Value with
  | error e =>
    simp only [Except.error.injEq, exists_eq', true_iff]
    cases hs : isSimpleValue param.Value with
    | false => rfl
    | true =>
      obtain ⟨t, ht⟩ := h.2 hs
      rw [hg] at ht
      cases ht
  | ok t =>
    have := h.1 ⟨t, hg⟩
    simp [this]

theorem firstParam_none_iff (entries : ParamMap) (key : String) :
    firstParam entries key = none ↔ key ∉ entries.map Prod.fst := by
  induction entries with
  | nil => simp [firstParam]
  | cons e rest ih =>
    obtain ⟨k, p⟩ := e
    simp only [firstParam, List.map_cons, List.mem_cons, not_or]
    by_cases hk : k = key
    · simp [hk]
    · rw [if_neg hk, ih]
      exact ⟨fun h => ⟨fun h1 => hk h1.symm, h⟩, fun h => h.2⟩

theorem firstParam_append (a b : ParamMap) (key : String) :
    firstParam (a ++ b) key =
      match firstParam a key with
      | some p => some p
      | none => firstParam b key := by
  induction a with
  | nil => rfl
  | cons e rest ih =>
    obtain ⟨k, p⟩ := e
    simp only [List.cons_append, firstParam]
    by_cases hk : k = key
    · simp [hk]
    · simp only [if_neg hk]
      exact ih

theorem collectSwaggerParams_result (loc : String) (prep : Param → Param)
    (hprep : ∀ p, (prep p).Value = p.Value) :
    ∀ (entries : ParamMap) (processed : List String) (params : List Parameter),
      match collectSwaggerParams loc prep entries processed params with
      | .error _ => BadParam processed entries
      | .ok r => ¬ BadParam processed entries ∧
          ∀ k, k ∈ r.1 ↔ k ∈ processed ∨ k ∈ entries.map Prod.fst := by
  intro entries
  induction entries with
  | nil =>
    intro processed params
    simp only [collectSwaggerParams]
    refine ⟨?_, by simp⟩
    rintro ⟨key, param, h, -⟩
    cases h
  | cons e rest ih =>
    obtain ⟨k, p⟩ := e
    intro processed params
    unfold collectSwaggerParams
    by_cases hk : k ∈ processed
    · rw [if_pos hk]
      have := ih processed params
      cases hc : collectSwaggerParams loc prep rest processed params with
      | error err =>
        rw [hc] at this
        obtain ⟨key, param, h1, h2, h3⟩ := this
        refine ⟨key, param, ?_, h2, h3⟩
        have hne : k ≠ key := fun h => h2 (h ▸ hk)
        simp only [firstParam, if_neg hne]
        exact h1
      | ok r =>
        rw [hc] at this
        obtain ⟨h1, h2⟩ := this
        refine ⟨?_, ?_⟩
        · rintro ⟨key, param, a1, a2, a3⟩
          have hne : k ≠ key := fun h => a2 (h ▸ hk)
          simp only [firstParam, if_neg hne] at a1
          exact h1 ⟨key, param, a1, a2, a3⟩
        · intro x
          rw [h2 x, List.map_cons, List.mem_cons]
          constructor
          · rintro (h | h)
            · exact Or.inl h
            · exact Or.inr (Or.inr h)
          · rintro (h | h | h)
            · exact Or.inl h
            · exact Or.inl (h ▸ hk)
            · exact Or.inr h
    · rw [if_neg hk]
      have herr := generateSwaggerSpecParam_error_iff k (prep p) loc
      rw [hprep] at herr
      cases hg : generateSwaggerSpecParam k (prep p) loc with
      | error err =>
        exact ⟨k, p, by simp [firstParam], hk, herr.1 ⟨err, hg⟩⟩
      | ok sp =>
        have hsimple : isSimpleValue p.Value = true := by
          cases hs : isSimpleValue p.Value with
          | true => rfl
          | false =>
            obtain ⟨err, he⟩ := herr.2 hs
            rw [hg] at he
            cases he
        have := ih (k :: processed) (params ++ [sp])
        simp only
        cases hc : collectSwaggerParams loc prep rest (k :: processed) (params ++ [sp]) with
        | error err =>
          rw [hc] at this
          obtain ⟨key, param, h1, h2, h3⟩ := this
          rw [List.mem_cons, not_or] at h2
          refine ⟨key, param, ?_, h2.2, h3⟩
          have hne : k ≠ key := fun h => h2.1 h.symm
          simp only [firstParam, if_neg hne]
          exact h1
        | ok r =>
          rw [hc] at this
          obtain ⟨h1, h2⟩ := this
          refine ⟨?_, ?_⟩
          · rintro ⟨key, param, a1, a2, a3⟩
            by_cases hne : k = key
            · simp only [firstParam, if_pos hne, Option.some.injEq] at a1
              subst a1
              rw [hsimple] at a3
              cases a3
            · simp only [firstParam, if_neg hne] at a1
              exact h1 ⟨key, param, a1, by
                rw [List.mem_cons, not_or]
                exact ⟨fun h => hne h.symm, a2⟩, a3⟩
          · intro x
            rw [h2 x, List.map_cons, List.mem_cons, List.mem_cons]
            tauto

theorem badParam_nil (processed : List String) : ¬ BadParam processed [] := by
  rintro ⟨key, param, h, -⟩
  cases h

theorem badParam_append_left (processed : List String) (a b : ParamMap)
    (h : BadParam processed a) : BadParam processed (a ++ b) := by
  obtain ⟨key, param, h1, h2, h3⟩ := h
  refine ⟨key, param, ?_, h2, h3⟩
  rw [firstParam_append, h1]

theorem badParam_append (processed after : List String) (a b : ParamMap)
    (h : ∀ k, k ∈ after ↔ k ∈ processed ∨ k ∈ a.map Prod.fst) :
    BadParam processed (a ++ b) ↔ BadParam processed a ∨ BadParam after b := by
  constructor
  · rintro ⟨key, param, h1, h2, h3⟩
    rw [firstParam_append] at h1
    cases ha : firstParam a key with
    | some p =>
      rw [ha] at h1
      exact Or.inl ⟨key, p, ha, h2, by cases h1; exact h3⟩
    | none =>
      rw [ha] at h1
      refine Or.inr ⟨key, param, h1, ?_, h3⟩
      rw [h]
      rintro (hk | hk)
      · exact h2 hk
      · exact (firstParam_none_iff a key).1 ha hk
  · rintro (⟨key, param, h1, h2, h3⟩ | ⟨key, param, h1, h2, h3⟩)
    · refine ⟨key, param, ?_, h2, h3⟩
      rw [firstParam_append, h1]
    · rw [h] at h2
      refine ⟨key, param, ?_, fun hk => h2 (Or.inl hk), h3⟩
      have : firstParam a key = none :=
        (firstParam_none_iff a key).2 (fun hk => h2 (Or.inr hk))
      rw [firstParam_append, this]
      exact h1

theorem swaggerCollect_result (ext : Extern) (st : swaggerOpState) (tc : TestCase) :
    match swaggerCollect ext st tc with
    | .error _ => BadParam st.processedHeaderParams tc.Headers ∨
        BadParam st.processedPathParams tc.PathParams ∨
        BadParam st.processedQueryParams tc.QueryParams
    | .ok st1 => ¬ (BadParam st.processedHeaderParams tc.Headers ∨
        BadParam st.processedPathParams tc.PathParams ∨
        BadParam st.processedQueryParams tc.QueryParams) ∧
        (∀ k, k ∈ st1.processedHeaderParams ↔
          k ∈ st.processedHeaderParams ∨ k ∈ tc.Headers.map Prod.fst) ∧
        (∀ k, k ∈ st1.processedPathParams ↔
          k ∈ st.processedPathParams ∨ k ∈ tc.PathParams.map Prod.fst) ∧
        (∀ k, k ∈ st1.processedQueryParams ↔
          k ∈ st.processedQueryParams ∨ k ∈ tc.QueryParams.map Prod.fst) := by
  unfold swaggerCollect
  have h1 := collectSwaggerParams_result "header" id (fun _ => rfl) tc.Headers
    st.processedHeaderParams st.Parameters
  cases hc1 : collectSwaggerParams "header" id tc.Headers st.processedHeaderParams
      st.Parameters with
  | error err =>
    rw [hc1] at h1
    exact Or.inl h1
  | ok r1 =>
    rw [hc1] at h1
    obtain ⟨ph, params1⟩ := r1
    have h2 := collectSwaggerParams_result "path" (fun p => { p with Required := true })
      (fun _ => rfl) tc.PathParams st.processedPathParams params1
    simp only
    cases hc2 : collectSwaggerParams "path" (fun p => { p with Required := true })
        tc.PathParams st.processedPathParams params1 with
    | error err =>
      rw [hc2] at h2
      exact Or.inr (Or.inl h2)
    | ok r2 =>
      rw [hc2] at h2
      obtain ⟨pp, params2⟩ := r2
      have h3 := collectSwaggerParams_result "query" id (fun _ => rfl) tc.QueryParams
        st.processedQueryParams params2
      simp only
      cases hc3 : collectSwaggerParams "query" id tc.QueryParams st.processedQueryParams
          params2 with
      | error err =>
        rw [hc3] at h3
        exact Or.inr (Or.inr h3)
      | ok r3 =>
        rw [hc3] at h3
        obtain ⟨pq, params3⟩ := r3
        simp only
        have hno : ¬ (BadParam st.processedHeaderParams tc.Headers ∨
            BadParam st.processedPathParams tc.PathParams ∨
            BadParam st.processedQueryParams tc.QueryParams) := by
          rintro (h | h | h)
          · exact h1.1 h
          · exact h2.1 h
          · exact h3.1 h
        by_cases hb : tc.RequestBody ≠ GoValue.nil
        · rw [if_pos hb]
          exact ⟨hno, h1.2, h2.2, h3.2⟩
        · rw [if_neg hb]
          exact ⟨hno, h1.2, h2.2, h3.2⟩

theorem swaggerCase_result (ext : Extern) (st : swaggerOpState) (tc : TestCase) :
    match swaggerCase ext st tc with
    | .error _ => CaseBad st tc
    | .ok st1 => ¬ CaseBad st tc ∧
        Grows st.processedHeaderParams st1.processedHeaderParams tc "header" ∧
        Grows st.processedPathParams st1.processedPathParams tc "path" ∧
        Grows st.processedQueryParams st1.processedQueryParams tc "query" := by
  unfold swaggerCase
  by_cases h2xx : 200 ≤ tc.ExpectedHttpCode ∧ tc.ExpectedHttpCode < 300
  · have hc := swaggerCollect_result ext st tc
    have h2 : tc.is2xx := h2xx
    rw [if_pos h2xx]
    cases hcol : swaggerCollect ext st tc with
    | error err =>
      rw [hcol] at hc
      exact ⟨h2, hc⟩
    | ok st1 =>
      rw [hcol] at hc
      refine ⟨fun hb => hc.1 hb.2, ?_, ?_, ?_⟩
      · intro k
        simp only [if_pos h2]
        exact hc.2.1 k
      · intro k
        simp only [if_pos h2]
        exact hc.2.2.1 k
      · intro k
        simp only [if_pos h2]
        exact hc.2.2.2 k
  · have h2 : ¬ tc.is2xx := h2xx
    rw [if_neg h2xx]
    refine ⟨fun hb => h2 hb.1, ?_, ?_, ?_⟩ <;>
    · intro k
      simp [if_neg h2]

theorem swaggerCases_result (ext : Extern) :
    ∀ (cases : List TestCase) (st : swaggerOpState),
      match swaggerCases ext cases st with
      | .error _ => OpBad st cases
      | .ok _ => ¬ OpBad st cases := by
  intro cases
  induction cases with
  | nil =>
    intro st
    simp only [swaggerCases]
    rintro (h | h | h) <;> exact badParam_nil _ h
  | cons tc rest ih =>
    intro st
    unfold swaggerCases
    have hc := swaggerCase_result ext st tc
    cases hcase : swaggerCase ext st tc with
    | error err =>
      rw [hcase] at hc
      obtain ⟨h2, hb⟩ := hc
      simp only
      unfold OpBad
      simp only [declaredAt, if_pos h2]
      rcases hb with hb | hb | hb
      · exact Or.inl (badParam_append_left _ _ _ hb)
      · exact Or.inr (Or.inl (badParam_append_left _ _ _ hb))
      · exact Or.inr (Or.inr (badParam_append_left _ _ _ hb))
    | ok st1 =>
      rw [hcase] at hc
      obtain ⟨hno, gh, gp, gq⟩ := hc
      simp only
      have hiff : OpBad st (tc :: rest) ↔ OpBad st1 rest := by
        unfold OpBad
        simp only [declaredAt]
        rw [badParam_append _ _ _ _ gh, badParam_append _ _ _ _ gp, badParam_append _ _ _ _ gq]
        have nh : ¬ BadParam st.processedHeaderParams
            (if tc.is2xx then tc.paramsAt "header" else []) := by
          by_cases h2 : tc.is2xx
          · rw [if_pos h2]
            exact fun hb => hno ⟨h2, Or.inl hb⟩
          · rw [if_neg h2]
            exact badParam_nil _
        have np : ¬ BadParam st.processedPathParams
            (if tc.is2xx then tc.paramsAt "path" else []) := by
          by_cases h2 : tc.is2xx
          · rw [if_pos h2]
            exact fun hb => hno ⟨h2, Or.inr (Or.inl hb)⟩
          · rw [if_neg h2]
            exact badParam_nil _
        have nq : ¬ BadParam st.processedQueryParams
            (if tc.is2xx then tc.paramsAt "query" else []) := by
          by_cases h2 : tc.is2xx
          · rw [if_pos h2]
            exact fun hb => hno ⟨h2, Or.inr (Or.inr hb)⟩
          · rw [if_neg h2]
            exact badParam_nil _
        tauto
      have := ih st1
      cases hr : swaggerCases ext rest st1 with
      | error err =>
        rw [hr] at this
        exact hiff.2 this
      | ok st2 =>
        rw [hr] at this
        exact fun hb => this (hiff.1 hb)

theorem generateSwaggerOperation_error_iff (ext : Extern) (test : Test) :
    (∃ err, generateSwaggerOperation ext test = .error err) ↔
      ∃ location key param,
        (location = "header" ∨ location = "path" ∨ location = "query") ∧
        firstParam (declaredAt location test.TestCases) key = some param ∧
        isSimpleValue param.Value = false := by
  have h := swaggerCases_result ext test.TestCases {}
  unfold generateSwaggerOperation
  cases hc : swaggerCases ext test.TestCases {} with
  | error err =>
    rw [hc] at h
    simp only [Except.error.injEq, exists_eq', true_iff]
    rcases h with ⟨k, p, h1, -, h3⟩ | ⟨k, p, h1, -, h3⟩ | ⟨k, p, h1, -, h3⟩
    · exact ⟨"header", k, p, Or.inl rfl, h1, h3⟩
    · exact ⟨"path", k, p, Or.inr (Or.inl rfl), h1, h3⟩
    · exact ⟨"query", k, p, Or.inr (Or.inr rfl), h1, h3⟩
  | ok st =>
    rw [hc] at h
    constructor
    · rintro ⟨err, he⟩
      cases he
    rintro ⟨location, k, p, hl, h1, h3⟩
    exfalso
    apply h
    rcases hl with rfl | rfl | rfl
    · exact Or.inl ⟨k, p, h1, List.not_mem_nil k, h3⟩
    · exact Or.inr (Or.inl ⟨k, p, h1, List.not_mem_nil k, h3⟩)
    · exact Or.inr (Or.inr ⟨k, p, h1, List.not_mem_nil k, h3⟩)

theorem swaggerTests_error (ext : Extern) (test : Test) (rest : List Test) (err : String)
    (herr : generateSwaggerOperation ext test = .error err) :
    ∀ (pre : List Test), (∀ t ∈ pre, ∃ r, generateSwaggerOperation ext t = .ok r) →
      ∀ (paths : GoMap String PathItem) (defs : GoMap String SpecSchema),
        (swaggerTests ext (pre ++ test :: rest) paths defs).2 = .error err := by
  intro pre
  induction pre with
  | nil =>
    intro _ paths defs
    simp only [List.nil_append, swaggerTests, herr]
  | cons t pre ih =>
    intro hpre paths defs
    obtain ⟨r, hr⟩ := hpre t (List.mem_cons_self _ _)
    obtain ⟨op, ws⟩ := r
    simp only [List.cons_append, swaggerTests, hr]
    exact ih (fun t ht => hpre t (List.mem_cons_of_mem _ ht)) _ _

/-- C19: when building the operation of a test fails, and building succeeded
for the tests before it, Generate of the Swagger generator returns that error
with no bytes, whatever the generator, its marshaller and the tests after it;
and building the operation of a test fails exactly when, at the header, path
or query location, the first entry that the test cases with a code in
[200,300) declare under some name has a value that is not a bool, a string,
or an integer or a float of a built-in type. -/
theorem swagger_error_is_fatal (ext : Extern) :
    (∀ (g : swaggerGenerator) (pre : List Test) (test : Test) (rest : List Test) (err : String),
      (∀ t ∈ pre, ∃ r, generateSwaggerOperation ext t = .ok r) →
      generateSwaggerOperation ext test = .error err →
      (g.Generate ext (pre ++ test :: rest)).2 = (none, some err)) ∧
    (∀ test : Test, (∃ err, generateSwaggerOperation ext test = .error err) ↔
      ∃ location key param,
        (location = "header" ∨ location = "path" ∨ location = "query") ∧
        firstParam (declaredAt location test.TestCases) key = some param ∧
        isSimpleValue param.Value = false) := by
  refine ⟨?_, generateSwaggerOperation_error_iff ext⟩
  intro g pre test rest err hpre herr
  have h := swaggerTests_error ext test rest err herr pre hpre g.seed.Paths GoMap.empty
  unfold swaggerGenerator.Generate swaggerGenerator.document
  simp only [h]

theorem swagger_error_is_fatal_witness :
    (swaggerGenerator.Generate sampleExtern
        (NewSwaggerGenerator {} (probeMarshaller "/events"))
        ([sampleHello] ++ sampleBadParam :: [sampleGetUser])).2 =
      (none, some ("could not guess type of parameter 'since': " ++
        "value of complex type 'time.Time' provided, simple type expected")) :=
  (swagger_error_is_fatal sampleExtern).1 _ [sampleHello] sampleBadParam [sampleGetUser] _
    (by
      intro t ht
      rw [List.mem_singleton] at ht
      subst ht
      exact ⟨_, rfl⟩)
    rfl

/-! ## The runner: the request of a test case -/

theorem headers_foldl {α : Type} (lib : HttpLib) (value : α → String) :
    ∀ (L : List (String × α)) (h : Header) (key : String),
      (L.foldl (fun h e => headerSet lib h e.1 (value e.2)) h) key =
        match lastHeader lib value L key with
        | some v => some v
        | none => h key := by
  intro L
  induction L with
  | nil => intro h key; rfl
  | cons x rest ih =>
    intro h key
    rw [List.foldl_cons, ih]
    simp only [lastHeader, lastWrite]
    cases lastWrite (headerWrite lib value) rest key with
    | some v => rfl
    | none =>
      simp only [headerSet, headerWrite]
      by_cases hk : lib.CanonicalKey x.1 = key
      · rw [if_pos hk, ← hk, Function.update_same]
      · rw [if_neg hk, Function.update_noteq (fun h1 => hk h1.symm)]

theorem requestHeaders_apply {W : Type} (lib : HttpLib) (r : httpRunner W) (tc : TestCase)
    (h : Header) (key : String) :
    requestHeaders lib r tc h key =
      match lastHeader lib (headerValue lib) tc.Headers key with
      | some v => some v
      | none =>
        match lastHeader lib id r.DefaultHeaders key with
        | some v => some v
        | none => h key := by
  unfold requestHeaders
  rw [headers_foldl lib (headerValue lib)]
  have := headers_foldl lib id r.DefaultHeaders h key
  simp only [id] at this
  rw [this]

theorem newRequest_header (lib : HttpLib) (jlib : JsonLib) (tc : TestCase) (method url : String)
    (req : Request) (h : newRequest lib jlib tc method url = .ok (some req)) :
    req.Method = method ∧ req.Url = url ∧ req.Header = GoMap.empty := by
  unfold newRequest at h
  split at h
  · split at h
    · cases h
    · split at h
      · cases h
      · cases h
        exact ⟨rfl, rfl, rfl⟩
  · split at h
    · cases h
    · cases h
      exact ⟨rfl, rfl, rfl⟩

theorem sentRequests_verifyResponse (lib : HttpLib) (jlib : JsonLib) (tc : TestCase)
    (resp : HttpResponse) (body : List UInt8) :
    sentRequests (verifyResponse lib jlib tc resp body) = [] := by
  unfold verifyResponse
  split
  · rfl
  · split
    · rfl
    · split <;> rfl

theorem runTest_sends {W : Type} (lib : HttpLib) (jlib : JsonLib) (r : httpRunner W)
    (tc : TestCase) (method path : String) (w : W) (url : String) (req0 : Request)
    (hurl : tc.Url lib (r.BaseUrl ++ path) = .ok url)
    (hreq : newRequest lib jlib tc method url = .ok (some req0)) :
    ∃ w1 events, r.runTest lib jlib tc method path w = some (w1, events) ∧
      sentRequests events =
        [some { req0 with Header := requestHeaders lib r tc req0.Header }] := by
  unfold httpRunner.runTest
  simp only [hurl, hreq, setHeaders]
  generalize r.HttpClient w (some { req0 with Header := requestHeaders lib r tc req0.Header })
    = s
  obtain ⟨w1, resp, err⟩ := s
  cases resp with
  | none =>
    cases err with
    | some e => exact ⟨_, _, rfl, rfl⟩
    | none => exact ⟨_, _, rfl, rfl⟩
  | some resp =>
    cases err with
    | some e => exact ⟨_, _, rfl, rfl⟩
    | none =>
      simp only
      cases hb : resp.Body with
      | none =>
        refine ⟨_, _, rfl, ?_⟩
        simp only [sentRequests, List.filterMap_cons, Event.sent]
        exact congrArg _ (sentRequests_verifyResponse lib jlib tc resp [])
      | some b =>
        cases b with
        | error e => exact ⟨_, _, rfl, rfl⟩
        | ok body =>
          refine ⟨_, _, rfl, ?_⟩
          simp only [sentRequests, List.filterMap_cons, Event.sent]
          exact congrArg _ (sentRequests_verifyResponse lib jlib tc resp body)

/-- C16: when `runTest` has built a request for a test case, it hands the
client exactly one request, whose header holds under every key the value of
the last header of the test case whose name has that canonical form (a string
as it is, any other value as `fmt` prints it), or, when the test case has no
such header, the value of the last default header whose name has that
canonical form, and nothing when there is none. So a name of the test case's
Headers carries the value of the test case whether or not the defaults set it,
and a name that only the defaults set carries the default value. -/
theorem request_headers_override_defaults {W : Type} (lib : HttpLib) (jlib : JsonLib)
    (r : httpRunner W) (tc : TestCase) (method path : String) (w : W) (url : String)
    (req0 : Request)
    (hurl : tc.Url lib (r.BaseUrl ++ path) = .ok url)
    (hreq : newRequest lib jlib tc method url = .ok (some req0)) :
    ∃ req w1 events, r.runTest lib jlib tc method path w = some (w1, events) ∧
      sentRequests events = [some req] ∧
      (∀ key, req.Header key =
        match lastHeader lib (headerValue lib) tc.Headers key with
        | some v => some v
        | none => lastHeader lib id r.DefaultHeaders key) ∧
      (∀ name param, (name, param) ∈ tc.Headers →
        (∀ e ∈ tc.Headers, lib.CanonicalKey e.1 = lib.CanonicalKey name → e.2 = param) →
        req.Header (lib.CanonicalKey name) = some [headerValue lib param] ∧
        headerGet lib req.Header name = headerValue lib param) ∧
      (∀ name value, (name, value) ∈ r.DefaultHeaders →
        (∀ e ∈ tc.Headers, lib.CanonicalKey e.1 ≠ lib.CanonicalKey name) →
        (∀ e ∈ r.DefaultHeaders, lib.CanonicalKey e.1 = lib.CanonicalKey name → e.2 = value) →
        req.Header (lib.CanonicalKey name) = some [value] ∧
        headerGet lib req.Header name = value) := by
  obtain ⟨w1, events, hrun, hsent⟩ := runTest_sends lib jlib r tc method path w url req0 hurl hreq
  have hkey : ∀ key,
      ({ req0 with Header := requestHeaders lib r tc req0.Header } : Request).Header key =
        match lastHeader lib (headerValue lib) tc.Headers key with
        | some v => some v
        | none => lastHeader lib id r.DefaultHeaders key := by
    intro key
    simp only [requestHeaders_apply, (newRequest_header lib jlib tc method url req0 hreq).2.2]
    cases lastHeader lib (headerValue lib) tc.Headers key with
    | some v => rfl
    | none =>
      simp only
      cases lastHeader lib id r.DefaultHeaders key <;> rfl
  refine ⟨_, w1, events, hrun, hsent, hkey, ?_, ?_⟩
  · intro name param hmem hall
    have hl : lastHeader lib (headerValue lib) tc.Headers (lib.CanonicalKey name) =
        some [headerValue lib param] := by
      apply lastWrite_eq (headerWrite lib (headerValue lib)) _ tc.Headers (name, param) _ hmem
      · simp [headerWrite]
      · intro y hy v1 hw
        simp only [headerWrite] at hw
        split at hw
        · rename_i hc
          cases hw
          rw [hall y hy hc]
        · cases hw
    have hv := hkey (lib.CanonicalKey name)
    rw [hl] at hv
    refine ⟨hv, ?_⟩
    unfold headerGet
    rw [hv]
  · intro name value hmem hnone hall
    have hn : lastHeader lib (headerValue lib) tc.Headers (lib.CanonicalKey name) = none := by
      apply lastWrite_none
      intro x hx
      simp only [headerWrite]
      rw [if_neg (hnone x hx)]
    have hl : lastHeader lib id r.DefaultHeaders (lib.CanonicalKey name) = some [value] := by
      apply lastWrite_eq (headerWrite lib id) _ r.DefaultHeaders (name, value) _ hmem
      · simp [headerWrite]
      · intro y hy v1 hw
        simp only [headerWrite] at hw
        split at hw
        · rename_i hc
          cases hw
          rw [id, hall y hy hc]
        · cases hw
    have hv := hkey (lib.CanonicalKey name)
    rw [hn, hl] at hv
    refine ⟨hv, ?_⟩
    unfold headerGet
    rw [hv]

theorem request_headers_override_defaults_witness :
    ∃ req w1 events,
      sampleRunner.runTest sampleHttpLib sampleJsonLib sampleHeaderCase "GET" "/hello" 0 =
        some (w1, events) ∧
      sentRequests events = [some req] ∧
      req.Header "Content-Type" = some ["application/json"] ∧
      req.Header "X-Verbose" = some ["true"] ∧
      req.Header "Accept" = some ["*/*"] ∧
      req.Header "content-type" = none := by
  obtain ⟨req, w1, events, hrun, hsent, hkey, -, -⟩ :=
    request_headers_override_defaults sampleHttpLib sampleJsonLib sampleRunner sampleHeaderCase
      "GET" "/hello" 0 "http://localhost/hello"
      { Method := "GET", Url := "http://localhost/hello" } rfl rfl
  refine ⟨req, w1, events, hrun, hsent, ?_, ?_, ?_, ?_⟩
  · rw [hkey]; rfl
  · rw [hkey]; rfl
  · rw [hkey]; rfl
  · rw [hkey]; rfl

/-! ## The runner: the checks of a response -/

theorem expectedHeadersMatch_iff (lib : HttpLib) (resp : HttpResponse) :
    ∀ L : List (String × String),
      expectedHeadersMatch lib resp L = true ↔
        ∀ e ∈ L, e.2 = headerGet lib resp.Header e.1 := by
  intro L
  induction L with
  | nil => simp [expectedHeadersMatch]
  | cons x rest ih =>
    obtain ⟨header, value⟩ := x
    simp only [expectedHeadersMatch, List.mem_cons, forall_eq_or_imp]
    by_cases hv : value = headerGet lib resp.Header header
    · simp only [ne_eq, hv, not_true_eq_false, if_false, true_and]
      exact ih
    · simp [hv]

theorem assertions_verifyResponse (lib : HttpLib) (jlib : JsonLib) (tc : TestCase)
    (resp : HttpResponse) (body : List UInt8) :
    (tc.ExpectedHttpCode = resp.StatusCode ∧
        (∀ e ∈ tc.ExpectedHeaders.getD [], e.2 = headerGet lib resp.Header e.1) →
      assertions (verifyResponse lib jlib tc resp body) =
        [match tc.AssertResponse with
          | some assertResponse =>
            (true, tc.ExpectedData, body, assertResponse tc.ExpectedData body)
          | none => (false, tc.ExpectedData, body, AssertResponse jlib tc.ExpectedData body)]) ∧
    (¬ (tc.ExpectedHttpCode = resp.StatusCode ∧
        (∀ e ∈ tc.ExpectedHeaders.getD [], e.2 = headerGet lib resp.Header e.1)) →
      assertions (verifyResponse lib jlib tc resp body) = []) := by
  rw [← expectedHeadersMatch_iff]
  unfold verifyResponse
  by_cases hc : tc.ExpectedHttpCode = resp.StatusCode
  · by_cases hh : expectedHeadersMatch lib resp (tc.ExpectedHeaders.getD []) = true
    · simp only [ne_eq, hc, not_true_eq_false, if_false, hh]
      refine ⟨fun _ => ?_, fun h => absurd ⟨trivial, trivial⟩ h⟩
      cases tc.AssertResponse <;> rfl
    · simp only [ne_eq, hc, not_true_eq_false, if_false, hh, if_true]
      exact ⟨fun h => absurd h.2 (by simp), fun _ => rfl⟩
  · simp only [ne_eq, hc, not_false_eq_true, if_true]
    exact ⟨fun h => absurd h.1 (by simp), fun _ => rfl⟩

/-- C15: when `runTest` has built and sent the request of a test case, the
client returned a response and no error, and the body of the response was
read, the events of the call hold a call of a body assertion exactly when the
status code of the response equals ExpectedHttpCode and every entry of
ExpectedHeaders equals what `Get` returns for its name on the header of the
response. There is then one call, with ExpectedData and the bytes read: of the
AssertResponse of the test case when it has one, and of the function
AssertResponse otherwise. -/
theorem body_assertion_after_status_and_headers {W : Type} (lib : HttpLib) (jlib : JsonLib)
    (r : httpRunner W) (tc : TestCase) (method path : String) (w : W) (url : String)
    (req0 req : Option Request) (resp : HttpResponse) (body : List UInt8)
    (hurl : tc.Url lib (r.BaseUrl ++ path) = .ok url)
    (hreq : newRequest lib jlib tc method url = .ok req0)
    (hset : setHeaders lib r tc req0 = some req)
    (hdo : (r.HttpClient w req).2 = (some resp, none))
    (hbody : bodyRead resp = some body) :
    ∃ w1 events, r.runTest lib jlib tc method path w = some (w1, events) ∧
      (tc.ExpectedHttpCode = resp.StatusCode ∧
          (∀ e ∈ tc.ExpectedHeaders.getD [], e.2 = headerGet lib resp.Header e.1) →
        assertions events =
          [match tc.AssertResponse with
            | some assertResponse =>
              (true, tc.ExpectedData, body, assertResponse tc.ExpectedData body)
            | none =>
              (false, tc.ExpectedData, body, AssertResponse jlib tc.ExpectedData body)]) ∧
      (¬ (tc.ExpectedHttpCode = resp.StatusCode ∧
          (∀ e ∈ tc.ExpectedHeaders.getD [], e.2 = headerGet lib resp.Header e.1)) →
        assertions events = []) := by
  have hv := assertions_verifyResponse lib jlib tc resp body
  unfold httpRunner.runTest
  simp only [hurl, hreq, hset, hdo]
  unfold bodyRead at hbody
  cases hb : resp.Body with
  | none =>
    rw [hb] at hbody
    cases hbody
    exact ⟨_, _, rfl, hv⟩
  | some b =>
    rw [hb] at hbody
    cases b with
    | error e => cases hbody
    | ok bytes =>
      cases hbody
      exact ⟨_, _, rfl, hv⟩

theorem body_assertion_after_status_and_headers_witness :
    ∃ w1 events,
      sampleRunner.runTest sampleHttpLib sampleJsonLib sampleHeaderCase "GET" "/hello" 0 =
        some (w1, events) ∧
      assertions events = [(false, GoValue.string "Hello World!", [1], true)] := by
  obtain ⟨w1, events, hrun, hyes, -⟩ :=
    body_assertion_after_status_and_headers sampleHttpLib sampleJsonLib sampleRunner
      sampleHeaderCase "GET" "/hello" 0 "http://localhost/hello"
      (some { Method := "GET", Url := "http://localhost/hello" })
      (some { Method := "GET", Url := "http://localhost/hello",
              Header := requestHeaders sampleHttpLib sampleRunner sampleHeaderCase GoMap.empty })
      { StatusCode := 200,
        Header := Function.update GoMap.empty "Content-Type" (some ["application/json"]),
        Body := some (.ok [1]) }
      [1] rfl rfl rfl rfl rfl
  refine ⟨w1, events, hrun, ?_⟩
  rw [hyes ⟨rfl, by
    intro e he
    simp only [sampleHeaderCase, Option.getD_some, List.mem_singleton] at he
    subst he
    rfl⟩]
  rfl

/-! ## The runner: the loop over the tests -/

theorem runTests_append {W : Type} (lib : HttpLib) (jlib : JsonLib) (r : httpRunner W) :
    ∀ (pre rest : List (RunnerTest W)) (i : Nat) (w : W),
      r.runTests lib jlib i (pre ++ rest) w =
        match r.runTests lib jlib i pre w with
        | none => none
        | some (w0, before) =>
          (r.runTests lib jlib (i + pre.length) rest w0).map
            (fun res => (res.1, before ++ res.2)) := by
  intro pre
  induction pre with
  | nil =>
    intro rest i w
    simp only [List.nil_append, httpRunner.runTests, List.length_nil, Nat.add_zero]
    cases r.runTests lib jlib i rest w with
    | none => rfl
    | some res => simp
  | cons t pre ih =>
    intro rest i w
    simp only [List.cons_append, httpRunner.runTests, List.length_cons]
    cases r.runOne lib jlib i t w with
    | none => rfl
    | some a =>
      obtain ⟨w1, ev⟩ := a
      simp only [List.append_eq]
      rw [ih rest (i + 1) w1]
      cases r.runTests lib jlib (i + 1) pre w1 with
      | none => rfl
      | some b =>
        obtain ⟨w2, ev2⟩ := b
        simp only
        have hi : i + 1 + pre.length = i + (pre.length + 1) := by omega
        rw [hi]
        cases r.runTests lib jlib (i + (pre.length + 1)) rest w2 with
        | none => rfl
        | some c => simp [List.append_assoc]

/-- C13: when the tests before a test have run, and `SetUp` of the test
returns an error, `Run` logs the setup, calls `SetUp`, reports the error with
`t.Errorf`, and does nothing else for the test: no test case is run and
`TearDown` is not called. It then runs the loop over the tests after it,
from the world that `SetUp` left. -/
theorem failed_setup_skips_test {W : Type} (lib : HttpLib) (jlib : JsonLib) (r : httpRunner W)
    (pre : List (RunnerTest W)) (test : RunnerTest W) (post : List (RunnerTest W))
    (w w0 : W) (before : List Event) (setUp : W → W × Option String) (err : String)
    (hpre : r.runTests lib jlib 0 pre w = some (w0, before))
    (hs : test.SetUp = some setUp) (herr : (setUp w0).2 = some err) :
    r.Run lib jlib (pre ++ test :: post) w =
      (r.runTests lib jlib (pre.length + 1) post (setUp w0).1).map
        (fun res => (res.1, before ++
          [Event.logf ("setting up test '" ++ extractTestName test ++ "'(" ++
              test.test.Description ++ ")..."),
            Event.setUp pre.length (some err),
            Event.errorf ("error setting up test '" ++ extractTestName test ++ "'(" ++
              test.test.Description ++ "): " ++ err)] ++ res.2)) := by
  unfold httpRunner.Run
  rw [runTests_append, hpre]
  simp only [Nat.zero_add, httpRunner.runTests, httpRunner.runOne, hs, herr]
  cases r.runTests lib jlib (pre.length + 1) post (setUp w0).1 with
  | none => rfl
  | some res => simp [List.append_assoc]

theorem failed_setup_skips_test_witness :
    (sampleRunner.Run sampleHttpLib sampleJsonLib
        ([sampleHelloRun] ++ sampleSetupFails :: [sampleHelloRun]) 0).map
      (fun res => (res.1, calls res.2)) =
      some (212, [Call.runTest 0 0, Call.tearDown 0, Call.setUp 1 true,
        Call.runTest 2 0, Call.tearDown 2]) := by
  rw [failed_setup_skips_test sampleHttpLib sampleJsonLib sampleRunner [sampleHelloRun]
    sampleSetupFails [sampleHelloRun] 0 101 _ (fun w => (w + 10, some "no database"))
    "no database" rfl rfl rfl]
  rfl

theorem calls_append (a b : List Event) : calls (a ++ b) = calls a ++ calls b := by
  simp [calls, List.filterMap_append]

theorem calls_verifyResponse (lib : HttpLib) (jlib : JsonLib) (tc : TestCase)
    (resp : HttpResponse) (body : List UInt8) :
    calls (verifyResponse lib jlib tc resp body) = [] := by
  unfold verifyResponse
  split
  · rfl
  · split
    · rfl
    · split <;> rfl

theorem runTest_calls {W : Type} (lib : HttpLib) (jlib : JsonLib) (r : httpRunner W)
    (tc : TestCase) (method path : String) (w w1 : W) (events : List Event)
    (h : r.runTest lib jlib tc method path w = some (w1, events)) : calls events = [] := by
  unfold httpRunner.runTest at h
  simp only at h
  split at h
  · cases h; rfl
  · split at h
    · cases h; rfl
    · split at h
      · cases h
      · split at h
        · cases h; rfl
        · cases h; rfl
        · split at h
          · cases h; rfl
          · cases h
            exact calls_verifyResponse _ _ _ _ _
          · cases h
            exact calls_verifyResponse _ _ _ _ _

theorem runCases_calls {W : Type} (lib : HttpLib) (jlib : JsonLib) (r : httpRunner W)
    (i : Nat) (name method path : String) :
    ∀ (cases : List TestCase) (j : Nat) (w w1 : W) (events : List Event),
      r.runCases lib jlib i name method path cases j w = some (w1, events) →
      calls events = caseCalls i j cases := by
  intro cases
  induction cases with
  | nil =>
    intro j w w1 events h
    simp only [httpRunner.runCases] at h
    cases h
    rfl
  | cons tc rest ih =>
    intro j w w1 events h
    simp only [httpRunner.runCases] at h
    cases h1 : r.runTest lib jlib tc method path w with
    | none => rw [h1] at h; cases h
    | some a =>
      obtain ⟨wa, ea⟩ := a
      rw [h1] at h
      simp only at h
      cases h2 : r.runCases lib jlib i name method path rest (j + 1) wa with
      | none => rw [h2] at h; cases h
      | some b =>
        obtain ⟨wb, eb⟩ := b
        rw [h2] at h
        cases h
        rw [calls_append, calls_append, runTest_calls lib jlib r tc method path w wa ea h1,
          ih (j + 1) wa w1 eb h2]
        rfl

theorem runBody_calls {W : Type} (lib : HttpLib) (jlib : JsonLib) (r : httpRunner W)
    (i : Nat) (test : RunnerTest W) (w w1 : W) (events : List Event)
    (h : r.runBody lib jlib i test w = some (w1, events)) :
    calls events = bodyCalls i test := by
  unfold httpRunner.runBody at h
  simp only at h
  cases h1 : r.runCases lib jlib i (extractTestName test) test.test.Method test.test.Path
      test.test.TestCases 0 w with
  | none => rw [h1] at h; cases h
  | some a =>
    obtain ⟨wa, ea⟩ := a
    rw [h1] at h
    have hc := runCases_calls lib jlib r i _ _ _ _ 0 w wa ea h1
    unfold bodyCalls
    cases ht : test.TearDown with
    | none =>
      rw [ht] at h
      cases h
      rw [hc, List.append_nil]
    | some tearDown =>
      rw [ht] at h
      cases h
      rw [calls_append, calls_append, hc]
      cases (tearDown wa).2 <;> simp [calls, Event.call]

theorem runOne_calls {W : Type} (lib : HttpLib) (jlib : JsonLib) (r : httpRunner W)
    (i : Nat) (test : RunnerTest W) (w w1 : W) (events : List Event)
    (h : r.runOne lib jlib i test w = some (w1, events)) :
    ∃ failed, calls events = testCalls i test failed := by
  unfold httpRunner.runOne at h
  unfold testCalls
  cases hs : test.SetUp with
  | none =>
    rw [hs] at h
    exact ⟨false, runBody_calls lib jlib r i test w w1 events h⟩
  | some setUp =>
    rw [hs] at h
    simp only at h
    cases he : (setUp w).2 with
    | some err =>
      rw [he] at h
      cases h
      exact ⟨true, rfl⟩
    | none =>
      rw [he] at h
      simp only at h
      cases hb : r.runBody lib jlib i test (setUp w).1 with
      | none => rw [hb] at h; cases h
      | some a =>
        obtain ⟨wa, ea⟩ := a
        rw [hb] at h
        have hcb := runBody_calls lib jlib r i test _ wa ea hb
        cases h
        refine ⟨false, ?_⟩
        rw [calls_append, hcb]
        rfl

/-- When `Run` returns, the calls it made are the calls for each test, the
tests in the order of the list: `SetUp` if the test has it, and, unless it
returned an error, one call of `runTest` for each test case in declaration
order and then `TearDown` if the test has it. -/
theorem run_calls_when_it_returns {W : Type} (lib : HttpLib) (jlib : JsonLib)
    (r : httpRunner W) :
    ∀ (tests : List (RunnerTest W)) (i : Nat) (w w1 : W) (events : List Event),
      r.runTests lib jlib i tests w = some (w1, events) → CallsOf i tests (calls events) := by
  intro tests
  induction tests with
  | nil =>
    intro i w w1 events h
    simp only [httpRunner.runTests] at h
    cases h
    rfl
  | cons t rest ih =>
    intro i w w1 events h
    simp only [httpRunner.runTests] at h
    cases h1 : r.runOne lib jlib i t w with
    | none => rw [h1] at h; cases h
    | some a =>
      obtain ⟨wa, ea⟩ := a
      rw [h1] at h
      simp only at h
      cases h2 : r.runTests lib jlib (i + 1) rest wa with
      | none => rw [h2] at h; cases h
      | some b =>
        obtain ⟨wb, eb⟩ := b
        rw [h2] at h
        cases h
        obtain ⟨failed, hf⟩ := runOne_calls lib jlib r i t w wa ea h1
        exact ⟨failed, calls eb, by rw [calls_append, hf], ih (i + 1) wa w1 eb h2⟩

/-- C14: on a runner with a default header, `Run` of a test whose method
`http.NewRequest` rejects and whose test case has a request body, followed by
the test `sampleHelloRun`, panics in `runTest` of the first test case: the
teardown of the first test is not called and the second test is not run. -/
theorem run_stops_at_lost_request_error :
    sampleRunner.Run sampleHttpLib sampleJsonLib [sampleBadMethod, sampleHelloRun] 0 = none ∧
    (sampleRunner.Run sampleHttpLib sampleJsonLib [sampleHelloRun] 0).map
      (fun res => calls res.2) = some [Call.runTest 0 0, Call.tearDown 0] ∧
    newRequest sampleHttpLib sampleJsonLib
      { Description := "Greeting with a body", RequestBody := GoValue.string "Hello",
        ExpectedHttpCode := 200 } "GE T" "http://localhost/hello" = .ok none ∧
    newRequest sampleHttpLib sampleJsonLib
      { Description := "Greeting without a body", ExpectedHttpCode := 200 }
      "GE T" "http://localhost/hello" = .error "could not create HTTP request" :=
  ⟨rfl, rfl, rfl, rfl⟩

/-! ## The URL of a test case -/

/-- The method `TestCase.Url` returns an error exactly when the expansion of
the template by go-sawyer returns one, and it returns that error: the method
makes no check of its own on the placeholders of the template. -/
theorem url_error_is_expand_error (lib : HttpLib) (tc : TestCase) (urlpath err : String) :
    tc.Url lib urlpath = .error err ↔
      lib.Expand urlpath (tc.PathParams.map (fun e => (e.1, e.2.Value))) = .error err := by
  unfold TestCase.Url
  simp only
  cases lib.Expand urlpath (tc.PathParams.map (fun e => (e.1, e.2.Value))) with
  | error e => simp
  | ok u =>
    simp only
    split <;> simp

/-! ## The RAML type of a value -/

theorem resolveRamlType_ptr (target : GoValue) :
    resolveRamlType (.ptr target) = resolveRamlType target := by
  cases target <;> simp [resolveRamlType]

/-- C21: what `resolveRamlType` returns: "string" for a `[]byte`, "date" for a
`time.Time` and for a pointer to one, nil or not, "integer" for the signed and
unsigned integers of every width, "number" for both floats, "boolean" for a
bool, "string" for a string, for a non-nil pointer what it returns for the
value pointed to, for a value of a defined type what the kind of its
underlying value gives, and the empty string for the kinds that the switch
does not list. For the nil interface value and for a nil pointer to anything
but a `time.Time` it returns nothing: the call panics, and with it `Generate`
for a test that declares a parameter without a value. -/
theorem resolve_raml_type_table :
    (∀ b, resolveRamlType (.bytes b) = some "string") ∧
    (∀ t, resolveRamlType (.time t) = some "date") ∧
    (∀ t, resolveRamlType (.ptr (.time t)) = some "date") ∧
    resolveRamlType (.nilPtr "time.Time") = some "date" ∧
    (∀ w v, resolveRamlType (.int w v) = some "integer") ∧
    (∀ w v, resolveRamlType (.uint w v) = some "integer") ∧
    (∀ v, resolveRamlType (.float32 v) = some "number") ∧
    (∀ v, resolveRamlType (.float64 v) = some "number") ∧
    (∀ b, resolveRamlType (.bool b) = some "boolean") ∧
    (∀ s, resolveRamlType (.string s) = some "string") ∧
    (∀ target, resolveRamlType (.ptr target) = resolveRamlType target) ∧
    (∀ n underlying, resolveRamlType (.named n underlying) = resolveRamlKind underlying) ∧
    (∀ n repr, resolveRamlType (.other n repr) = some "") ∧
    resolveRamlType GoValue.nil = none ∧
    resolveRamlType (.nilPtr "int") = none ∧
    resolveRamlType (.ptr (.nilPtr "int")) = none ∧
    (ramlGenerator.Generate sampleExtern (probeYaml "/events") (NewRamlGenerator {})
      [sampleNilParam]).2 = none ∧
    (∃ err, (swaggerGenerator.Generate sampleExtern
      (NewSwaggerGenerator {} (probeMarshaller "/events")) [sampleNilParam]).2 =
        (none, some err)) := by
  refine ⟨fun _ => rfl, fun _ => rfl, fun _ => rfl, by decide, fun _ _ => rfl, fun _ _ => rfl,
    fun _ => rfl, fun _ => rfl, fun _ => rfl, fun _ => rfl, resolveRamlType_ptr, ?_,
    fun _ _ => rfl, rfl, by decide, by decide, rfl, ⟨_, rfl⟩⟩
  intro n underlying
  simp [resolveRamlType]

/-! ## The first declaration of a parameter wins in a Swagger operation -/

theorem declaredAt_append (loc : String) (a b : List TestCase) :
    declaredAt loc (a ++ b) = declaredAt loc a ++ declaredAt loc b := by
  induction a with
  | nil => rfl
  | cons tc rest ih =>
    rw [List.cons_append]
    simp only [declaredAt]
    rw [ih, List.append_assoc]

theorem declaredAt_single (loc : String) (tc : TestCase) :
    declaredAt loc [tc] = if tc.is2xx then tc.paramsAt loc else [] := by
  simp only [declaredAt, List.append_nil]

theorem generateSwaggerSpecParam_type {key : String} {param : Param} {loc : String}
    {sp : Parameter} (h : generateSwaggerSpecParam key param loc = .ok sp) :
    generateSpecSimpleType param.Value = .ok sp.Type_ := by
  unfold generateSwaggerSpecParam at h
  split at h
  · cases h
  · rename_i t ht
    cases h
    exact ht

theorem collectSwaggerParams_origin (loc : String) (prep : Param → Param) :
    ∀ (entries : ParamMap) (processed : List String) (params : List Parameter)
      (processed1 : List String) (params1 : List Parameter),
      collectSwaggerParams loc prep entries processed params = .ok (processed1, params1) →
      ∀ p ∈ params1, p ∈ params ∨
        (p.In = loc ∧ p.Name ∉ processed ∧ ∃ param, firstParam entries p.Name = some param ∧
          generateSwaggerSpecParam p.Name (prep param) loc = .ok p) := by
  intro entries
  induction entries with
  | nil =>
    intro processed params processed1 params1 h p hp
    simp only [collectSwaggerParams, Except.ok.injEq, Prod.mk.injEq] at h
    rw [← h.2] at hp
    exact Or.inl hp
  | cons e rest ih =>
    obtain ⟨key, prm⟩ := e
    intro processed params processed1 params1 h p hp
    unfold collectSwaggerParams at h
    by_cases hk : key ∈ processed
    · rw [if_pos hk] at h
      rcases ih processed params processed1 params1 h p hp with h1 | ⟨hin, hn, param, hf, hg⟩
      · exact Or.inl h1
      · refine Or.inr ⟨hin, hn, param, ?_, hg⟩
        have hne : key ≠ p.Name := fun he => hn (he ▸ hk)
        simp only [firstParam, if_neg hne]
        exact hf
    · rw [if_neg hk] at h
      cases hg : generateSwaggerSpecParam key (prep prm) loc with
      | error err => rw [hg] at h; cases h
      | ok sp =>
        rw [hg] at h
        simp only at h
        obtain ⟨hin, hname⟩ := generateSwaggerSpecParam_ok hg
        rcases ih (key :: processed) (params ++ [sp]) processed1 params1 h p hp with
          h1 | ⟨hpin, hn, param, hf, hgp⟩
        · rw [List.mem_append, List.mem_singleton] at h1
          rcases h1 with h1 | rfl
          · exact Or.inl h1
          · refine Or.inr ⟨hin, hname ▸ hk, prm, ?_, ?_⟩
            · simp [firstParam, hname]
            · rw [hname]
              exact hg
        · rw [List.mem_cons, not_or] at hn
          refine Or.inr ⟨hpin, hn.2, param, ?_, hgp⟩
          have hne : key ≠ p.Name := fun he => hn.1 he.symm
          simp only [firstParam, if_neg hne]
          exact hf

theorem origin_mono {done : List TestCase} {p : Parameter} (more : List TestCase)
    (h : Origin done p) : Origin (done ++ more) p := by
  rcases h with h | ⟨hl, param, hf, hg⟩
  · exact Or.inl h
  · refine Or.inr ⟨hl, param, ?_, hg⟩
    rw [declaredAt_append, firstParam_append, hf]

theorem origin_new {done : List TestCase} {tc : TestCase} {p : Parameter} {loc : String}
    {processed : List String} {prep : Param → Param} (h2 : tc.is2xx)
    (hloc : loc = "header" ∨ loc = "path" ∨ loc = "query")
    (hprep : ∀ param, prep param = prepAt loc param)
    (hdone : ∀ k, k ∈ processed ↔ k ∈ (declaredAt loc done).map Prod.fst)
    (h : p.In = loc ∧ p.Name ∉ processed ∧ ∃ param,
      firstParam (tc.paramsAt loc) p.Name = some param ∧
        generateSwaggerSpecParam p.Name (prep param) loc = .ok p) :
    Origin (done ++ [tc]) p := by
  obtain ⟨hin, hn, param, hf, hg⟩ := h
  refine Or.inr ⟨hin ▸ hloc, param, ?_, ?_⟩
  · rw [hin, declaredAt_append, firstParam_append, declaredAt_single, if_pos h2]
    have : firstParam (declaredAt loc done) p.Name = none :=
      (firstParam_none_iff _ _).2 (fun hk => hn ((hdone _).2 hk))
    rw [this]
    exact hf
  · rw [hin, ← hprep]
    exact hg

theorem keys_declaredAt_snoc (loc : String) (done : List TestCase) (tc : TestCase)
    (before after : List String)
    (hb : ∀ k, k ∈ before ↔ k ∈ (declaredAt loc done).map Prod.fst)
    (ha : ∀ k, k ∈ after ↔ k ∈ before ∨
      k ∈ ((if tc.is2xx then tc.paramsAt loc else []) : ParamMap).map Prod.fst) :
    ∀ k, k ∈ after ↔ k ∈ (declaredAt loc (done ++ [tc])).map Prod.fst := by
  intro k
  rw [ha, hb, declaredAt_append, declaredAt_single, List.map_append, List.mem_append]

theorem swaggerCollect_first (ext : Extern) {st st1 : swaggerOpState} {done : List TestCase}
    {tc : TestCase} (h2 : tc.is2xx) (hinv : FirstInv st done)
    (h : swaggerCollect ext st tc = .ok st1) :
    ∀ p ∈ st1.Parameters, Origin (done ++ [tc]) p := by
  unfold swaggerCollect at h
  cases hc1 : collectSwaggerParams "header" id tc.Headers st.processedHeaderParams
      st.Parameters with
  | error err => rw [hc1] at h; cases h
  | ok r1 =>
    obtain ⟨ph, params1⟩ := r1
    rw [hc1] at h
    simp only at h
    cases hc2 : collectSwaggerParams "path" (fun p => { p with Required := true })
        tc.PathParams st.processedPathParams params1 with
    | error err => rw [hc2] at h; cases h
    | ok r2 =>
      obtain ⟨pp, params2⟩ := r2
      rw [hc2] at h
      simp only at h
      cases hc3 : collectSwaggerParams "query" id tc.QueryParams st.processedQueryParams
          params2 with
      | error err => rw [hc3] at h; cases h
      | ok r3 =>
        obtain ⟨pq, params3⟩ := r3
        rw [hc3] at h
        simp only at h
        have o1 := collectSwaggerParams_origin "header" id _ _ _ _ _ hc1
        have o2 := collectSwaggerParams_origin "path" (fun p => { p with Required := true })
          _ _ _ _ _ hc2
        have o3 := collectSwaggerParams_origin "query" id _ _ _ _ _ hc3
        have h3 : ∀ p ∈ params3, Origin (done ++ [tc]) p := by
          intro p hp
          rcases o3 p hp with hp2 | hnew
          · rcases o2 p hp2 with hp1 | hnew
            · rcases o1 p hp1 with hp0 | hnew
              · exact origin_mono [tc] (hinv.origin p hp0)
              · exact origin_new h2 (Or.inl rfl) (fun _ => rfl) hinv.header hnew
            · exact origin_new h2 (Or.inr (Or.inl rfl)) (fun _ => rfl) hinv.path hnew
          · exact origin_new h2 (Or.inr (Or.inr rfl)) (fun _ => rfl) hinv.query hnew
        by_cases hb : tc.RequestBody ≠ GoValue.nil
        · rw [if_pos hb] at h
          cases h
          intro p hp
          simp only [List.mem_append, List.mem_singleton] at hp
          rcases hp with hp | rfl
          · exact h3 p hp
          · exact Or.inl rfl
        · rw [if_neg hb] at h
          cases h
          exact h3

theorem swaggerCase_first (ext : Extern) {st st1 : swaggerOpState} {done : List TestCase}
    {tc : TestCase} (hinv : FirstInv st done) (h : swaggerCase ext st tc = .ok st1) :
    FirstInv st1 (done ++ [tc]) := by
  have hres := swaggerCase_result ext st tc
  rw [h] at hres
  obtain ⟨-, gh, gp, gq⟩ := hres
  refine ⟨keys_declaredAt_snoc "header" done tc _ _ hinv.header gh,
    keys_declaredAt_snoc "path" done tc _ _ hinv.path gp,
    keys_declaredAt_snoc "query" done tc _ _ hinv.query gq, ?_⟩
  unfold swaggerCase at h
  by_cases h2xx : 200 ≤ tc.ExpectedHttpCode ∧ tc.ExpectedHttpCode < 300
  · rw [if_pos h2xx] at h
    cases hc : swaggerCollect ext st tc with
    | error err => rw [hc] at h; cases h
    | ok st2 =>
      rw [hc] at h
      have hfirst := swaggerCollect_first ext h2xx hinv hc
      cases h
      exact hfirst
  · rw [if_neg h2xx] at h
    cases h
    exact fun p hp => origin_mono [tc] (hinv.origin p hp)

theorem swaggerCases_first (ext : Extern) :
    ∀ (cases done : List TestCase) (st st1 : swaggerOpState), FirstInv st done →
      swaggerCases ext cases st = .ok st1 → FirstInv st1 (done ++ cases) := by
  intro cases
  induction cases with
  | nil =>
    intro done st st1 hinv h
    simp only [swaggerCases, Except.ok.injEq] at h
    subst h
    simpa using hinv
  | cons tc rest ih =>
    intro done st st1 hinv h
    unfold swaggerCases at h
    cases hc : swaggerCase ext st tc with
    | error err => rw [hc] at h; cases h
    | ok st2 =>
      rw [hc] at h
      have := ih (done ++ [tc]) st2 st1 (swaggerCase_first ext hinv hc) h
      simpa using this

theorem firstParam_declaredAt (loc name : String) (param : Param) :
    ∀ cases : List TestCase, firstParam (declaredAt loc cases) name = some param →
      ∃ pre tc post, cases = pre ++ tc :: post ∧ tc.is2xx ∧
        (∀ earlier ∈ pre, earlier.is2xx → name ∉ (earlier.paramsAt loc).map Prod.fst) ∧
        firstParam (tc.paramsAt loc) name = some param := by
  intro cases
  induction cases with
  | nil => intro h; cases h
  | cons tc rest ih =>
    intro h
    simp only [declaredAt] at h
    rw [firstParam_append] at h
    by_cases h2 : tc.is2xx
    · rw [if_pos h2] at h
      cases hf : firstParam (tc.paramsAt loc) name with
      | some found =>
        rw [hf] at h
        cases h
        exact ⟨[], tc, rest, rfl, h2, fun _ he => absurd he (List.not_mem_nil _), hf⟩
      | none =>
        rw [hf] at h
        obtain ⟨pre, tc1, post, hc, h21, hpre, hf1⟩ := ih h
        refine ⟨tc :: pre, tc1, post, by rw [hc]; rfl, h21, ?_, hf1⟩
        intro earlier he
        rw [List.mem_cons] at he
        rcases he with rfl | he
        · exact fun _ => (firstParam_none_iff _ _).1 hf
        · exact hpre earlier he
    · rw [if_neg h2] at h
      obtain ⟨pre, tc1, post, hc, h21, hpre, hf1⟩ := ih h
      refine ⟨tc :: pre, tc1, post, by rw [hc]; rfl, h21, ?_, hf1⟩
      intro earlier he
      rw [List.mem_cons] at he
      rcases he with rfl | he
      · exact fun h => absurd h h2
      · exact hpre earlier he

theorem prepAt_fields (loc : String) (param : Param) :
    (prepAt loc param).Value = param.Value ∧
      (prepAt loc param).Description = param.Description := by
  unfold prepAt
  split <;> exact ⟨rfl, rfl⟩

/-- C22: in the operation that the Swagger generator builds for a test, the
header, path and query parameters are pairwise different as (location, name)
pairs, and each of them has the default value, the description and the type of
the entry that the first test case with a code in [200,300), in declaration
order, that declares its name at its location gives to the name: the
entries of the test cases after it have no part in it. -/
theorem swagger_parameters_first_wins (ext : Extern) (test : Test) (op : Operation)
    (ws : DefWrites) (h : generateSwaggerOperation ext test = .ok (op, ws)) :
    (simplePairs op.Parameters).Nodup ∧
    ∀ p ∈ op.Parameters, p.isSimple →
      ∃ pre tc post param, test.TestCases = pre ++ tc :: post ∧ tc.is2xx ∧
        (∀ earlier ∈ pre, earlier.is2xx → p.Name ∉ (earlier.paramsAt p.In).map Prod.fst) ∧
        firstParam (tc.paramsAt p.In) p.Name = some param ∧
        p.Default = param.Value ∧ p.Description = param.Description ∧
        generateSpecSimpleType param.Value = .ok p.Type_ := by
  obtain ⟨st, hst, -, hp, -, -⟩ := generateSwaggerOperation_ok h
  have hnodup := (swaggerCases_inv ext test.TestCases [] {} st swaggerInv_init hst).nodup
  have hinit : FirstInv {} [] :=
    ⟨fun _ => Iff.rfl, fun _ => Iff.rfl, fun _ => Iff.rfl,
      fun p hp => absurd hp (List.not_mem_nil p)⟩
  have hinv := swaggerCases_first ext test.TestCases [] {} st hinit hst
  rw [List.nil_append] at hinv
  rw [hp]
  refine ⟨hnodup, ?_⟩
  intro p hmem hsimple
  rcases hinv.origin p hmem with hbody | ⟨-, param, hf, hg⟩
  · exfalso
    unfold Parameter.isSimple at hsimple
    rw [hbody] at hsimple
    revert hsimple
    decide
  · obtain ⟨pre, tc, post, hc, h2, hpre, hf1⟩ := firstParam_declaredAt _ _ _ _ hf
    obtain ⟨-, hd, hv⟩ := generateSwaggerSpecParam_fields hg
    have ht := generateSwaggerSpecParam_type hg
    rw [(prepAt_fields p.In param).1] at hv ht
    rw [(prepAt_fields p.In param).2] at hd
    exact ⟨pre, tc, post, param, hc, h2, hpre, hf1, hv, hd, ht⟩

theorem swagger_parameters_first_wins_witness :
    (swaggerOperationOf sampleExtern sampleRedeclared).Parameters.map
        (fun p => (p.In, p.Name, p.Default, p.Description, p.Type_)) =
      [("path", "username", GoValue.string "octocat", "Login of the user", "string")] ∧
    ∃ pre tc post param, sampleRedeclared.TestCases = pre ++ tc :: post ∧ tc.is2xx ∧
      (∀ earlier ∈ pre, earlier.is2xx → "username" ∉ (earlier.paramsAt "path").map Prod.fst) ∧
      firstParam (tc.paramsAt "path") "username" = some param ∧
      GoValue.string "octocat" = param.Value ∧ "Login of the user" = param.Description ∧
      generateSpecSimpleType param.Value = .ok "string" :=
  ⟨by decide,
    (swagger_parameters_first_wins sampleExtern sampleRedeclared
      (swaggerOperationOf sampleExtern sampleRedeclared)
      (swaggerWritesOf sampleExtern sampleRedeclared) rfl).2
      { Name := "username", In := "path", Required := true,
        Description := "Login of the user", Default := GoValue.string "octocat",
        Type_ := "string" }
      (List.mem_singleton.2 rfl) (by decide)⟩

/-! ## The URI parameters of a RAML resource -/

theorem collectRamlParams_table :
    ∀ (entries : ParamMap) (processed : List String) (table table1 : GoMap String NamedParameter)
      (processed1 : List String),
      collectRamlParams entries processed table = (table1, some processed1) →
      (∀ k, k ∈ processed1 ↔ k ∈ processed ∨ k ∈ entries.map Prod.fst) ∧
      (∀ name, name ∈ processed → table1 name = table name) ∧
      (∀ name, name ∉ processed → table1 name =
        match firstParam entries name with
        | some param => generateRamlNamedParameter name param
        | none => table name) := by
  intro entries
  induction entries with
  | nil =>
    intro processed table table1 processed1 h
    simp only [collectRamlParams, Prod.mk.injEq, Option.some.injEq] at h
    obtain ⟨rfl, rfl⟩ := h
    exact ⟨by simp, fun _ _ => rfl, fun _ _ => rfl⟩
  | cons e rest ih =>
    obtain ⟨key, prm⟩ := e
    intro processed table table1 processed1 h
    unfold collectRamlParams at h
    by_cases hk : key ∈ processed
    · rw [if_pos hk] at h
      obtain ⟨h1, h2, h3⟩ := ih processed table table1 processed1 h
      refine ⟨?_, h2, ?_⟩
      · intro k
        rw [h1 k, List.map_cons, List.mem_cons]
        constructor
        · rintro (hp | hp)
          · exact Or.inl hp
          · exact Or.inr (Or.inr hp)
        · rintro (hp | hp | hp)
          · exact Or.inl hp
          · exact Or.inl (hp ▸ hk)
          · exact Or.inr hp
      · intro name hn
        have hne : key ≠ name := fun he => hn (he ▸ hk)
        rw [h3 name hn]
        simp only [firstParam, if_neg hne]
    · rw [if_neg hk] at h
      cases hg : generateRamlNamedParameter key prm with
      | none => rw [hg] at h; cases h
      | some np =>
        rw [hg] at h
        simp only at h
        obtain ⟨h1, h2, h3⟩ := ih (key :: processed) _ table1 processed1 h
        refine ⟨?_, ?_, ?_⟩
        · intro k
          rw [h1 k, List.map_cons, List.mem_cons, List.mem_cons]
          tauto
        · intro name hn
          have hne : name ≠ key := fun he => hk (he ▸ hn)
          rw [h2 name (List.mem_cons_of_mem _ hn), Function.update_noteq hne]
        · intro name hn
          by_cases hne : key = name
          · subst hne
            rw [h2 key (List.mem_cons_self _ _), Function.update_same]
            simp only [firstParam, if_true]
            exact hg.symm
          · have hn1 : name ∉ key :: processed := by
              rw [List.mem_cons, not_or]
              exact ⟨fun he => hne he.symm, hn⟩
            rw [h3 name hn1]
            simp only [firstParam, if_neg hne]
            rw [Function.update_noteq (fun he => hne he.symm)]

theorem ramlCase_path (ext : Extern) {uri uri1 : GoMap String NamedParameter}
    {st st1 : ramlOpState} {tc : TestCase} (h : ramlCase ext uri st tc = (uri1, some st1)) :
    collectRamlParams tc.PathParams st.processedPathParams uri =
      (uri1, some st1.processedPathParams) := by
  unfold ramlCase at h
  cases h1 : collectRamlParams tc.PathParams st.processedPathParams uri with
  | mk u r1 =>
    rw [h1] at h
    cases r1 with
    | none => simp at h
    | some pp =>
      simp only at h
      cases h2 : collectRamlParams tc.Headers st.processedHeaderParams st.m.Headers with
      | mk hd r2 =>
        rw [h2] at h
        cases r2 with
        | none => simp at h
        | some ph =>
          simp only at h
          cases h3 : collectRamlParams tc.QueryParams st.processedQueryParams
              st.m.QueryParameters with
          | mk qr r3 =>
            rw [h3] at h
            cases r3 with
            | none => simp at h
            | some pq =>
              simp only [Prod.mk.injEq, Option.some.injEq] at h
              obtain ⟨rfl, rfl⟩ := h
              rfl

theorem ramlCases_uri (ext : Extern) :
    ∀ (cases : List TestCase) (uri uri1 : GoMap String NamedParameter) (st st1 : ramlOpState),
      ramlCases ext cases uri st = (uri1, some st1) →
      (∀ name, name ∈ st.processedPathParams → uri1 name = uri name) ∧
      (∀ name, name ∉ st.processedPathParams → uri1 name =
        match firstParam (declaredPath cases) name with
        | some param => generateRamlNamedParameter name param
        | none => uri name) := by
  intro cases
  induction cases with
  | nil =>
    intro uri uri1 st st1 h
    simp only [ramlCases, Prod.mk.injEq, Option.some.injEq] at h
    obtain ⟨rfl, rfl⟩ := h
    exact ⟨fun _ _ => rfl, fun _ _ => rfl⟩
  | cons tc rest ih =>
    intro uri uri1 st st1 h
    unfold ramlCases at h
    cases hc : ramlCase ext uri st tc with
    | mk ua ra =>
      rw [hc] at h
      cases ra with
      | none => simp at h
      | some sa =>
        simp only at h
        obtain ⟨k1, k2, k3⟩ := collectRamlParams_table _ _ _ _ _ (ramlCase_path ext hc)
        obtain ⟨i1, i2⟩ := ih ua uri1 sa st1 h
        refine ⟨?_, ?_⟩
        · intro name hn
          rw [i1 name ((k1 name).2 (Or.inl hn)), k2 name hn]
        · intro name hn
          simp only [declaredPath]
          rw [firstParam_append]
          cases hf : firstParam tc.PathParams name with
          | some param =>
            have hkey : name ∈ tc.PathParams.map Prod.fst := by
              by_contra hc1
              rw [(firstParam_none_iff _ _).2 hc1] at hf
              cases hf
            rw [i1 name ((k1 name).2 (Or.inr hkey)), k3 name hn, hf]
          | none =>
            have hkey := (firstParam_none_iff _ _).1 hf
            have hna : name ∉ sa.processedPathParams := by
              rw [k1 name]
              rintro (hp | hp)
              · exact hn hp
              · exact hkey hp
            rw [i2 name hna, k3 name hn, hf]

theorem firstParam_declaredPath (name : String) (param : Param) (tc : TestCase)
    (post : List TestCase) :
    ∀ pre : List TestCase, (∀ earlier ∈ pre, name ∉ earlier.PathParams.map Prod.fst) →
      firstParam tc.PathParams name = some param →
      firstParam (declaredPath (pre ++ tc :: post)) name = some param := by
  intro pre
  induction pre with
  | nil =>
    intro _ hf
    simp only [List.nil_append, declaredPath]
    rw [firstParam_append, hf]
  | cons c rest ih =>
    intro hpre hf
    simp only [List.cons_append, declaredPath]
    rw [firstParam_append,
      (firstParam_none_iff _ _).2 (hpre c (List.mem_cons_self _ _))]
    exact ih (fun e he => hpre e (List.mem_cons_of_mem _ he)) hf

theorem firstParam_declaredPath_none (name : String) :
    ∀ cases : List TestCase, (∀ c ∈ cases, name ∉ c.PathParams.map Prod.fst) →
      firstParam (declaredPath cases) name = none := by
  intro cases
  induction cases with
  | nil => intro _; rfl
  | cons c rest ih =>
    intro h
    simp only [declaredPath]
    rw [firstParam_append, (firstParam_none_iff _ _).2 (h c (List.mem_cons_self _ _))]
    exact ih (fun e he => h e (List.mem_cons_of_mem _ he))

theorem ramlTest_uri (ext : Extern) (R : GoMap String Resource) (t : Test) (q : String)
    (h : (ramlTest ext R t).2 = true) (hq : ramlPath t.Path = some q) :
    ∃ res, (ramlTest ext R t).1 q = some res ∧
      (∀ name, res.UriParameters name =
        match firstParam (declaredPath t.TestCases) name with
        | some param => generateRamlNamedParameter name param
        | none => ((R q).getD {}).UriParameters name) ∧
      ∀ c ∈ t.TestCases, ∀ name ∈ c.PathParams.map Prod.fst, res.UriParameters name ≠ none := by
  unfold ramlTest at h ⊢
  rw [hq] at h ⊢
  simp only at h ⊢
  cases hop : ramlOperation ext t ((R q).getD {}).UriParameters with
  | mk uri1 r =>
    rw [hop] at h
    cases r with
    | none =>
      simp only at h
      cases hr : R q with
      | none => rw [hr] at h; cases h
      | some stored => rw [hr] at h; cases h
    | some st =>
      simp only
      refine ⟨_, Function.update_same _ _ _, ?_, ?_⟩
      · intro name
        rw [Resource.assign_uri]
        exact (ramlCases_uri ext _ _ _ _ _ hop).2 name (List.not_mem_nil name)
      · intro c hc name hn
        rw [Resource.assign_uri]
        have hinv := ramlCases_inv ext t.TestCases [] _ uri1
          { m := { Description := t.Description, Name := t.Method } } st
          ⟨fun k hk => absurd hk (List.not_mem_nil k), fun k hk => absurd hk (List.not_mem_nil k),
            fun k hk => absurd hk (List.not_mem_nil k), fun x hx => absurd hx (List.not_mem_nil x),
            fun x hx => absurd hx (List.not_mem_nil x),
            fun x hx => absurd hx (List.not_mem_nil x)⟩ hop
        rw [List.nil_append] at hinv
        exact hinv.path name (hinv.pathDone c hc name hn)

theorem ramlTest_other (ext : Extern) (R : GoMap String Resource) (t : Test) (q p : String)
    (hq : ramlPath t.Path = some p) (hne : q ≠ p) : (ramlTest ext R t).1 q = R q := by
  unfold ramlTest
  rw [hq]
  simp only
  cases hop : ramlOperation ext t ((R p).getD {}).UriParameters with
  | mk uri1 r =>
    cases r with
    | none =>
      simp only
      cases hr : R p with
      | none => rfl
      | some stored => exact Function.update_noteq hne _ _
    | some st => exact Function.update_noteq hne _ _

theorem ramlTests_keep (ext : Extern) (q name : String) :
    ∀ (post : List Test) (R R1 : GoMap String Resource),
      ramlTests ext post R = (R1, true) →
      (∀ later ∈ post, ramlPath later.Path = some q →
        ∀ c ∈ later.TestCases, name ∉ c.PathParams.map Prod.fst) →
      ∀ res, R q = some res →
        ∃ res1, R1 q = some res1 ∧ res1.UriParameters name = res.UriParameters name := by
  intro post
  induction post with
  | nil =>
    intro R R1 h _ res hres
    simp only [ramlTests, Prod.mk.injEq, and_true] at h
    subst h
    exact ⟨res, hres, rfl⟩
  | cons t rest ih =>
    intro R R1 h hlast res hres
    unfold ramlTests at h
    cases ht : ramlTest ext R t with
    | mk Ra b =>
      rw [ht] at h
      cases b with
      | false => simp at h
      | true =>
        simp only at h
        have hb : (ramlTest ext R t).2 = true := by rw [ht]
        obtain ⟨p, st, hp, -⟩ := ramlTest_true hb
        have hRa : Ra = (ramlTest ext R t).1 := by rw [ht]
        have hrest : ∀ later ∈ rest, ramlPath later.Path = some q →
            ∀ c ∈ later.TestCases, name ∉ c.PathParams.map Prod.fst :=
          fun later hl => hlast later (List.mem_cons_of_mem _ hl)
        by_cases hqp : q = p
        · subst hqp
          obtain ⟨resa, hra, hua, -⟩ := ramlTest_uri ext R t q hb hp
          rw [← hRa] at hra
          obtain ⟨res1, h1, h2⟩ := ih Ra R1 h hrest resa hra
          refine ⟨res1, h1, ?_⟩
          rw [h2, hua name,
            firstParam_declaredPath_none name t.TestCases
              (hlast t (List.mem_cons_self _ _) hp), hres]
          rfl
        · have hsame : Ra q = some res := by
            rw [hRa, ramlTest_other ext R t q p hp hqp]
            exact hres
          exact ih Ra R1 h hrest res hsame

theorem ramlTests_split (ext : Extern) (t : Test) (post : List Test) :
    ∀ (pre : List Test) (R R1 : GoMap String Resource),
      ramlTests ext (pre ++ t :: post) R = (R1, true) →
      ∃ Ra, (ramlTest ext Ra t).2 = true ∧
        ramlTests ext post (ramlTest ext Ra t).1 = (R1, true) := by
  intro pre
  induction pre with
  | nil =>
    intro R R1 h
    simp only [List.nil_append] at h
    unfold ramlTests at h
    cases ht : ramlTest ext R t with
    | mk Ra b =>
      rw [ht] at h
      cases b with
      | false => simp at h
      | true =>
        simp only at h
        exact ⟨R, by rw [ht], by rw [ht]; exact h⟩
  | cons x rest ih =>
    intro R R1 h
    rw [List.cons_append] at h
    unfold ramlTests at h
    cases hx : ramlTest ext R x with
    | mk Ra b =>
      rw [hx] at h
      cases b with
      | false => simp at h
      | true =>
        simp only at h
        exact ih Ra R1 h

/-- C23: the set that keeps a path parameter from being converted twice is
that of one test, and the table of URI parameters is that of the resource.
When `Generate` of the RAML generator returns a document for a suite, and a
test of the suite declares a path parameter, and no test after it on the same
path declares one of that name, the entry of the name in the URI parameters of
the resource of the path is the conversion of the entry of the first test case
of that test that declares the name, whatever the tests before it, on the same
path or not, wrote under the name. -/
theorem raml_uri_parameter_of_last_test (ext : Extern) (g : ramlGenerator)
    (pre : List Test) (t : Test) (post : List Test) (doc : APIDefinition) (q name : String)
    (cpre : List TestCase) (tc : TestCase) (cpost : List TestCase) (param : Param)
    (hdoc : (g.document ext (pre ++ t :: post)).2 = some doc)
    (hq : ramlPath t.Path = some q)
    (hcases : t.TestCases = cpre ++ tc :: cpost)
    (hnot : ∀ earlier ∈ cpre, name ∉ earlier.PathParams.map Prod.fst)
    (hfirst : firstParam tc.PathParams name = some param)
    (hlast : ∀ later ∈ post, ramlPath later.Path = some q →
      ∀ c ∈ later.TestCases, name ∉ c.PathParams.map Prod.fst) :
    ∃ resource np, doc.Resources q = some resource ∧
      resource.UriParameters name = some np ∧
      generateRamlNamedParameter name param = some np := by
  rw [ramlDocument_snd] at hdoc
  cases hs : (ramlTests ext (pre ++ t :: post) g.seed.Resources).2 with
  | false => rw [hs] at hdoc; simp at hdoc
  | true =>
    rw [hs] at hdoc
    simp only [if_true, Option.some.injEq] at hdoc
    subst hdoc
    simp only
    have hpair : ramlTests ext (pre ++ t :: post) g.seed.Resources =
        ((ramlTests ext (pre ++ t :: post) g.seed.Resources).1, true) := by
      rw [← hs]
    obtain ⟨Ra, hok, hpost⟩ := ramlTests_split ext t post pre _ _ hpair
    obtain ⟨res, hres, huri, hsome⟩ := ramlTest_uri ext Ra t q hok hq
    obtain ⟨res1, h1, h2⟩ := ramlTests_keep ext q name post _ _ hpost hlast res hres
    have hdecl : firstParam (declaredPath t.TestCases) name = some param := by
      rw [hcases]
      exact firstParam_declaredPath name param tc cpost cpre hnot hfirst
    have hval := huri name
    rw [hdecl] at hval
    have hkey : name ∈ tc.PathParams.map Prod.fst := by
      by_contra hc
      rw [(firstParam_none_iff _ _).2 hc] at hfirst
      cases hfirst
    have hne := hsome tc (by rw [hcases]; simp) name hkey
    cases hnp : res.UriParameters name with
    | none => exact absurd hnp hne
    | some np =>
      refine ⟨res1, np, h1, by rw [h2, hnp], ?_⟩
      rw [← hnp, hval]

theorem raml_uri_parameter_of_last_test_witness :
    (((ramlTests sampleExtern [sampleGetUser] GoMap.empty).1 "/user/{username}").bind
        (fun r => (r.UriParameters "username").map (fun p => (p.Default, p.Description))) =
      some (GoValue.string "octocat", "") ∧
     ((ramlTests sampleExtern sampleSharedPath GoMap.empty).1 "/user/{username}").bind
        (fun r => (r.UriParameters "username").map (fun p => (p.Default, p.Description))) =
      some (GoValue.string "ghost", "Login of nobody")) ∧
    ∃ resource np,
      (((NewRamlGenerator {}).document sampleExtern
        ([sampleGetUser] ++ sampleRedeclared :: [])).2.getD {}).Resources "/user/{username}" =
          some resource ∧
      resource.UriParameters "username" = some np ∧
      generateRamlNamedParameter "username"
        { Value := GoValue.string "ghost", Description := "Login of nobody" } = some np :=
  ⟨⟨by decide, by decide⟩,
    raml_uri_parameter_of_last_test sampleExtern (NewRamlGenerator {}) [sampleGetUser]
      sampleRedeclared [] _ "/user/{username}" "username" []
      { Description := "User is not found",
        PathParams := [("username", { Value := GoValue.string "ghost",
                                      Description := "Login of nobody" })],
        ExpectedHttpCode := 404 }
      [ { Description := "User is updated",
          PathParams := [("username", { Value := GoValue.string "octocat",
                                        Description := "Login of the user" })],
          ExpectedHttpCode := 200 },
        { Description := "User is created",
          PathParams := [("username", { Value := GoValue.int IntWidth.native 7,
                                        Description := "Number of the user" })],
          ExpectedHttpCode := 201 } ]
      { Value := GoValue.string "ghost", Description := "Login of nobody" }
      rfl rfl rfl (fun _ he => absurd he (List.not_mem_nil _)) rfl
      (fun _ he => absurd he (List.not_mem_nil _))⟩

end Schreder
